import Mathlib

/-!
# Verification of DeepQuantum's state-evolution core

A shallow embedding, in Lean 4, of the tensor-index bookkeeping at the heart of
DeepQuantum (`deepquantum/operation.py` and friends): torch-style row-major
`reshape`/`permute` arithmetic, the (controlled) local-operator application for
pure states and density matrices, the gate-to-MPO conversion, the constructor
validation, the QASM macro registry, the photonic transfer amplitude, and the
MBQC single-qubit measurement.

A torch tensor is modelled as a `shape : List ℕ` plus a row-major flat entry
function `data : ℕ → K` (entries beyond the element count are junk).  `reshape`
keeps the flat data, `permute` relabels multi-indices, exactly as torch does.
The scalar type `K` is an arbitrary commutative ring (with a star operation
where conjugation matters); witnesses instantiate `K := ℚ` or `K := ℤ`.
-/

set_option maxRecDepth 10000

namespace DeepQuantum

/-! ## Row-major flat-index arithmetic (the semantics of torch `reshape`) -/

/-- Row-major flat index of a multi-index `idx` with respect to `shape`. -/
def flattenIdx : List ℕ → List ℕ → ℕ
  | [], _ => 0
  | _ :: _, [] => 0
  | _ :: ds, i :: is => i * ds.prod + flattenIdx ds is

/-- Row-major multi-index of the flat index `k` with respect to `shape`. -/
def unflattenIdx : List ℕ → ℕ → List ℕ
  | [], _ => []
  | _ :: ds, k => (k / ds.prod) :: unflattenIdx ds (k % ds.prod)

/-- `idx` is a valid multi-index for `shape`: same length, each entry below its
dimension. -/
def ValidIdx (shape idx : List ℕ) : Prop := List.Forall₂ (fun i d => i < d) idx shape

instance (shape idx : List ℕ) : Decidable (ValidIdx shape idx) := by
  unfold ValidIdx; infer_instance

theorem validIdx_length {shape idx : List ℕ} (h : ValidIdx shape idx) :
    idx.length = shape.length := by
  unfold ValidIdx at h; exact h.length_eq

theorem validIdx_cons {d : ℕ} {ds : List ℕ} {i : ℕ} {is : List ℕ} :
    ValidIdx (d :: ds) (i :: is) ↔ i < d ∧ ValidIdx ds is := List.forall₂_cons

theorem validIdx_append {s₁ s₂ i₁ i₂ : List ℕ} (h₁ : ValidIdx s₁ i₁) (h₂ : ValidIdx s₂ i₂) :
    ValidIdx (s₁ ++ s₂) (i₁ ++ i₂) := List.rel_append h₁ h₂

theorem flattenIdx_lt {shape idx : List ℕ} (h : ValidIdx shape idx) :
    flattenIdx shape idx < shape.prod := by
  induction h with
  | nil => simp [flattenIdx]
  | cons hid hrest ih =>
    rename_i i d is ds
    simp only [flattenIdx, List.prod_cons]
    calc i * ds.prod + flattenIdx ds is < i * ds.prod + ds.prod := by omega
    _ = (i + 1) * ds.prod := by ring
    _ ≤ d * ds.prod := Nat.mul_le_mul_right _ hid

theorem shape_prod_pos {shape idx : List ℕ} (h : ValidIdx shape idx) : 0 < shape.prod :=
  Nat.pos_of_ne_zero (fun h0 => by have := flattenIdx_lt h; omega)

theorem unflattenIdx_length (shape : List ℕ) (k : ℕ) :
    (unflattenIdx shape k).length = shape.length := by
  induction shape generalizing k with
  | nil => rfl
  | cons d ds ih => simp [unflattenIdx, ih]

theorem unflattenIdx_valid {shape : List ℕ} {k : ℕ} (h : k < shape.prod) :
    ValidIdx shape (unflattenIdx shape k) := by
  induction shape generalizing k with
  | nil => exact List.Forall₂.nil
  | cons d ds ih =>
    simp only [List.prod_cons] at h
    have hP : 0 < ds.prod := Nat.pos_of_ne_zero (fun h0 => by simp [h0] at h)
    refine validIdx_cons.mpr ⟨?_, ih (Nat.mod_lt _ hP)⟩
    exact Nat.div_lt_of_lt_mul (by rw [Nat.mul_comm]; exact h)

theorem flattenIdx_unflattenIdx {shape : List ℕ} {k : ℕ} (h : k < shape.prod) :
    flattenIdx shape (unflattenIdx shape k) = k := by
  induction shape generalizing k with
  | nil =>
    simp only [List.prod_nil, Nat.lt_one_iff] at h
    subst h; rfl
  | cons d ds ih =>
    simp only [List.prod_cons] at h
    have hP : 0 < ds.prod := Nat.pos_of_ne_zero (fun h0 => by simp [h0] at h)
    simp only [unflattenIdx, flattenIdx, ih (Nat.mod_lt _ hP)]
    exact Nat.div_add_mod' k ds.prod

theorem unflattenIdx_flattenIdx {shape idx : List ℕ} (h : ValidIdx shape idx) :
    unflattenIdx shape (flattenIdx shape idx) = idx := by
  induction h with
  | nil => rfl
  | cons hid hrest ih =>
    rename_i i d is ds
    have hflt : flattenIdx ds is < ds.prod := flattenIdx_lt hrest
    simp only [flattenIdx, unflattenIdx, List.cons.injEq]
    constructor
    · rw [Nat.add_comm, Nat.add_mul_div_right _ _ (by omega : 0 < ds.prod),
        Nat.div_eq_of_lt hflt, Nat.zero_add]
    · rw [Nat.add_comm, Nat.add_mul_mod_self_right, Nat.mod_eq_of_lt hflt, ih]

theorem flattenIdx_append {s₁ s₂ i₁ i₂ : List ℕ} (h : i₁.length = s₁.length) :
    flattenIdx (s₁ ++ s₂) (i₁ ++ i₂) =
      flattenIdx s₁ i₁ * s₂.prod + flattenIdx s₂ i₂ := by
  induction s₁ generalizing i₁ with
  | nil =>
    rw [List.length_nil, List.length_eq_zero] at h
    subst h; simp [flattenIdx]
  | cons d ds ih =>
    cases i₁ with
    | nil => simp at h
    | cons i is =>
      simp only [List.length_cons, Nat.succ.injEq] at h
      show flattenIdx (d :: (ds ++ s₂)) (i :: (is ++ i₂)) = _
      simp only [flattenIdx, List.prod_append, ih h, List.prod_cons]
      ring

/-- The product of a replicated binary shape. -/
theorem prod_replicate_two (n : ℕ) : (List.replicate n 2).prod = 2 ^ n := by
  induction n with
  | zero => rfl
  | succ m ih => rw [List.replicate_succ, List.prod_cons, ih, pow_succ]; ring

/-- Splitting a sum over `range (a * b)` into a double sum via div/mod. -/
theorem sum_range_mul {M : Type*} [AddCommMonoid M] (a b : ℕ) (f : ℕ → M) :
    ∑ k ∈ Finset.range (a * b), f k =
      ∑ i ∈ Finset.range a, ∑ j ∈ Finset.range b, f (i * b + j) := by
  rcases Nat.eq_zero_or_pos b with hb | hb
  · subst hb; simp
  · rw [← Finset.sum_product']
    apply Finset.sum_nbij' (fun k => (k / b, k % b)) (fun p => p.1 * b + p.2)
    · intro k hk
      simp only [Finset.mem_range] at hk
      simp only [Finset.mem_product, Finset.mem_range]
      exact ⟨Nat.div_lt_of_lt_mul (by rw [Nat.mul_comm]; exact hk), Nat.mod_lt _ hb⟩
    · intro p hp
      simp only [Finset.mem_product, Finset.mem_range] at hp
      simp only [Finset.mem_range]
      calc p.1 * b + p.2 < p.1 * b + b := by omega
      _ = (p.1 + 1) * b := by ring
      _ ≤ a * b := Nat.mul_le_mul_right _ hp.1
    · intro k _
      show k / b * b + k % b = k
      exact Nat.div_add_mod' k b
    · intro p hp
      simp only [Finset.mem_product, Finset.mem_range] at hp
      have h1 : (p.1 * b + p.2) / b = p.1 := by
        rw [Nat.add_comm, Nat.add_mul_div_right _ _ hb, Nat.div_eq_of_lt hp.2, Nat.zero_add]
      have h2 : (p.1 * b + p.2) % b = p.2 := by
        rw [Nat.add_comm, Nat.add_mul_mod_self_right, Nat.mod_eq_of_lt hp.2]
      show ((p.1 * b + p.2) / b, (p.1 * b + p.2) % b) = p
      rw [h1, h2]
    · intro k _
      show f k = f (k / b * b + k % b)
      rw [Nat.div_add_mod' k b]

theorem mul_add_div_eq {B : ℕ} {r : ℕ} (hr : r < B) (q : ℕ) : (q * B + r) / B = q := by
  rw [Nat.add_comm, Nat.add_mul_div_right _ _ (by omega : 0 < B), Nat.div_eq_of_lt hr,
    Nat.zero_add]

theorem mul_add_mod_eq {B : ℕ} {r : ℕ} (hr : r < B) (q : ℕ) : (q * B + r) % B = r := by
  rw [Nat.add_comm, Nat.add_mul_mod_self_right, Nat.mod_eq_of_lt hr]

/-! ## Tensors: a shape plus row-major flat data, as in torch -/

/-- A torch tensor over scalars `K`: a shape and a row-major flat entry function
(entries at flat indices `≥ shape.prod` are junk). -/
structure Tensor (K : Type) where
  shape : List ℕ
  data : ℕ → K

namespace Tensor

variable {K : Type}

/-- Total number of elements. -/
def numel (t : Tensor K) : ℕ := t.shape.prod

/-- Entry at a multi-index. -/
def entry (t : Tensor K) (idx : List ℕ) : K := t.data (flattenIdx t.shape idx)

/-- torch's `x.reshape(s)`: same row-major data, new shape. -/
def reshape (s : List ℕ) (t : Tensor K) : Tensor K := ⟨s, t.data⟩

/-- The shape of `x.permute(p)`: axis `m` of the result is axis `p[m]` of `x`. -/
def permuteShape (p : List ℕ) (t : Tensor K) : List ℕ := p.map (fun a => t.shape.getD a 0)

/-- Axis selection used by `permute`: the source multi-index `i` with
`i[pos] = j[p.indexOf pos]`, i.e. `i[p[m]] = j[m]`. -/
def selectIdx (R : ℕ) (p : List ℕ) (j : List ℕ) : List ℕ :=
  (List.range R).map (fun pos => j.getD (p.indexOf pos) 0)

/-- torch's `x.permute(p)`: entry at multi-index `j` is `x`'s entry at the index `i`
with `i[p[m]] = j[m]`. -/
def permute (p : List ℕ) (t : Tensor K) : Tensor K where
  shape := permuteShape p t
  data := fun k =>
    t.data (flattenIdx t.shape
      (selectIdx t.shape.length p (unflattenIdx (permuteShape p t) k)))

/-- Two tensors agree: same shape and same data on every in-range flat index. -/
def EqOn (t₁ t₂ : Tensor K) : Prop :=
  t₁.shape = t₂.shape ∧ ∀ k < t₁.numel, t₁.data k = t₂.data k

end Tensor

/-- `matrix @ x` for `matrix` an `m × m` dense matrix and `x` of shape `(m, cols)`. -/
def matMulTensor {K : Type} [CommRing K] (m cols : ℕ) (M : ℕ → ℕ → K) (t : Tensor K) :
    Tensor K where
  shape := [m, cols]
  data := fun k => ∑ i ∈ Finset.range m, M (k / cols) i * t.data (i * cols + k % cols)

/-- `state1[:, :, -1]` for a rank-3 tensor of shape `(a, m, c)`. -/
def slice3Last {K : Type} (t : Tensor K) : Tensor K :=
  ⟨[t.shape.getD 0 0, t.shape.getD 1 0], fun k =>
    let m := t.shape.getD 1 0
    let c := t.shape.getD 2 0
    t.data (k / m * (m * c) + k % m * c + (c - 1))⟩

/-- `state1[:, :, :-1]` for a rank-3 tensor of shape `(a, m, c)`. -/
def slice3Init {K : Type} (t : Tensor K) : Tensor K :=
  ⟨[t.shape.getD 0 0, t.shape.getD 1 0, t.shape.getD 2 0 - 1], fun k =>
    let m := t.shape.getD 1 0
    let c := t.shape.getD 2 0
    t.data (k / (m * (c - 1)) * (m * c) + k % (m * (c - 1)) / (c - 1) * c
      + k % (m * (c - 1)) % (c - 1))⟩

/-- `x.unsqueeze(-1)`. -/
def unsqueezeLast {K : Type} (t : Tensor K) : Tensor K := ⟨t.shape ++ [1], t.data⟩

/-- `torch.cat([t₁, t₂], dim=-1)` for rank-3 tensors of shapes `(a, m, c₁)`, `(a, m, c₂)`. -/
def cat3 {K : Type} (t₁ t₂ : Tensor K) : Tensor K :=
  ⟨[t₁.shape.getD 0 0, t₁.shape.getD 1 0, t₁.shape.getD 2 0 + t₂.shape.getD 2 0], fun k =>
    let m := t₁.shape.getD 1 0
    let c₁ := t₁.shape.getD 2 0
    let c₂ := t₂.shape.getD 2 0
    let c := c₁ + c₂
    let i := k / (m * c)
    let j := k % (m * c) / c
    let l := k % (m * c) % c
    if l < c₁ then t₁.data (i * (m * c₁) + j * c₁ + l)
    else t₂.data (i * (m * c₂) + j * c₂ + (l - c₁))⟩

/-- Squared ℓ²-norm of all entries (`star z * z` summed over the flat range). -/
def sumSq {K : Type} [CommRing K] [StarRing K] (t : Tensor K) : K :=
  ∑ k ∈ Finset.range t.numel, star (t.data k) * t.data k

/-! ## List and permutation helper lemmas -/

theorem getD_eq_getElem' {l : List ℕ} {n : ℕ} (h : n < l.length) (d : ℕ) :
    l.getD n d = l[n] := List.getD_eq_getElem l d h

theorem getD_indexOf_self {l : List ℕ} {a : ℕ} (h : a ∈ l) :
    l.getD (l.indexOf a) 0 = a := by
  rw [getD_eq_getElem' (List.indexOf_lt_length.mpr h)]
  exact List.getElem_indexOf _

theorem indexOf_getD_nodup {l : List ℕ} (hnd : l.Nodup) {i : ℕ} (h : i < l.length) :
    l.indexOf (l.getD i 0) = i := by
  rw [getD_eq_getElem' h]
  exact List.get_indexOf hnd ⟨i, h⟩

theorem indexOf_inj_of_mem {l : List ℕ} {a b : ℕ} (ha : a ∈ l) (hb : b ∈ l)
    (h : l.indexOf a = l.indexOf b) : a = b := by
  have h1 := getD_indexOf_self ha
  rw [h, getD_indexOf_self hb] at h1
  exact h1.symm

theorem map_getD_range {α : Type} (l : List ℕ) (f : ℕ → α) :
    (List.range l.length).map (fun i => f (l.getD i 0)) = l.map f := by
  apply List.ext_getElem
  · simp
  · intro n h1 h2
    simp only [List.getElem_map, List.getElem_range]
    rw [getD_eq_getElem' (by simpa using h1)]

theorem map_eq_replicate_of_forall {α : Type} {l : List ℕ} {f : ℕ → α} {c : α}
    (h : ∀ a ∈ l, f a = c) : l.map f = List.replicate l.length c := by
  rw [show l.length = (l.map f).length by simp]
  apply List.eq_replicate_of_mem
  intro b hb
  rw [List.mem_map] at hb
  obtain ⟨a, ha, rfl⟩ := hb
  exact h a ha

/-- `p` is (as a list) a permutation of `[0, …, R-1]`. -/
def IsPermOf (p : List ℕ) (R : ℕ) : Prop := List.Perm p (List.range R)

theorem IsPermOf.length {p : List ℕ} {R : ℕ} (h : IsPermOf p R) : p.length = R := by
  have := List.Perm.length_eq h
  simpa using this

theorem IsPermOf.nodup {p : List ℕ} {R : ℕ} (h : IsPermOf p R) : p.Nodup :=
  (List.Perm.nodup_iff h).mpr (List.nodup_range R)

theorem IsPermOf.mem_iff {p : List ℕ} {R : ℕ} (h : IsPermOf p R) {a : ℕ} :
    a ∈ p ↔ a < R := by
  rw [List.Perm.mem_iff h, List.mem_range]

/-! ## The `pm_shape` construction: erase loops and the inverse permutation -/

/-- The `for i in rs: l.remove(i)` loop of the source: erase each listed element once. -/
def eraseEach (l : List ℕ) (rs : List ℕ) : List ℕ := rs.foldl List.erase l

theorem eraseEach_cons (l : List ℕ) (r : ℕ) (rs : List ℕ) :
    eraseEach l (r :: rs) = eraseEach (l.erase r) rs := rfl

theorem eraseEach_append (l rs₁ rs₂ : List ℕ) :
    eraseEach l (rs₁ ++ rs₂) = eraseEach (eraseEach l rs₁) rs₂ := List.foldl_append _ _ _ _

theorem perm_append_eraseEach {rs : List ℕ} (hnd : rs.Nodup) :
    ∀ {l : List ℕ}, (∀ a ∈ rs, a ∈ l) → List.Perm (rs ++ eraseEach l rs) l := by
  induction rs with
  | nil => intro l _; simp [eraseEach]
  | cons r rs ih =>
    intro l hsub
    have hr : r ∈ l := hsub r (by simp)
    have hnd' : rs.Nodup := (List.nodup_cons.mp hnd).2
    have hrmem : r ∉ rs := (List.nodup_cons.mp hnd).1
    have hsub' : ∀ a ∈ rs, a ∈ l.erase r := fun a ha =>
      (List.mem_erase_of_ne (fun he => hrmem (by rw [← he]; exact ha))).mpr
        (hsub a (by simp [ha]))
    rw [List.cons_append, eraseEach_cons]
    exact (List.Perm.cons r (ih hnd' hsub')).trans (List.perm_cons_erase hr).symm

theorem eraseEach_cons_of_not_mem {rs : List ℕ} {x : ℕ} (h : x ∉ rs) (l : List ℕ) :
    eraseEach (x :: l) rs = x :: eraseEach l rs := by
  induction rs generalizing l with
  | nil => rfl
  | cons r rs ih =>
    have hne : r ≠ x := fun he => h (by simp [he])
    rw [eraseEach_cons, List.erase_cons_tail, eraseEach_cons,
      ih (fun hm => h (by simp [hm]))]
    simp only [beq_iff_eq]
    exact fun hh => hne hh.symm

/-- Modelled from the spec: `inverse_permutation` is defined in `deepquantum/qmath.py`,
which is not among the provided source files.  Spec §4.1 requires "the exact inverse
permutation to restore original axis order": position `j` of the inverse holds the
position at which `j` occurs inside `p`. -/
def inverse_permutation (p : List ℕ) : List ℕ :=
  (List.range p.length).map (fun j => p.indexOf j)

theorem inverse_permutation_length (p : List ℕ) :
    (inverse_permutation p).length = p.length := by simp [inverse_permutation]

theorem inverse_permutation_getD {p : List ℕ} {R m : ℕ} (hp : IsPermOf p R) (hm : m < R) :
    (inverse_permutation p).getD m 0 = p.indexOf m := by
  unfold inverse_permutation
  rw [getD_eq_getElem' (by simp [hp.length, hm])]
  simp

theorem inverse_permutation_nodup {p : List ℕ} {R : ℕ} (hp : IsPermOf p R) :
    (inverse_permutation p).Nodup := by
  unfold inverse_permutation
  refine List.Nodup.map_on ?_ (List.nodup_range p.length)
  intro x hx y hy hxy
  exact indexOf_inj_of_mem (hp.mem_iff.mpr (by rw [← hp.length]; simpa using hx))
    (hp.mem_iff.mpr (by rw [← hp.length]; simpa using hy)) hxy

theorem indexOf_eq_of_getD {l : List ℕ} (h : l.Nodup) {i a : ℕ} (hi : i < l.length)
    (hg : l.getD i 0 = a) : l.indexOf a = i := by
  rw [← hg]; exact indexOf_getD_nodup h hi

theorem getD_lt_of_isPermOf {p : List ℕ} {R : ℕ} (hp : IsPermOf p R) {pos : ℕ}
    (hpos : pos < R) : p.getD pos 0 < R := by
  have h : pos < p.length := hp.length ▸ hpos
  rw [getD_eq_getElem' h]
  exact hp.mem_iff.mp (List.getElem_mem h)

theorem indexOf_inverse_permutation {p : List ℕ} {R pos : ℕ} (hp : IsPermOf p R)
    (hpos : pos < R) : (inverse_permutation p).indexOf pos = p.getD pos 0 := by
  refine indexOf_eq_of_getD (inverse_permutation_nodup hp)
    (by rw [inverse_permutation_length, hp.length]; exact getD_lt_of_isPermOf hp hpos) ?_
  rw [inverse_permutation_getD hp (getD_lt_of_isPermOf hp hpos)]
  exact indexOf_getD_nodup hp.nodup (hp.length ▸ hpos)

theorem getD_map_indexOf {f : ℕ → ℕ} {p : List ℕ} {m : ℕ} (hm : m ∈ p) :
    (p.map f).getD (p.indexOf m) 0 = f m := by
  have h : p.indexOf m < p.length := List.indexOf_lt_length.mpr hm
  rw [getD_eq_getElem' (by simpa using h)]
  simp only [List.getElem_map]
  congr 1
  exact List.getElem_indexOf h

theorem validIdx_getD {s idx : List ℕ} (h : ValidIdx s idx) {a : ℕ} (ha : a < s.length) :
    idx.getD a 0 < s.getD a 0 := by
  unfold ValidIdx at h
  rw [List.forall₂_iff_get] at h
  obtain ⟨hlen, hget⟩ := h
  rw [getD_eq_getElem' (hlen ▸ ha), getD_eq_getElem' ha]
  exact hget a (hlen ▸ ha) ha

/-- Gather: multi-index `p.map (idx[·])`; `permuteShape` is the same applied to shapes. -/
def gatherIdx (p idx : List ℕ) : List ℕ := p.map (fun a => idx.getD a 0)

theorem permuteShape_eq_gather {K : Type} (p : List ℕ) (t : Tensor K) :
    Tensor.permuteShape p t = gatherIdx p t.shape := rfl

theorem validIdx_gather {s idx p : List ℕ} (h : ValidIdx s idx)
    (hb : ∀ a ∈ p, a < s.length) : ValidIdx (gatherIdx p s) (gatherIdx p idx) := by
  unfold ValidIdx gatherIdx
  rw [List.forall₂_map_left_iff, List.forall₂_map_right_iff]
  exact List.forall₂_same.mpr (fun a ha => validIdx_getD h (hb a ha))

/-! ## Entry-level behaviour of `permute` and its inverse -/

theorem range_map_getD (l : List ℕ) :
    (List.range l.length).map (fun i => l.getD i 0) = l := by
  have h := map_getD_range l id
  simpa using h

namespace Tensor

variable {K : Type}

theorem data_eq_entry {t : Tensor K} {k : ℕ} (h : k < t.numel) :
    t.data k = t.entry (unflattenIdx t.shape k) := by
  unfold entry
  rw [flattenIdx_unflattenIdx h]

theorem permute_entry (p : List ℕ) (t : Tensor K) {idx : List ℕ}
    (hv : ValidIdx (permuteShape p t) idx) :
    (t.permute p).entry idx =
      t.data (flattenIdx t.shape (selectIdx t.shape.length p idx)) := by
  show t.data (flattenIdx t.shape (selectIdx t.shape.length p
      (unflattenIdx (permuteShape p t) (flattenIdx (permuteShape p t) idx)))) = _
  rw [unflattenIdx_flattenIdx hv]

end Tensor

theorem selectIdx_inverse {p : List ℕ} {R : ℕ} (hp : IsPermOf p R) (idx : List ℕ) :
    Tensor.selectIdx R (inverse_permutation p) idx = gatherIdx p idx := by
  have h1 : gatherIdx p idx = (List.range R).map (fun pos => idx.getD (p.getD pos 0) 0) := by
    rw [← hp.length]
    exact (map_getD_range p (fun a => idx.getD a 0)).symm
  rw [h1]
  unfold Tensor.selectIdx
  apply List.map_congr_left
  intro pos hpos
  rw [indexOf_inverse_permutation hp (List.mem_range.mp hpos)]

theorem selectIdx_gather {p : List ℕ} {R : ℕ} (hp : IsPermOf p R) {idx : List ℕ}
    (hlen : idx.length = R) :
    Tensor.selectIdx R p (gatherIdx p idx) = idx := by
  unfold Tensor.selectIdx gatherIdx
  rw [List.map_congr_left (fun pos hpos =>
    getD_map_indexOf (f := fun a => idx.getD a 0)
      (hp.mem_iff.mpr (List.mem_range.mp hpos)))]
  rw [← hlen]
  exact range_map_getD idx

theorem gather_inverse_eq_select (p j : List ℕ) :
    gatherIdx (inverse_permutation p) j = Tensor.selectIdx p.length p j := by
  unfold gatherIdx inverse_permutation Tensor.selectIdx
  rw [List.map_map]
  rfl

theorem permuteShape_length {K : Type} (p : List ℕ) (t : Tensor K) :
    (Tensor.permuteShape p t).length = p.length := by
  simp [Tensor.permuteShape]

theorem permuteShape_inverse {K : Type} {p : List ℕ} {R : ℕ} (hp : IsPermOf p R)
    (t : Tensor K) (hshape : t.shape.length = R) :
    Tensor.permuteShape (inverse_permutation p) (t.permute p) = t.shape := by
  show gatherIdx (inverse_permutation p) (gatherIdx p t.shape) = t.shape
  rw [gather_inverse_eq_select, hp.length, selectIdx_gather hp hshape]

theorem permute_permute_inverse_entry {K : Type} {p : List ℕ} {R : ℕ} (hp : IsPermOf p R)
    (t : Tensor K) (hshape : t.shape.length = R) {idx : List ℕ}
    (hv : ValidIdx t.shape idx) :
    ((t.permute p).permute (inverse_permutation p)).entry idx = t.entry idx := by
  have hlen_idx : idx.length = R := (validIdx_length hv).trans hshape
  have hb : ∀ a ∈ p, a < t.shape.length := fun a ha => hshape ▸ hp.mem_iff.mp ha
  have hv1 : ValidIdx (Tensor.permuteShape (inverse_permutation p) (t.permute p)) idx := by
    rw [permuteShape_inverse hp t hshape]
    exact hv
  rw [Tensor.permute_entry _ _ hv1]
  have hplen : (t.permute p).shape.length = R := by
    show (Tensor.permuteShape p t).length = R
    rw [permuteShape_length, hp.length]
  rw [hplen, selectIdx_inverse hp]
  show t.data (flattenIdx t.shape (Tensor.selectIdx t.shape.length p
      (unflattenIdx (Tensor.permuteShape p t) (flattenIdx (Tensor.permuteShape p t)
        (gatherIdx p idx))))) = _
  rw [permuteShape_eq_gather p t,
    unflattenIdx_flattenIdx (validIdx_gather hv hb), hshape, selectIdx_gather hp hlen_idx]
  rfl

theorem permute_permute_inverse {K : Type} {p : List ℕ} {R : ℕ} (hp : IsPermOf p R)
    (t : Tensor K) (hshape : t.shape.length = R) :
    Tensor.EqOn ((t.permute p).permute (inverse_permutation p)) t := by
  have hsh := permuteShape_inverse hp t hshape
  refine ⟨hsh, ?_⟩
  intro k hk
  have hnum : ((t.permute p).permute (inverse_permutation p)).numel = t.numel := by
    unfold Tensor.numel
    show (Tensor.permuteShape (inverse_permutation p) (t.permute p)).prod = _
    rw [hsh]
  have hk' : k < t.numel := by rwa [hnum] at hk
  rw [Tensor.data_eq_entry hk, Tensor.data_eq_entry hk']
  show ((t.permute p).permute (inverse_permutation p)).entry
      (unflattenIdx (Tensor.permuteShape (inverse_permutation p) (t.permute p)) k) = _
  rw [hsh]
  exact permute_permute_inverse_entry hp t hshape (unflattenIdx_valid hk')

/-! ## The local-operator application of `deepquantum/operation.py` -/

/-- Common body of `Gate.op_state_base` (rank `R = nqubit+1`) and of each half of
`Gate.op_den_mat_base` (rank `R = 2*nqubit+1`): permute the (batch-shifted) target
axes `axes` to the front, flatten to `(2^nt, -1)`, left-multiply by `M`, reshape back
and undo the permutation (operation.py lines 89-99 and 129-149). -/
def applyBase {K : Type} [CommRing K] (R : ℕ) (axes : List ℕ) (M : ℕ → ℕ → K)
    (x : Tensor K) : Tensor K :=
  let nt := axes.length
  let pm := axes ++ eraseEach (List.range R) axes
  let x1 := (x.permute pm).reshape [2 ^ nt, x.numel / 2 ^ nt]
  let x2 := matMulTensor (2 ^ nt) (x.numel / 2 ^ nt) M x1
  let x3 := x2.reshape (List.replicate nt 2 ++ [x.numel / 2 ^ (R - 1)]
    ++ List.replicate (R - 1 - nt) 2)
  x3.permute (inverse_permutation pm)

/-- Common body of `Gate.op_state_control` (rank `R = nqubit+1`) and of each half of
`Gate.op_den_mat_control` (rank `R = 2*nqubit+1`): move target axes to the front and
control axes to the back, multiply `M` into the last slice along the flattened
control dimension (`state1[:, :, -1]`), concatenate with the untouched slices,
reshape back and undo the permutation (operation.py lines 101-117 and 151-182). -/
def applyControlled {K : Type} [CommRing K] (R : ℕ) (waxes caxes : List ℕ)
    (M : ℕ → ℕ → K) (x : Tensor K) : Tensor K :=
  let nt := waxes.length
  let nc := caxes.length
  let pm := waxes ++ eraseEach (List.range R) (waxes ++ caxes) ++ caxes
  let m0 := x.numel / (2 ^ nt * 2 ^ nc)
  let state1 := (x.permute pm).reshape [2 ^ nt, m0, 2 ^ nc]
  let state2 := unsqueezeLast (matMulTensor (2 ^ nt) m0 M (slice3Last state1))
  let state1' := cat3 (slice3Init state1) state2
  let y := state1'.reshape (List.replicate nt 2 ++ [x.numel / 2 ^ (R - 1)]
    ++ List.replicate (R - 1 - nt - nc) 2 ++ List.replicate nc 2)
  y.permute (inverse_permutation pm)

/-- `Gate.op_state_base` (operation.py lines 89-99): state tensor of rank
`nqubit + 1` (leading batch axis), gate matrix `M` on target `wires`. -/
def op_state_base {K : Type} [CommRing K] (nqubit : ℕ) (wires : List ℕ)
    (M : ℕ → ℕ → K) (x : Tensor K) : Tensor K :=
  applyBase (nqubit + 1) (wires.map (· + 1)) M x

/-- `Gate.op_state_control` (operation.py lines 101-117). -/
def op_state_control {K : Type} [CommRing K] (nqubit : ℕ) (wires controls : List ℕ)
    (M : ℕ → ℕ → K) (x : Tensor K) : Tensor K :=
  applyControlled (nqubit + 1) (wires.map (· + 1)) (controls.map (· + 1)) M x

/-- `Gate.op_den_mat_base` (operation.py lines 129-149): left multiply on the ket
axes (`wires + 1`), then the conjugate matrix on the mirrored bra axes
(`wires + 1 + nqubit`). -/
def op_den_mat_base {K : Type} [CommRing K] [StarRing K] (nqubit : ℕ)
    (wires : List ℕ) (M : ℕ → ℕ → K) (x : Tensor K) : Tensor K :=
  let x1 := applyBase (2 * nqubit + 1) (wires.map (· + 1)) M x
  applyBase (2 * nqubit + 1) (wires.map (· + 1 + nqubit)) (fun r c => star (M r c)) x1

/-- `Gate.op_den_mat_control` (operation.py lines 151-182): controlled left multiply
on the ket axes, then the controlled conjugate multiply on the mirrored bra axes. -/
def op_den_mat_control {K : Type} [CommRing K] [StarRing K] (nqubit : ℕ)
    (wires controls : List ℕ) (M : ℕ → ℕ → K) (x : Tensor K) : Tensor K :=
  let x1 := applyControlled (2 * nqubit + 1) (wires.map (· + 1))
    (controls.map (· + 1)) M x
  applyControlled (2 * nqubit + 1) (wires.map (· + 1 + nqubit))
    (controls.map (· + 1 + nqubit)) (fun r c => star (M r c)) x1

/-- `Operation.vector_rep`: reshape to `(-1, 2^nqubit, 1)`. -/
def vector_rep {K : Type} (nqubit : ℕ) (x : Tensor K) : Tensor K :=
  x.reshape [x.numel / 2 ^ nqubit, 2 ^ nqubit, 1]

/-- `.squeeze(0)`: drop the leading axis when it has size 1. -/
def squeeze0 {K : Type} (x : Tensor K) : Tensor K :=
  if x.shape.headD 0 = 1 then ⟨x.shape.tail, x.data⟩ else x

/-- `Gate.op_state` (operation.py lines 79-87): dispatch on `controls == []`; in
non-tensor mode reshape to a column vector and drop the singleton batch axis. -/
def op_state {K : Type} [CommRing K] (nqubit : ℕ) (wires controls : List ℕ)
    (M : ℕ → ℕ → K) (tsr_mode : Bool) (x : Tensor K) : Tensor K :=
  let y := if controls = [] then op_state_base nqubit wires M x
           else op_state_control nqubit wires controls M x
  if tsr_mode then y else squeeze0 (vector_rep nqubit y)

/-- The flat entries of a tensor, in row-major order. -/
def tensorToList {K : Type} (t : Tensor K) : List K :=
  (List.range t.numel).map t.data

/-! ## Structure of the `pm_shape` permutation and congruence machinery -/

theorem getD_replicate {c i d m : ℕ} (h : i < m) : (List.replicate m c).getD i d = c := by
  rw [getD_eq_getElem' (by simpa using h)]
  exact List.getElem_replicate _ (by simpa using h)

theorem eraseEach_sublist (rs : List ℕ) :
    ∀ l : List ℕ, List.Sublist (eraseEach l rs) l := by
  induction rs with
  | nil => intro l; exact List.Sublist.refl l
  | cons r rs ih =>
    intro l
    exact (ih (l.erase r)).trans (List.erase_sublist r l)

theorem gatherIdx_perm {q s : List ℕ} {R : ℕ} (hq : IsPermOf q R) (hs : s.length = R) :
    List.Perm (gatherIdx q s) s := by
  unfold gatherIdx
  have h1 : List.Perm (q.map fun a => s.getD a 0) ((List.range R).map fun a => s.getD a 0) :=
    List.Perm.map _ hq
  rw [← hs] at h1
  rwa [range_map_getD s] at h1

theorem gatherIdx_prod {q s : List ℕ} {R : ℕ} (hq : IsPermOf q R) (hs : s.length = R) :
    (gatherIdx q s).prod = s.prod := List.Perm.prod_eq (gatherIdx_perm hq hs)

theorem validIdx_select {q s j : List ℕ} {R : ℕ} (hq : IsPermOf q R) (hs : s.length = R)
    (hj : ValidIdx (gatherIdx q s) j) : ValidIdx s (Tensor.selectIdx R q j) := by
  unfold ValidIdx Tensor.selectIdx
  rw [List.forall₂_iff_get]
  constructor
  · simp [hs]
  · intro pos h₁ h₂
    simp only [List.get_eq_getElem, List.getElem_map, List.getElem_range]
    have hposR : pos < R := by simpa using h₁
    have hmem : pos ∈ q := hq.mem_iff.mpr hposR
    have hidx : q.indexOf pos < q.length := List.indexOf_lt_length.mpr hmem
    have h3 : j.getD (q.indexOf pos) 0 < (gatherIdx q s).getD (q.indexOf pos) 0 :=
      validIdx_getD hj (by simpa [gatherIdx] using hidx)
    rw [show (gatherIdx q s).getD (q.indexOf pos) 0 = s.getD pos 0 from
      getD_map_indexOf hmem] at h3
    rwa [getD_eq_getElem' h₂ 0] at h3

namespace Tensor

variable {K : Type}

theorem EqOn.refl (t : Tensor K) : EqOn t t := ⟨rfl, fun _ _ => rfl⟩

theorem EqOn.trans {t₁ t₂ t₃ : Tensor K} (h₁ : EqOn t₁ t₂) (h₂ : EqOn t₂ t₃) :
    EqOn t₁ t₃ := by
  refine ⟨h₁.1.trans h₂.1, fun k hk => ?_⟩
  rw [h₁.2 k hk]
  apply h₂.2
  unfold numel at *
  rwa [← h₁.1]

theorem permute_eqOn {q : List ℕ} {R : ℕ} (hq : IsPermOf q R) {t₁ t₂ : Tensor K}
    (hlen : t₁.shape.length = R) (h : EqOn t₁ t₂) :
    EqOn (t₁.permute q) (t₂.permute q) := by
  have hsh : permuteShape q t₁ = permuteShape q t₂ := by
    unfold permuteShape
    rw [h.1]
  refine ⟨hsh, fun k hk => ?_⟩
  show t₁.data (flattenIdx t₁.shape (selectIdx t₁.shape.length q
      (unflattenIdx (permuteShape q t₁) k))) = t₂.data (flattenIdx t₂.shape
      (selectIdx t₂.shape.length q (unflattenIdx (permuteShape q t₂) k)))
  rw [← h.1, ← hsh, hlen]
  have hk' : k < (gatherIdx q t₁.shape).prod := hk
  have hvj : ValidIdx (gatherIdx q t₁.shape) (unflattenIdx (gatherIdx q t₁.shape) k) :=
    unflattenIdx_valid hk'
  exact h.2 _ (flattenIdx_lt (validIdx_select hq hlen hvj))

end Tensor

/-- Structure of `pm_shape = axes ++ eraseEach (range R) axes` for batch-shifted
target axes: a permutation of `range R` whose induced shape is
`[2]*nt ++ [b] ++ [2]*(R-1-nt)`. -/
theorem basePm_isPermOf {axes : List ℕ} {R : ℕ} (hnd : axes.Nodup)
    (hax : ∀ a ∈ axes, 1 ≤ a ∧ a < R) :
    IsPermOf (axes ++ eraseEach (List.range R) axes) R :=
  perm_append_eraseEach hnd (fun a ha => List.mem_range.mpr (hax a ha).2)

theorem getD_bshape_two {R b a : ℕ} (h1 : 1 ≤ a) (h2 : a < R) :
    (b :: List.replicate (R - 1) 2).getD a 0 = 2 := by
  obtain ⟨a', rfl⟩ : ∃ a', a = a' + 1 := ⟨a - 1, by omega⟩
  show (List.replicate (R - 1) 2).getD a' 0 = 2
  exact getD_replicate (by omega)

theorem gather_axes_shape {axes : List ℕ} {R b : ℕ}
    (hax : ∀ a ∈ axes, 1 ≤ a ∧ a < R) :
    gatherIdx axes (b :: List.replicate (R - 1) 2) = List.replicate axes.length 2 :=
  map_eq_replicate_of_forall (fun a ha => getD_bshape_two (hax a ha).1 (hax a ha).2)

theorem gather_rest0_shape {axes : List ℕ} {R b : ℕ} (hR : 1 ≤ R) (hnd : axes.Nodup)
    (hax : ∀ a ∈ axes, 1 ≤ a ∧ a < R) :
    gatherIdx (eraseEach (List.range R) axes) (b :: List.replicate (R - 1) 2)
      = b :: List.replicate (R - 1 - axes.length) 2 := by
  have h0 : (0 : ℕ) ∉ axes := fun h => by have := (hax 0 h).1; omega
  have hsplit : List.range R = 0 :: (List.range (R - 1)).map (· + 1) := by
    have : R = (R - 1) + 1 := by omega
    rw [this, List.range_succ_eq_map]
    rfl
  have herase : eraseEach (List.range R) axes =
      0 :: eraseEach ((List.range (R - 1)).map (· + 1)) axes := by
    rw [hsplit, eraseEach_cons_of_not_mem h0]
  have htail2 : ∀ a ∈ eraseEach ((List.range (R - 1)).map (· + 1)) axes,
      (b :: List.replicate (R - 1) 2).getD a 0 = 2 := by
    intro a ha
    have hmem : a ∈ (List.range (R - 1)).map (· + 1) :=
      (eraseEach_sublist axes _).mem ha
    rw [List.mem_map] at hmem
    obtain ⟨a', ha', rfl⟩ := hmem
    show (List.replicate (R - 1) 2).getD a' 0 = 2
    exact getD_replicate (List.mem_range.mp ha')
  have hperm := basePm_isPermOf hnd hax
  have hlen : axes.length + (eraseEach (List.range R) axes).length = R := by
    have := hperm.length
    simpa using this
  have htaillen : (eraseEach ((List.range (R - 1)).map (· + 1)) axes).length
      = R - 1 - axes.length := by
    rw [herase] at hlen
    simp at hlen
    omega
  rw [herase]
  unfold gatherIdx
  rw [List.map_cons, map_eq_replicate_of_forall htail2, htaillen]
  rfl

theorem gatherIdx_append (l₁ l₂ s : List ℕ) :
    gatherIdx (l₁ ++ l₂) s = gatherIdx l₁ s ++ gatherIdx l₂ s := List.map_append _ _ _

theorem basePm_shape {K : Type} {axes : List ℕ} {R b : ℕ} (hR : 1 ≤ R)
    (hnd : axes.Nodup) (hax : ∀ a ∈ axes, 1 ≤ a ∧ a < R) (x : Tensor K)
    (hx : x.shape = b :: List.replicate (R - 1) 2) :
    Tensor.permuteShape (axes ++ eraseEach (List.range R) axes) x =
      List.replicate axes.length 2 ++ b :: List.replicate (R - 1 - axes.length) 2 := by
  rw [permuteShape_eq_gather, hx, gatherIdx_append, gather_axes_shape hax,
    gather_rest0_shape hR hnd hax]

/-! ## Writing values into a multi-index at selected axes -/

/-- Write values `vals` into `idx` at the positions listed in `axes`. -/
def setIdx (idx : List ℕ) (axes vals : List ℕ) : List ℕ :=
  (axes.zip vals).foldl (fun acc av => acc.set av.1 av.2) idx

theorem getD_set_ne {l : List ℕ} {i j : ℕ} (h : i ≠ j) (v d : ℕ) :
    (l.set i v).getD j d = l.getD j d := by
  simp [List.getD, List.getElem?_set_ne h]

theorem getD_set_self {l : List ℕ} {i : ℕ} (h : i < l.length) (v d : ℕ) :
    (l.set i v).getD i d = v := by
  simp [List.getD, List.getElem?_set_self', List.getElem?_eq_getElem h]

theorem setIdx_nil_axes (idx vals : List ℕ) : setIdx idx [] vals = idx := rfl

theorem setIdx_nil_vals (idx axes : List ℕ) : setIdx idx axes [] = idx := by
  cases axes <;> rfl

theorem setIdx_cons (idx : List ℕ) (a v : ℕ) (as vs : List ℕ) :
    setIdx idx (a :: as) (v :: vs) = setIdx (idx.set a v) as vs := rfl

theorem setIdx_length (idx axes vals : List ℕ) :
    (setIdx idx axes vals).length = idx.length := by
  induction axes generalizing idx vals with
  | nil => rfl
  | cons a as ih =>
    cases vals with
    | nil => rw [setIdx_nil_vals]
    | cons v vs =>
      rw [setIdx_cons, ih]
      exact List.length_set _ _ _

theorem getD_setIdx_not_mem {axes : List ℕ} {pos : ℕ} (h : pos ∉ axes) :
    ∀ (idx vals : List ℕ), (setIdx idx axes vals).getD pos 0 = idx.getD pos 0 := by
  induction axes with
  | nil => intro idx vals; rfl
  | cons a as ih =>
    intro idx vals
    cases vals with
    | nil => rw [setIdx_nil_vals]
    | cons v vs =>
      rw [setIdx_cons, ih (fun hm => h (by simp [hm]))]
      exact getD_set_ne (fun he => h (by simp [he])) v 0

theorem getD_setIdx_mem {axes : List ℕ} (hnd : axes.Nodup) :
    ∀ {idx vals : List ℕ}, vals.length = axes.length →
    (∀ a ∈ axes, a < idx.length) → ∀ {pos : ℕ}, pos ∈ axes →
    (setIdx idx axes vals).getD pos 0 = vals.getD (axes.indexOf pos) 0 := by
  induction axes with
  | nil => intro idx vals _ _ pos hpos; simp at hpos
  | cons a as ih =>
    intro idx vals hlen hbound pos hpos
    obtain ⟨hna, hnd'⟩ := List.nodup_cons.mp hnd
    cases vals with
    | nil => simp at hlen
    | cons v vs =>
      rw [setIdx_cons]
      rcases List.mem_cons.mp hpos with heq | hmem
      · subst heq
        rw [getD_setIdx_not_mem hna, getD_set_self (hbound pos (by simp)),
          List.indexOf_cons_self]
        rfl
      · have hne : pos ≠ a := fun he => hna (he ▸ hmem)
        rw [ih hnd' (by simpa using hlen)
          (fun b hb => by rw [List.length_set]; exact hbound b (by simp [hb])) hmem]
        rw [List.indexOf_cons_ne _ (fun he => hne he.symm)]
        rfl

theorem getD_map_lt {f : ℕ → ℕ} {l : List ℕ} {v : ℕ} (h : v < l.length) (d : ℕ) :
    (l.map f).getD v d = f (l.getD v d) := by
  rw [getD_eq_getElem' (l := l.map f) (by simpa using h), getD_eq_getElem' h]
  simp

/-- The pivotal index identity: selecting through `pm = axes ++ rest` from the
permuted multi-index whose leading block was replaced by `digits` reconstructs
`idx` with `digits` written into the target axes. -/
theorem selectIdx_append_gather {R : ℕ} {axes rest0 idx digits : List ℕ}
    (hndA : axes.Nodup) (hperm : IsPermOf (axes ++ rest0) R)
    (hidxlen : idx.length = R) (hdiglen : digits.length = axes.length) :
    Tensor.selectIdx R (axes ++ rest0) (digits ++ gatherIdx rest0 idx)
      = setIdx idx axes digits := by
  apply List.ext_getElem
  · simp [Tensor.selectIdx, setIdx_length, hidxlen]
  intro pos h₁ h₂
  have hposR : pos < R := by simpa [Tensor.selectIdx] using h₁
  have hpos_idx : pos < idx.length := hidxlen ▸ hposR
  rw [← getD_eq_getElem' (l := Tensor.selectIdx R (axes ++ rest0)
    (digits ++ gatherIdx rest0 idx)) h₁ 0,
    ← getD_eq_getElem' (l := setIdx idx axes digits) h₂ 0]
  have hsel : (Tensor.selectIdx R (axes ++ rest0)
      (digits ++ gatherIdx rest0 idx)).getD pos 0
      = (digits ++ gatherIdx rest0 idx).getD ((axes ++ rest0).indexOf pos) 0 := by
    unfold Tensor.selectIdx
    rw [getD_map_lt (by simpa using hposR)]
    congr 1
    rw [getD_eq_getElem' (by simpa using hposR)]
    simp
  rw [hsel]
  by_cases hmem : pos ∈ axes
  · rw [List.indexOf_append_of_mem hmem]
    have hu : axes.indexOf pos < digits.length := by
      rw [hdiglen]
      exact List.indexOf_lt_length.mpr hmem
    rw [List.getD_append _ _ _ _ hu]
    rw [getD_setIdx_mem hndA hdiglen
      (fun a ha => by
        rw [hidxlen]
        exact hperm.mem_iff.mp (List.mem_append_left _ ha)) hmem]
  · rw [List.indexOf_append_of_not_mem hmem]
    have hmemR : pos ∈ rest0 := by
      rcases List.mem_append.mp (hperm.mem_iff.mpr hposR) with h | h
      · exact absurd h hmem
      · exact h
    have hv : rest0.indexOf pos < rest0.length := List.indexOf_lt_length.mpr hmemR
    rw [getD_setIdx_not_mem hmem]
    rw [show axes.length = digits.length from hdiglen.symm,
      List.getD_append_right _ _ _ _ (Nat.le_add_right _ _), Nat.add_sub_cancel_left]
    unfold gatherIdx
    rw [getD_map_lt hv, getD_indexOf_self hmemR]

/-! ## Entry characterization of `applyBase` -/

theorem matMulTensor_data {K : Type} [CommRing K] (m cols : ℕ) (M : ℕ → ℕ → K)
    (t : Tensor K) {q r : ℕ} (hr : r < cols) :
    (matMulTensor m cols M t).data (q * cols + r)
      = ∑ i ∈ Finset.range m, M q i * t.data (i * cols + r) := by
  show (∑ i ∈ Finset.range m, M ((q * cols + r) / cols) i
    * t.data (i * cols + (q * cols + r) % cols)) = _
  rw [mul_add_div_eq hr, mul_add_mod_eq hr]

theorem reshape_data {K : Type} (s : List ℕ) (t : Tensor K) :
    (t.reshape s).data = t.data := rfl

theorem permuteShape_congr {K : Type} (q : List ℕ) {t₁ t₂ : Tensor K}
    (h : t₁.shape = t₂.shape) :
    Tensor.permuteShape q t₁ = Tensor.permuteShape q t₂ := by
  unfold Tensor.permuteShape
  rw [h]

theorem permute_entry_len {K : Type} (p : List ℕ) (t : Tensor K) {idx : List ℕ} {L : ℕ}
    (hL : t.shape.length = L) (hv : ValidIdx (Tensor.permuteShape p t) idx) :
    (t.permute p).entry idx = t.data (flattenIdx t.shape (Tensor.selectIdx L p idx)) := by
  subst hL
  exact Tensor.permute_entry p t hv

theorem permute_data_flatten {K : Type} {p : List ℕ} (t : Tensor K) {j : List ℕ} {L : ℕ}
    (hL : t.shape.length = L) (hv : ValidIdx (Tensor.permuteShape p t) j) :
    (t.permute p).data (flattenIdx (Tensor.permuteShape p t) j)
      = t.data (flattenIdx t.shape (Tensor.selectIdx L p j)) := by
  subst hL
  show t.data (flattenIdx t.shape (Tensor.selectIdx t.shape.length p
    (unflattenIdx (Tensor.permuteShape p t) (flattenIdx (Tensor.permuteShape p t) j)))) = _
  rw [unflattenIdx_flattenIdx hv]

/-- Entry characterization of `applyBase`: at any valid multi-index, the result is the
matrix row indexed by the bits at the target axes, contracted against the input with
those bits replaced. -/
theorem applyBase_entry {K : Type} [CommRing K] {R b : ℕ} {axes : List ℕ}
    (hR : 1 ≤ R) (hnd : axes.Nodup) (hax : ∀ a ∈ axes, 1 ≤ a ∧ a < R)
    (M : ℕ → ℕ → K) (x : Tensor K) (hx : x.shape = b :: List.replicate (R - 1) 2)
    {idx : List ℕ} (hidx : ValidIdx x.shape idx) :
    (applyBase R axes M x).entry idx =
      ∑ i ∈ Finset.range (2 ^ axes.length),
        M (flattenIdx (List.replicate axes.length 2) (gatherIdx axes idx)) i
          * x.entry (setIdx idx axes (unflattenIdx (List.replicate axes.length 2) i)) := by
  have hperm : IsPermOf (axes ++ eraseEach (List.range R) axes) R := basePm_isPermOf hnd hax
  have hshlen : x.shape.length = R := by rw [hx]; simp; omega
  have hidxlen : idx.length = R := (validIdx_length hidx).trans hshlen
  have hshape' : Tensor.permuteShape (axes ++ eraseEach (List.range R) axes) x
      = List.replicate axes.length 2 ++ b :: List.replicate (R - 1 - axes.length) 2 :=
    basePm_shape hR hnd hax x hx
  have hshape'len : (Tensor.permuteShape (axes ++ eraseEach (List.range R) axes) x).length
      = R := by rw [permuteShape_length]; exact hperm.length
  have hnumel : x.numel = b * 2 ^ (R - 1) := by
    show x.shape.prod = _
    rw [hx, List.prod_cons, prod_replicate_two]
  have hcols : x.numel / 2 ^ axes.length = b * 2 ^ (R - 1 - axes.length) := by
    have hnt_le : axes.length ≤ R - 1 := by
      have h := hshape'len
      rw [hshape'] at h
      simp at h
      omega
    rw [hnumel, show (2:ℕ) ^ (R - 1) = 2 ^ axes.length * 2 ^ (R - 1 - axes.length) by
        rw [← pow_add]; congr 1; omega,
      show b * (2 ^ axes.length * 2 ^ (R - 1 - axes.length))
        = b * 2 ^ (R - 1 - axes.length) * 2 ^ axes.length by ring]
    exact Nat.mul_div_cancel _ (pow_pos (by omega) _)
  have hbatch : x.numel / 2 ^ (R - 1) = b := by
    rw [hnumel]
    exact Nat.mul_div_cancel _ (pow_pos (by omega) _)
  have hs3 : List.replicate axes.length 2 ++ [x.numel / 2 ^ (R - 1)]
      ++ List.replicate (R - 1 - axes.length) 2
      = Tensor.permuteShape (axes ++ eraseEach (List.range R) axes) x := by
    rw [hbatch, hshape', List.append_assoc]
    rfl
  -- validities and flattening of the gathered index
  have hgWlen : (gatherIdx axes idx).length = axes.length := by simp [gatherIdx]
  have haxbound : ∀ a ∈ axes, a < x.shape.length := fun a ha => by
    rw [hshlen]; exact (hax a ha).2
  have hvW : ValidIdx (List.replicate axes.length 2) (gatherIdx axes idx) := by
    have h := validIdx_gather hidx haxbound
    rwa [show gatherIdx axes x.shape = List.replicate axes.length 2 from by
      rw [hx]; exact gather_axes_shape hax] at h
  have hrestbound : ∀ a ∈ eraseEach (List.range R) axes, a < x.shape.length := fun a ha => by
    rw [hshlen]
    exact List.mem_range.mp ((eraseEach_sublist axes (List.range R)).mem ha)
  have hvRest : ValidIdx (b :: List.replicate (R - 1 - axes.length) 2)
      (gatherIdx (eraseEach (List.range R) axes) idx) := by
    have h := validIdx_gather hidx hrestbound
    rwa [show gatherIdx (eraseEach (List.range R) axes) x.shape
        = b :: List.replicate (R - 1 - axes.length) 2 from by
      rw [hx]; exact gather_rest0_shape hR hnd hax] at h
  have hprodrest : (b :: List.replicate (R - 1 - axes.length) 2).prod
      = b * 2 ^ (R - 1 - axes.length) := by
    rw [List.prod_cons, prod_replicate_two]
  have hBrest_lt : flattenIdx (b :: List.replicate (R - 1 - axes.length) 2)
      (gatherIdx (eraseEach (List.range R) axes) idx) < b * 2 ^ (R - 1 - axes.length) := by
    rw [← hprodrest]; exact flattenIdx_lt hvRest
  have hflat : flattenIdx (Tensor.permuteShape (axes ++ eraseEach (List.range R) axes) x)
      (gatherIdx (axes ++ eraseEach (List.range R) axes) idx)
      = flattenIdx (List.replicate axes.length 2) (gatherIdx axes idx)
          * (b * 2 ^ (R - 1 - axes.length))
        + flattenIdx (b :: List.replicate (R - 1 - axes.length) 2)
          (gatherIdx (eraseEach (List.range R) axes) idx) := by
    rw [gatherIdx_append, hshape',
      flattenIdx_append (by rw [hgWlen]; simp), hprodrest]
  -- peel off the outer inverse permutation
  have hT3shape : ((matMulTensor (2 ^ axes.length) (x.numel / 2 ^ axes.length) M
      ((x.permute (axes ++ eraseEach (List.range R) axes)).reshape
        [2 ^ axes.length, x.numel / 2 ^ axes.length])).reshape
      (List.replicate axes.length 2 ++ [x.numel / 2 ^ (R - 1)]
        ++ List.replicate (R - 1 - axes.length) 2)).shape
      = Tensor.permuteShape (axes ++ eraseEach (List.range R) axes) x := hs3
  have hT3len : ((matMulTensor (2 ^ axes.length) (x.numel / 2 ^ axes.length) M
      ((x.permute (axes ++ eraseEach (List.range R) axes)).reshape
        [2 ^ axes.length, x.numel / 2 ^ axes.length])).reshape
      (List.replicate axes.length 2 ++ [x.numel / 2 ^ (R - 1)]
        ++ List.replicate (R - 1 - axes.length) 2)).shape.length = R := by
    rw [hT3shape]
    exact hshape'len
  have hvq : ValidIdx (Tensor.permuteShape (inverse_permutation
      (axes ++ eraseEach (List.range R) axes))
      ((matMulTensor (2 ^ axes.length) (x.numel / 2 ^ axes.length) M
        ((x.permute (axes ++ eraseEach (List.range R) axes)).reshape
          [2 ^ axes.length, x.numel / 2 ^ axes.length])).reshape
        (List.replicate axes.length 2 ++ [x.numel / 2 ^ (R - 1)]
          ++ List.replicate (R - 1 - axes.length) 2))) idx := by
    have hsh2 : ((matMulTensor (2 ^ axes.length) (x.numel / 2 ^ axes.length) M
        ((x.permute (axes ++ eraseEach (List.range R) axes)).reshape
          [2 ^ axes.length, x.numel / 2 ^ axes.length])).reshape
        (List.replicate axes.length 2 ++ [x.numel / 2 ^ (R - 1)]
          ++ List.replicate (R - 1 - axes.length) 2)).shape
        = (x.permute (axes ++ eraseEach (List.range R) axes)).shape := hT3shape
    rw [permuteShape_congr _ hsh2, permuteShape_inverse hperm x hshlen]
    exact hidx
  show ((((matMulTensor (2 ^ axes.length) (x.numel / 2 ^ axes.length) M
      ((x.permute (axes ++ eraseEach (List.range R) axes)).reshape
        [2 ^ axes.length, x.numel / 2 ^ axes.length])).reshape
      (List.replicate axes.length 2 ++ [x.numel / 2 ^ (R - 1)]
        ++ List.replicate (R - 1 - axes.length) 2)).permute
      (inverse_permutation (axes ++ eraseEach (List.range R) axes))).entry idx) = _
  rw [permute_entry_len _ _ hT3len hvq, selectIdx_inverse hperm, hT3shape, hflat,
    ← hcols]
  have hBrest_lt' : flattenIdx (b :: List.replicate (R - 1 - axes.length) 2)
      (gatherIdx (eraseEach (List.range R) axes) idx) < x.numel / 2 ^ axes.length := by
    rw [hcols]
    exact hBrest_lt
  rw [reshape_data, matMulTensor_data _ _ _ _ hBrest_lt']
  apply Finset.sum_congr rfl
  intro i hi
  have hi' : i < 2 ^ axes.length := Finset.mem_range.mp hi
  have hiprod : i < (List.replicate axes.length 2).prod := by
    rw [prod_replicate_two]
    exact hi'
  congr 1
  have hdiglen : (unflattenIdx (List.replicate axes.length 2) i).length = axes.length := by
    rw [unflattenIdx_length]
    simp
  have hm : i * (x.numel / 2 ^ axes.length)
        + flattenIdx (b :: List.replicate (R - 1 - axes.length) 2)
          (gatherIdx (eraseEach (List.range R) axes) idx)
      = flattenIdx (Tensor.permuteShape (axes ++ eraseEach (List.range R) axes) x)
        (unflattenIdx (List.replicate axes.length 2) i
          ++ gatherIdx (eraseEach (List.range R) axes) idx) := by
    rw [hcols, hshape', flattenIdx_append (by rw [hdiglen]; simp), hprodrest,
      flattenIdx_unflattenIdx hiprod]
  have hvfull : ValidIdx (Tensor.permuteShape (axes ++ eraseEach (List.range R) axes) x)
      (unflattenIdx (List.replicate axes.length 2) i
        ++ gatherIdx (eraseEach (List.range R) axes) idx) := by
    rw [hshape']
    exact validIdx_append (unflattenIdx_valid hiprod) hvRest
  rw [reshape_data, hm, permute_data_flatten x hshlen hvfull,
    selectIdx_append_gather hnd hperm hidxlen hdiglen]
  rfl

/-- `applyBase` preserves the tensor shape. -/
theorem applyBase_shape {K : Type} [CommRing K] {R b : ℕ} {axes : List ℕ}
    (hR : 1 ≤ R) (hnd : axes.Nodup) (hax : ∀ a ∈ axes, 1 ≤ a ∧ a < R)
    (M : ℕ → ℕ → K) (x : Tensor K) (hx : x.shape = b :: List.replicate (R - 1) 2) :
    (applyBase R axes M x).shape = x.shape := by
  have hperm : IsPermOf (axes ++ eraseEach (List.range R) axes) R := basePm_isPermOf hnd hax
  have hshlen : x.shape.length = R := by rw [hx]; simp; omega
  have hshape' := basePm_shape hR hnd hax x hx
  have hnumel : x.numel = b * 2 ^ (R - 1) := by
    show x.shape.prod = _
    rw [hx, List.prod_cons, prod_replicate_two]
  have hbatch : x.numel / 2 ^ (R - 1) = b := by
    rw [hnumel]
    exact Nat.mul_div_cancel _ (pow_pos (by omega) _)
  have hs3 : List.replicate axes.length 2 ++ [x.numel / 2 ^ (R - 1)]
      ++ List.replicate (R - 1 - axes.length) 2
      = Tensor.permuteShape (axes ++ eraseEach (List.range R) axes) x := by
    rw [hbatch, hshape', List.append_assoc]
    rfl
  show Tensor.permuteShape (inverse_permutation (axes ++ eraseEach (List.range R) axes))
    ((matMulTensor (2 ^ axes.length) (x.numel / 2 ^ axes.length) M
      ((x.permute (axes ++ eraseEach (List.range R) axes)).reshape
        [2 ^ axes.length, x.numel / 2 ^ axes.length])).reshape
      (List.replicate axes.length 2 ++ [x.numel / 2 ^ (R - 1)]
        ++ List.replicate (R - 1 - axes.length) 2)) = x.shape
  have hsh2 : ((matMulTensor (2 ^ axes.length) (x.numel / 2 ^ axes.length) M
      ((x.permute (axes ++ eraseEach (List.range R) axes)).reshape
        [2 ^ axes.length, x.numel / 2 ^ axes.length])).reshape
      (List.replicate axes.length 2 ++ [x.numel / 2 ^ (R - 1)]
        ++ List.replicate (R - 1 - axes.length) 2)).shape
      = (x.permute (axes ++ eraseEach (List.range R) axes)).shape := by
    show List.replicate axes.length 2 ++ [x.numel / 2 ^ (R - 1)]
      ++ List.replicate (R - 1 - axes.length) 2
      = Tensor.permuteShape (axes ++ eraseEach (List.range R) axes) x
    exact hs3
  rw [permuteShape_congr _ hsh2, permuteShape_inverse hperm x hshlen]

/-! ## Data lemmas for the rank-3 slice and concatenation helpers -/

theorem slice3Last_data {K : Type} (t : Tensor K) {a m c : ℕ} (h : t.shape = [a, m, c])
    {i j : ℕ} (hj : j < m) :
    (slice3Last t).data (i * m + j) = t.data (i * (m * c) + j * c + (c - 1)) := by
  obtain ⟨s, d⟩ := t
  simp only at h
  subst h
  show d ((i * m + j) / m * (m * c) + (i * m + j) % m * c + (c - 1)) = _
  rw [mul_add_div_eq hj, mul_add_mod_eq hj]

theorem slice3Last_shape {K : Type} (t : Tensor K) {a m c : ℕ} (h : t.shape = [a, m, c]) :
    (slice3Last t).shape = [a, m] := by
  obtain ⟨s, d⟩ := t
  simp only at h
  subst h
  rfl

theorem slice3Init_data {K : Type} (t : Tensor K) {a m c : ℕ} (h : t.shape = [a, m, c])
    {i j l : ℕ} (hj : j < m) (hl : l < c - 1) :
    (slice3Init t).data (i * (m * (c - 1)) + j * (c - 1) + l)
      = t.data (i * (m * c) + j * c + l) := by
  obtain ⟨s, d⟩ := t
  simp only at h
  subst h
  have hin : j * (c - 1) + l < m * (c - 1) := by
    calc j * (c - 1) + l < j * (c - 1) + (c - 1) := by omega
    _ = (j + 1) * (c - 1) := by ring
    _ ≤ m * (c - 1) := Nat.mul_le_mul_right _ hj
  show d ((i * (m * (c - 1)) + j * (c - 1) + l) / (m * (c - 1)) * (m * c)
    + (i * (m * (c - 1)) + j * (c - 1) + l) % (m * (c - 1)) / (c - 1) * c
    + (i * (m * (c - 1)) + j * (c - 1) + l) % (m * (c - 1)) % (c - 1)) = _
  have hk : i * (m * (c - 1)) + j * (c - 1) + l
      = i * (m * (c - 1)) + (j * (c - 1) + l) := by ring
  rw [hk, mul_add_div_eq hin, mul_add_mod_eq hin,
    mul_add_div_eq hl, mul_add_mod_eq hl]

theorem slice3Init_shape {K : Type} (t : Tensor K) {a m c : ℕ} (h : t.shape = [a, m, c]) :
    (slice3Init t).shape = [a, m, c - 1] := by
  obtain ⟨s, d⟩ := t
  simp only at h
  subst h
  rfl

theorem cat3_data {K : Type} (t₁ t₂ : Tensor K) {a m c₁ c₂ : ℕ}
    (h₁ : t₁.shape = [a, m, c₁]) (h₂ : t₂.shape = [a, m, c₂])
    {i j l : ℕ} (hj : j < m) (hl : l < c₁ + c₂) :
    (cat3 t₁ t₂).data (i * (m * (c₁ + c₂)) + j * (c₁ + c₂) + l)
      = if l < c₁ then t₁.data (i * (m * c₁) + j * c₁ + l)
        else t₂.data (i * (m * c₂) + j * c₂ + (l - c₁)) := by
  obtain ⟨s₁, d₁⟩ := t₁
  obtain ⟨s₂, d₂⟩ := t₂
  simp only at h₁ h₂
  subst h₁
  subst h₂
  have hin : j * (c₁ + c₂) + l < m * (c₁ + c₂) := by
    calc j * (c₁ + c₂) + l < j * (c₁ + c₂) + (c₁ + c₂) := by omega
    _ = (j + 1) * (c₁ + c₂) := by ring
    _ ≤ m * (c₁ + c₂) := Nat.mul_le_mul_right _ hj
  show (if (i * (m * (c₁ + c₂)) + j * (c₁ + c₂) + l) % (m * (c₁ + c₂)) % (c₁ + c₂) < c₁
    then d₁ ((i * (m * (c₁ + c₂)) + j * (c₁ + c₂) + l) / (m * (c₁ + c₂)) * (m * c₁)
      + (i * (m * (c₁ + c₂)) + j * (c₁ + c₂) + l) % (m * (c₁ + c₂)) / (c₁ + c₂) * c₁
      + (i * (m * (c₁ + c₂)) + j * (c₁ + c₂) + l) % (m * (c₁ + c₂)) % (c₁ + c₂))
    else d₂ ((i * (m * (c₁ + c₂)) + j * (c₁ + c₂) + l) / (m * (c₁ + c₂)) * (m * c₂)
      + (i * (m * (c₁ + c₂)) + j * (c₁ + c₂) + l) % (m * (c₁ + c₂)) / (c₁ + c₂) * c₂
      + ((i * (m * (c₁ + c₂)) + j * (c₁ + c₂) + l) % (m * (c₁ + c₂)) % (c₁ + c₂) - c₁))) = _
  have hk : i * (m * (c₁ + c₂)) + j * (c₁ + c₂) + l
      = i * (m * (c₁ + c₂)) + (j * (c₁ + c₂) + l) := by ring
  rw [hk, mul_add_div_eq hin, mul_add_mod_eq hin,
    mul_add_div_eq hl, mul_add_mod_eq hl]

theorem cat3_shape {K : Type} (t₁ t₂ : Tensor K) {a m c₁ c₂ : ℕ}
    (h₁ : t₁.shape = [a, m, c₁]) (h₂ : t₂.shape = [a, m, c₂]) :
    (cat3 t₁ t₂).shape = [a, m, c₁ + c₂] := by
  obtain ⟨s₁, d₁⟩ := t₁
  obtain ⟨s₂, d₂⟩ := t₂
  simp only at h₁ h₂
  subst h₁
  subst h₂
  rfl

theorem unsqueezeLast_shape {K : Type} (t : Tensor K) {s : List ℕ} (h : t.shape = s) :
    (unsqueezeLast t).shape = s ++ [1] := by
  show t.shape ++ [1] = s ++ [1]
  rw [h]

theorem unsqueezeLast_data {K : Type} (t : Tensor K) : (unsqueezeLast t).data = t.data := rfl

/-! ## Structure of the controlled `pm_shape` and the all-ones control slice -/

theorem ctrlPm_isPermOf {waxes caxes : List ℕ} {R : ℕ}
    (hnd : (waxes ++ caxes).Nodup) (hax : ∀ a ∈ waxes ++ caxes, 1 ≤ a ∧ a < R) :
    IsPermOf (waxes ++ eraseEach (List.range R) (waxes ++ caxes) ++ caxes) R := by
  have h1 : IsPermOf ((waxes ++ caxes) ++ eraseEach (List.range R) (waxes ++ caxes)) R :=
    basePm_isPermOf hnd hax
  unfold IsPermOf at h1 ⊢
  refine List.Perm.trans ?_ h1
  rw [List.append_assoc waxes, List.append_assoc waxes]
  exact List.Perm.append_left waxes (List.perm_append_comm)

theorem ctrlPm_shape {K : Type} {waxes caxes : List ℕ} {R b : ℕ} (hR : 1 ≤ R)
    (hnd : (waxes ++ caxes).Nodup) (hax : ∀ a ∈ waxes ++ caxes, 1 ≤ a ∧ a < R)
    (x : Tensor K) (hx : x.shape = b :: List.replicate (R - 1) 2) :
    Tensor.permuteShape (waxes ++ eraseEach (List.range R) (waxes ++ caxes) ++ caxes) x
      = List.replicate waxes.length 2
        ++ (b :: List.replicate (R - 1 - waxes.length - caxes.length) 2)
        ++ List.replicate caxes.length 2 := by
  have hW : ∀ a ∈ waxes, 1 ≤ a ∧ a < R := fun a ha => hax a (List.mem_append_left _ ha)
  have hC : ∀ a ∈ caxes, 1 ≤ a ∧ a < R := fun a ha => hax a (List.mem_append_right _ ha)
  rw [permuteShape_eq_gather, hx, gatherIdx_append, gatherIdx_append,
    gather_axes_shape hW, gather_axes_shape hC, gather_rest0_shape hR hnd hax]
  have : R - 1 - (waxes ++ caxes).length = R - 1 - waxes.length - caxes.length := by
    simp
    omega
  rw [this]

theorem flattenIdx_replicate_two_eq_max {n : ℕ} {bits : List ℕ}
    (hv : ValidIdx (List.replicate n 2) bits) :
    (flattenIdx (List.replicate n 2) bits = 2 ^ n - 1) ↔ (∀ v ∈ bits, v = 1) := by
  induction n generalizing bits with
  | zero =>
    have hlen : bits.length = 0 := by simpa using validIdx_length hv
    rw [List.length_eq_zero] at hlen
    subst hlen
    simp [flattenIdx]
  | succ m ih =>
    cases bits with
    | nil =>
      have := validIdx_length hv
      simp at this
    | cons v vs =>
      rw [List.replicate_succ] at hv
      obtain ⟨hvlt, hrest⟩ := validIdx_cons.mp hv
      have hflt := flattenIdx_lt hrest
      rw [prod_replicate_two] at hflt
      rw [List.replicate_succ]
      show (v * (List.replicate m 2).prod + flattenIdx (List.replicate m 2) vs
        = 2 ^ (m + 1) - 1) ↔ _
      rw [prod_replicate_two]
      have hpow : (2:ℕ) ^ (m + 1) = 2 * 2 ^ m := by rw [pow_succ]; ring
      have h2 : (0:ℕ) < 2 ^ m := pow_pos (by omega) _
      constructor
      · intro h
        rcases (by omega : v = 0 ∨ v = 1) with h0 | h1
        · subst h0
          rw [Nat.zero_mul, Nat.zero_add] at h
          exact absurd h (by omega)
        · subst h1
          rw [Nat.one_mul] at h
          have hf : flattenIdx (List.replicate m 2) vs = 2 ^ m - 1 := by omega
          intro u hu
          rcases List.mem_cons.mp hu with rfl | humem
          · rfl
          · exact (ih hrest).mp hf u humem
      · intro hall
        have hv1 : v = 1 := hall v (by simp)
        have hf : flattenIdx (List.replicate m 2) vs = 2 ^ m - 1 :=
          (ih hrest).mpr (fun u hu => hall u (by simp [hu]))
        subst hv1
        rw [Nat.one_mul, hf]
        omega

/-- Entry characterization of `applyControlled`: slices whose control bits are not all
ones pass through unchanged; the all-ones slice is hit by the matrix. -/
theorem applyControlled_entry {K : Type} [CommRing K] {R b : ℕ} {waxes caxes : List ℕ}
    (hR : 1 ≤ R) (hnd : (waxes ++ caxes).Nodup)
    (hax : ∀ a ∈ waxes ++ caxes, 1 ≤ a ∧ a < R)
    (M : ℕ → ℕ → K) (x : Tensor K) (hx : x.shape = b :: List.replicate (R - 1) 2)
    {idx : List ℕ} (hidx : ValidIdx x.shape idx) :
    (applyControlled R waxes caxes M x).entry idx =
      if ∀ c ∈ caxes, idx.getD c 0 = 1 then
        ∑ i ∈ Finset.range (2 ^ waxes.length),
          M (flattenIdx (List.replicate waxes.length 2) (gatherIdx waxes idx)) i
            * x.entry (setIdx idx waxes (unflattenIdx (List.replicate waxes.length 2) i))
      else x.entry idx := by
  have hW : ∀ a ∈ waxes, 1 ≤ a ∧ a < R := fun a ha => hax a (List.mem_append_left _ ha)
  have hC : ∀ a ∈ caxes, 1 ≤ a ∧ a < R := fun a ha => hax a (List.mem_append_right _ ha)
  have hndW : waxes.Nodup := hnd.of_append_left
  have hperm : IsPermOf (waxes ++ eraseEach (List.range R) (waxes ++ caxes) ++ caxes) R :=
    ctrlPm_isPermOf hnd hax
  have hshlen : x.shape.length = R := by rw [hx]; simp; omega
  have hidxlen : idx.length = R := (validIdx_length hidx).trans hshlen
  have hshape' := ctrlPm_shape hR hnd hax x hx
  have hshape'len : (Tensor.permuteShape (waxes ++ eraseEach (List.range R) (waxes ++ caxes)
      ++ caxes) x).length = R := by rw [permuteShape_length]; exact hperm.length
  have hwidth : waxes.length + caxes.length ≤ R - 1 := by
    have h := hshape'len
    rw [hshape'] at h
    simp at h
    omega
  have hrestlen : (eraseEach (List.range R) (waxes ++ caxes)).length
      = R - waxes.length - caxes.length := by
    have h := hperm.length
    simp at h
    omega
  have hnumel : x.numel = b * 2 ^ (R - 1) := by
    show x.shape.prod = _
    rw [hx, List.prod_cons, prod_replicate_two]
  have hm0 : x.numel / (2 ^ waxes.length * 2 ^ caxes.length)
      = b * 2 ^ (R - 1 - waxes.length - caxes.length) := by
    rw [hnumel, show (2:ℕ) ^ (R - 1)
        = 2 ^ (R - 1 - waxes.length - caxes.length)
          * (2 ^ waxes.length * 2 ^ caxes.length) by
        rw [← pow_add, ← pow_add]; congr 1; omega,
      ← Nat.mul_assoc]
    exact Nat.mul_div_cancel _ (Nat.mul_pos (pow_pos (by omega) _) (pow_pos (by omega) _))
  have hbatch : x.numel / 2 ^ (R - 1) = b := by
    rw [hnumel]
    exact Nat.mul_div_cancel _ (pow_pos (by omega) _)
  have haxboundW : ∀ a ∈ waxes, a < x.shape.length := fun a ha => by
    rw [hshlen]; exact (hW a ha).2
  have hvW : ValidIdx (List.replicate waxes.length 2) (gatherIdx waxes idx) := by
    have h := validIdx_gather hidx haxboundW
    rwa [show gatherIdx waxes x.shape = List.replicate waxes.length 2 from by
      rw [hx]; exact gather_axes_shape hW] at h
  have haxboundC : ∀ a ∈ caxes, a < x.shape.length := fun a ha => by
    rw [hshlen]; exact (hC a ha).2
  have hvC : ValidIdx (List.replicate caxes.length 2) (gatherIdx caxes idx) := by
    have h := validIdx_gather hidx haxboundC
    rwa [show gatherIdx caxes x.shape = List.replicate caxes.length 2 from by
      rw [hx]; exact gather_axes_shape hC] at h
  have hrestbound : ∀ a ∈ eraseEach (List.range R) (waxes ++ caxes),
      a < x.shape.length := fun a ha => by
    rw [hshlen]
    exact List.mem_range.mp ((eraseEach_sublist (waxes ++ caxes) (List.range R)).mem ha)
  have hvRest : ValidIdx (b :: List.replicate (R - 1 - waxes.length - caxes.length) 2)
      (gatherIdx (eraseEach (List.range R) (waxes ++ caxes)) idx) := by
    have h := validIdx_gather hidx hrestbound
    rwa [show gatherIdx (eraseEach (List.range R) (waxes ++ caxes)) x.shape
        = b :: List.replicate (R - 1 - waxes.length - caxes.length) 2 from by
      rw [hx, gather_rest0_shape hR hnd hax,
        show R - 1 - (waxes ++ caxes).length
          = R - 1 - waxes.length - caxes.length from by simp; omega]] at h
  have hBclt : flattenIdx (List.replicate caxes.length 2) (gatherIdx caxes idx)
      < 2 ^ caxes.length := by
    have h := flattenIdx_lt hvC
    rwa [prod_replicate_two] at h
  have hBRlt : flattenIdx (b :: List.replicate (R - 1 - waxes.length - caxes.length) 2)
      (gatherIdx (eraseEach (List.range R) (waxes ++ caxes)) idx)
      < b * 2 ^ (R - 1 - waxes.length - caxes.length) := by
    have h := flattenIdx_lt hvRest
    rwa [List.prod_cons, prod_replicate_two] at h
  have hflat : flattenIdx (Tensor.permuteShape (waxes
        ++ eraseEach (List.range R) (waxes ++ caxes) ++ caxes) x)
      (gatherIdx (waxes ++ eraseEach (List.range R) (waxes ++ caxes) ++ caxes) idx)
      = (flattenIdx (List.replicate waxes.length 2) (gatherIdx waxes idx)
          * (b * 2 ^ (R - 1 - waxes.length - caxes.length))
        + flattenIdx (b :: List.replicate (R - 1 - waxes.length - caxes.length) 2)
          (gatherIdx (eraseEach (List.range R) (waxes ++ caxes)) idx))
          * 2 ^ caxes.length
        + flattenIdx (List.replicate caxes.length 2) (gatherIdx caxes idx) := by
    rw [hshape', gatherIdx_append, gatherIdx_append,
      flattenIdx_append (by simp [gatherIdx, hrestlen]; omega),
      flattenIdx_append (by simp [gatherIdx])]
    simp only [List.prod_cons, prod_replicate_two]
  -- peel off the outer inverse permutation
  have hs4 : List.replicate waxes.length 2 ++ [x.numel / 2 ^ (R - 1)]
      ++ List.replicate (R - 1 - waxes.length - caxes.length) 2
      ++ List.replicate caxes.length 2
      = Tensor.permuteShape (waxes ++ eraseEach (List.range R) (waxes ++ caxes)
        ++ caxes) x := by
    rw [hbatch, hshape', List.append_assoc (List.replicate waxes.length 2) [b]
      (List.replicate (R - 1 - waxes.length - caxes.length) 2)]
    rfl
  have hT4shape : ((cat3 (slice3Init ((x.permute (waxes
      ++ eraseEach (List.range R) (waxes ++ caxes) ++ caxes)).reshape
        [2 ^ waxes.length, x.numel / (2 ^ waxes.length * 2 ^ caxes.length),
          2 ^ caxes.length]))
      (unsqueezeLast (matMulTensor (2 ^ waxes.length)
        (x.numel / (2 ^ waxes.length * 2 ^ caxes.length)) M
        (slice3Last ((x.permute (waxes
          ++ eraseEach (List.range R) (waxes ++ caxes) ++ caxes)).reshape
          [2 ^ waxes.length, x.numel / (2 ^ waxes.length * 2 ^ caxes.length),
            2 ^ caxes.length]))))).reshape
      (List.replicate waxes.length 2 ++ [x.numel / 2 ^ (R - 1)]
        ++ List.replicate (R - 1 - waxes.length - caxes.length) 2
        ++ List.replicate caxes.length 2)).shape
      = Tensor.permuteShape (waxes ++ eraseEach (List.range R) (waxes ++ caxes)
        ++ caxes) x := hs4
  have hT4len : ((cat3 (slice3Init ((x.permute (waxes
      ++ eraseEach (List.range R) (waxes ++ caxes) ++ caxes)).reshape
        [2 ^ waxes.length, x.numel / (2 ^ waxes.length * 2 ^ caxes.length),
          2 ^ caxes.length]))
      (unsqueezeLast (matMulTensor (2 ^ waxes.length)
        (x.numel / (2 ^ waxes.length * 2 ^ caxes.length)) M
        (slice3Last ((x.permute (waxes
          ++ eraseEach (List.range R) (waxes ++ caxes) ++ caxes)).reshape
          [2 ^ waxes.length, x.numel / (2 ^ waxes.length * 2 ^ caxes.length),
            2 ^ caxes.length]))))).reshape
      (List.replicate waxes.length 2 ++ [x.numel / 2 ^ (R - 1)]
        ++ List.replicate (R - 1 - waxes.length - caxes.length) 2
        ++ List.replicate caxes.length 2)).shape.length = R := by
    rw [hT4shape]
    exact hshape'len
  have hvq : ValidIdx (Tensor.permuteShape (inverse_permutation (waxes
      ++ eraseEach (List.range R) (waxes ++ caxes) ++ caxes))
      ((cat3 (slice3Init ((x.permute (waxes
        ++ eraseEach (List.range R) (waxes ++ caxes) ++ caxes)).reshape
          [2 ^ waxes.length, x.numel / (2 ^ waxes.length * 2 ^ caxes.length),
            2 ^ caxes.length]))
        (unsqueezeLast (matMulTensor (2 ^ waxes.length)
          (x.numel / (2 ^ waxes.length * 2 ^ caxes.length)) M
          (slice3Last ((x.permute (waxes
            ++ eraseEach (List.range R) (waxes ++ caxes) ++ caxes)).reshape
            [2 ^ waxes.length, x.numel / (2 ^ waxes.length * 2 ^ caxes.length),
              2 ^ caxes.length]))))).reshape
        (List.replicate waxes.length 2 ++ [x.numel / 2 ^ (R - 1)]
          ++ List.replicate (R - 1 - waxes.length - caxes.length) 2
          ++ List.replicate caxes.length 2))) idx := by
    have hsh2 : ((cat3 (slice3Init ((x.permute (waxes
        ++ eraseEach (List.range R) (waxes ++ caxes) ++ caxes)).reshape
          [2 ^ waxes.length, x.numel / (2 ^ waxes.length * 2 ^ caxes.length),
            2 ^ caxes.length]))
        (unsqueezeLast (matMulTensor (2 ^ waxes.length)
          (x.numel / (2 ^ waxes.length * 2 ^ caxes.length)) M
          (slice3Last ((x.permute (waxes
            ++ eraseEach (List.range R) (waxes ++ caxes) ++ caxes)).reshape
            [2 ^ waxes.length, x.numel / (2 ^ waxes.length * 2 ^ caxes.length),
              2 ^ caxes.length]))))).reshape
        (List.replicate waxes.length 2 ++ [x.numel / 2 ^ (R - 1)]
          ++ List.replicate (R - 1 - waxes.length - caxes.length) 2
          ++ List.replicate caxes.length 2)).shape
        = (x.permute (waxes ++ eraseEach (List.range R) (waxes ++ caxes)
          ++ caxes)).shape := hT4shape
    rw [permuteShape_congr _ hsh2, permuteShape_inverse hperm x hshlen]
    exact hidx
  rw [show (applyControlled R waxes caxes M x).entry idx
      = (((cat3 (slice3Init ((x.permute (waxes
        ++ eraseEach (List.range R) (waxes ++ caxes) ++ caxes)).reshape
          [2 ^ waxes.length, x.numel / (2 ^ waxes.length * 2 ^ caxes.length),
            2 ^ caxes.length]))
        (unsqueezeLast (matMulTensor (2 ^ waxes.length)
          (x.numel / (2 ^ waxes.length * 2 ^ caxes.length)) M
          (slice3Last ((x.permute (waxes
            ++ eraseEach (List.range R) (waxes ++ caxes) ++ caxes)).reshape
            [2 ^ waxes.length, x.numel / (2 ^ waxes.length * 2 ^ caxes.length),
              2 ^ caxes.length]))))).reshape
        (List.replicate waxes.length 2 ++ [x.numel / 2 ^ (R - 1)]
          ++ List.replicate (R - 1 - waxes.length - caxes.length) 2
          ++ List.replicate caxes.length 2)).permute
        (inverse_permutation (waxes ++ eraseEach (List.range R) (waxes ++ caxes)
          ++ caxes))).entry idx from rfl]
  rw [permute_entry_len _ _ hT4len hvq, selectIdx_inverse hperm, reshape_data,
    hT4shape, hflat]
  set B1 := flattenIdx (List.replicate waxes.length 2) (gatherIdx waxes idx) with hB1
  set BR := flattenIdx (b :: List.replicate (R - 1 - waxes.length - caxes.length) 2)
    (gatherIdx (eraseEach (List.range R) (waxes ++ caxes)) idx) with hBR
  set Bc := flattenIdx (List.replicate caxes.length 2) (gatherIdx caxes idx) with hBc
  have hc1 : (2:ℕ) ^ caxes.length - 1 + 1 = 2 ^ caxes.length := by
    have := pow_pos (by omega : (0:ℕ) < 2) caxes.length
    omega
  have harg : (B1 * (b * 2 ^ (R - 1 - waxes.length - caxes.length)) + BR)
        * 2 ^ caxes.length + Bc
      = B1 * ((x.numel / (2 ^ waxes.length * 2 ^ caxes.length))
          * (2 ^ caxes.length - 1 + 1))
        + BR * (2 ^ caxes.length - 1 + 1) + Bc := by
    rw [hm0, hc1]
    ring
  have hjBR : BR < x.numel / (2 ^ waxes.length * 2 ^ caxes.length) := by
    rw [hm0]
    exact hBRlt
  rw [harg, cat3_data _ _ (slice3Init_shape _ rfl) rfl hjBR
    (by rw [hc1]; exact hBclt)]
  have hiff : (Bc = 2 ^ caxes.length - 1) ↔ (∀ c ∈ caxes, idx.getD c 0 = 1) := by
    rw [hBc, flattenIdx_replicate_two_eq_max hvC]
    constructor
    · intro h c hc
      exact h _ (List.mem_map_of_mem _ hc)
    · intro h v hv
      obtain ⟨c, hc, rfl⟩ := List.mem_map.mp hv
      exact h c hc
  by_cases hall : ∀ c ∈ caxes, idx.getD c 0 = 1
  · have hBceq : Bc = 2 ^ caxes.length - 1 := hiff.mpr hall
    rw [if_neg (by omega), if_pos hall]
    have harg2 : B1 * ((x.numel / (2 ^ waxes.length * 2 ^ caxes.length)) * 1) + BR * 1
        + (Bc - (2 ^ caxes.length - 1))
        = B1 * (x.numel / (2 ^ waxes.length * 2 ^ caxes.length)) + BR := by
      rw [hBceq]
      simp
    rw [harg2, unsqueezeLast_data, matMulTensor_data _ _ _ _ hjBR]
    apply Finset.sum_congr rfl
    intro i hi
    have hi' : i < 2 ^ waxes.length := Finset.mem_range.mp hi
    have hiprod : i < (List.replicate waxes.length 2).prod := by
      rw [prod_replicate_two]
      exact hi'
    congr 1
    rw [slice3Last_data _ rfl hjBR, reshape_data]
    have hdiglen : (unflattenIdx (List.replicate waxes.length 2) i).length
        = waxes.length := by
      rw [unflattenIdx_length]
      simp
    have hGfull : i * ((x.numel / (2 ^ waxes.length * 2 ^ caxes.length))
          * 2 ^ caxes.length) + BR * 2 ^ caxes.length + (2 ^ caxes.length - 1)
        = flattenIdx (Tensor.permuteShape (waxes
            ++ eraseEach (List.range R) (waxes ++ caxes) ++ caxes) x)
          ((unflattenIdx (List.replicate waxes.length 2) i
            ++ gatherIdx (eraseEach (List.range R) (waxes ++ caxes)) idx)
            ++ gatherIdx caxes idx) := by
      rw [hshape',
        flattenIdx_append (by simp [gatherIdx, hrestlen, unflattenIdx_length]; omega),
        flattenIdx_append (by simp [unflattenIdx_length]),
        flattenIdx_unflattenIdx hiprod]
      simp only [List.prod_cons, prod_replicate_two]
      rw [← hBR, ← hBc, hBceq, hm0]
      ring
    rw [hGfull, permute_data_flatten x hshlen (by
      rw [hshape']
      exact validIdx_append (validIdx_append (unflattenIdx_valid hiprod) hvRest) hvC)]
    have hsel : Tensor.selectIdx R (waxes
          ++ eraseEach (List.range R) (waxes ++ caxes) ++ caxes)
        ((unflattenIdx (List.replicate waxes.length 2) i
          ++ gatherIdx (eraseEach (List.range R) (waxes ++ caxes)) idx)
          ++ gatherIdx caxes idx) = setIdx idx waxes
        (unflattenIdx (List.replicate waxes.length 2) i) := by
      rw [List.append_assoc waxes (eraseEach (List.range R) (waxes ++ caxes)) caxes,
        List.append_assoc (unflattenIdx (List.replicate waxes.length 2) i)
          (gatherIdx (eraseEach (List.range R) (waxes ++ caxes)) idx)
          (gatherIdx caxes idx),
        ← gatherIdx_append (eraseEach (List.range R) (waxes ++ caxes)) caxes idx]
      exact selectIdx_append_gather hndW
        (by rw [← List.append_assoc]; exact hperm) hidxlen hdiglen
    rw [hsel]
    rfl
  · have hBcne : ¬ Bc = 2 ^ caxes.length - 1 := fun h => hall (hiff.mp h)
    rw [if_pos (by omega), if_neg hall]
    rw [slice3Init_data _ rfl hjBR (by omega), reshape_data]
    have hGfull : B1 * ((x.numel / (2 ^ waxes.length * 2 ^ caxes.length))
          * 2 ^ caxes.length) + BR * 2 ^ caxes.length + Bc
        = flattenIdx (Tensor.permuteShape (waxes
            ++ eraseEach (List.range R) (waxes ++ caxes) ++ caxes) x)
          (gatherIdx (waxes ++ eraseEach (List.range R) (waxes ++ caxes) ++ caxes) idx) := by
      rw [hflat, hm0]
      ring
    rw [hGfull, permute_data_flatten x hshlen (by
      rw [hshape', gatherIdx_append, gatherIdx_append]
      exact validIdx_append (validIdx_append hvW hvRest) hvC),
      selectIdx_gather hperm hidxlen]
    rfl

/-- `applyControlled` preserves the tensor shape. -/
theorem applyControlled_shape {K : Type} [CommRing K] {R b : ℕ} {waxes caxes : List ℕ}
    (hR : 1 ≤ R) (hnd : (waxes ++ caxes).Nodup)
    (hax : ∀ a ∈ waxes ++ caxes, 1 ≤ a ∧ a < R)
    (M : ℕ → ℕ → K) (x : Tensor K) (hx : x.shape = b :: List.replicate (R - 1) 2) :
    (applyControlled R waxes caxes M x).shape = x.shape := by
  have hperm : IsPermOf (waxes ++ eraseEach (List.range R) (waxes ++ caxes) ++ caxes) R :=
    ctrlPm_isPermOf hnd hax
  have hshlen : x.shape.length = R := by rw [hx]; simp; omega
  have hshape' := ctrlPm_shape hR hnd hax x hx
  have hnumel : x.numel = b * 2 ^ (R - 1) := by
    show x.shape.prod = _
    rw [hx, List.prod_cons, prod_replicate_two]
  have hbatch : x.numel / 2 ^ (R - 1) = b := by
    rw [hnumel]
    exact Nat.mul_div_cancel _ (pow_pos (by omega) _)
  have hs4 : List.replicate waxes.length 2 ++ [x.numel / 2 ^ (R - 1)]
      ++ List.replicate (R - 1 - waxes.length - caxes.length) 2
      ++ List.replicate caxes.length 2
      = Tensor.permuteShape (waxes ++ eraseEach (List.range R) (waxes ++ caxes)
        ++ caxes) x := by
    rw [hbatch, hshape', List.append_assoc (List.replicate waxes.length 2) [b]
      (List.replicate (R - 1 - waxes.length - caxes.length) 2)]
    rfl
  show Tensor.permuteShape (inverse_permutation (waxes
      ++ eraseEach (List.range R) (waxes ++ caxes) ++ caxes))
    ((cat3 (slice3Init ((x.permute (waxes
      ++ eraseEach (List.range R) (waxes ++ caxes) ++ caxes)).reshape
        [2 ^ waxes.length, x.numel / (2 ^ waxes.length * 2 ^ caxes.length),
          2 ^ caxes.length]))
      (unsqueezeLast (matMulTensor (2 ^ waxes.length)
        (x.numel / (2 ^ waxes.length * 2 ^ caxes.length)) M
        (slice3Last ((x.permute (waxes
          ++ eraseEach (List.range R) (waxes ++ caxes) ++ caxes)).reshape
          [2 ^ waxes.length, x.numel / (2 ^ waxes.length * 2 ^ caxes.length),
            2 ^ caxes.length]))))).reshape
      (List.replicate waxes.length 2 ++ [x.numel / 2 ^ (R - 1)]
        ++ List.replicate (R - 1 - waxes.length - caxes.length) 2
        ++ List.replicate caxes.length 2)) = x.shape
  have hsh2 : ((cat3 (slice3Init ((x.permute (waxes
      ++ eraseEach (List.range R) (waxes ++ caxes) ++ caxes)).reshape
        [2 ^ waxes.length, x.numel / (2 ^ waxes.length * 2 ^ caxes.length),
          2 ^ caxes.length]))
      (unsqueezeLast (matMulTensor (2 ^ waxes.length)
        (x.numel / (2 ^ waxes.length * 2 ^ caxes.length)) M
        (slice3Last ((x.permute (waxes
          ++ eraseEach (List.range R) (waxes ++ caxes) ++ caxes)).reshape
          [2 ^ waxes.length, x.numel / (2 ^ waxes.length * 2 ^ caxes.length),
            2 ^ caxes.length]))))).reshape
      (List.replicate waxes.length 2 ++ [x.numel / 2 ^ (R - 1)]
        ++ List.replicate (R - 1 - waxes.length - caxes.length) 2
        ++ List.replicate caxes.length 2)).shape
      = (x.permute (waxes ++ eraseEach (List.range R) (waxes ++ caxes)
        ++ caxes)).shape := hs4
  rw [permuteShape_congr _ hsh2, permuteShape_inverse hperm x hshlen]

/-! ## Further index lemmas: writing back, validity of written indices -/

theorem set_getD_self {l : List ℕ} {a : ℕ} (h : a < l.length) :
    l.set a (l.getD a 0) = l := by
  apply List.ext_getElem (by simp)
  intro n h1 h2
  rw [List.getElem_set]
  split
  · rename_i he
    subst he
    exact getD_eq_getElem' h 0
  · rfl

theorem setIdx_self {axes : List ℕ} :
    ∀ {idx : List ℕ}, (∀ a ∈ axes, a < idx.length) →
    setIdx idx axes (gatherIdx axes idx) = idx := by
  induction axes with
  | nil => intro idx _; rfl
  | cons a as ih =>
    intro idx hb
    show setIdx (idx.set a (idx.getD a 0)) as (gatherIdx as idx) = idx
    rw [set_getD_self (hb a (by simp))]
    exact ih (fun b hbm => hb b (by simp [hbm]))

theorem validIdx_of_getD {s idx : List ℕ} (hlen : idx.length = s.length)
    (h : ∀ pos < s.length, idx.getD pos 0 < s.getD pos 0) : ValidIdx s idx := by
  unfold ValidIdx
  rw [List.forall₂_iff_get]
  refine ⟨hlen, fun i h1 h2 => ?_⟩
  have := h i h2
  rwa [getD_eq_getElem' h1, getD_eq_getElem' h2] at this

theorem validIdx_setIdx_two {b R : ℕ} {idx axes vals : List ℕ}
    (hidx : ValidIdx (b :: List.replicate (R - 1) 2) idx) (hnd : axes.Nodup)
    (hax : ∀ a ∈ axes, 1 ≤ a ∧ a < R)
    (hvals : ValidIdx (List.replicate axes.length 2) vals) :
    ValidIdx (b :: List.replicate (R - 1) 2) (setIdx idx axes vals) := by
  have hshlen : idx.length = (b :: List.replicate (R - 1) 2).length := validIdx_length hidx
  apply validIdx_of_getD
  · rw [setIdx_length]
    exact hshlen
  · intro pos hpos
    by_cases hmem : pos ∈ axes
    · have hvlen : vals.length = axes.length := by
        have := validIdx_length hvals
        simpa using this
      rw [getD_setIdx_mem hnd hvlen (fun a ha => by
        rw [hshlen]
        simp
        have := (hax a ha).2
        omega) hmem]
      have hu : axes.indexOf pos < axes.length := List.indexOf_lt_length.mpr hmem
      have h2 := validIdx_getD hvals (by simpa using hu)
      rw [getD_replicate hu] at h2
      rw [getD_bshape_two (hax pos hmem).1 (hax pos hmem).2]
      exact h2
    · rw [getD_setIdx_not_mem hmem]
      exact validIdx_getD hidx hpos

theorem gatherIdx_setIdx_not_mem {p axes idx vals : List ℕ}
    (h : ∀ a ∈ p, a ∉ axes) :
    gatherIdx p (setIdx idx axes vals) = gatherIdx p idx := by
  unfold gatherIdx
  exact List.map_congr_left (fun a ha => getD_setIdx_not_mem (h a ha) idx vals)

theorem getD_setIdx_not_mem_pt {axes idx vals : List ℕ} {pos : ℕ} (h : pos ∉ axes) :
    (setIdx idx axes vals).getD pos 0 = idx.getD pos 0 :=
  getD_setIdx_not_mem h idx vals

/-- Composing the `pm_shape` permutation with its computed inverse yields the
identity ordering. -/
theorem inverse_permutation_comp {p : List ℕ} {R : ℕ} (hp : IsPermOf p R) :
    (inverse_permutation p).map (fun j => p.getD j 0) = List.range R := by
  unfold inverse_permutation
  rw [hp.length, List.map_map]
  have h1 : List.map ((fun j => p.getD j 0) ∘ fun j => List.indexOf j p) (List.range R)
      = List.map id (List.range R) :=
    List.map_congr_left (fun m hm =>
      getD_indexOf_self (hp.mem_iff.mpr (List.mem_range.mp hm)))
  rw [h1, List.map_id]

/-- With the identity matrix, `applyBase` leaves every valid entry unchanged. -/
theorem applyBase_identity_entry {K : Type} [CommRing K] {R b : ℕ} {axes : List ℕ}
    (hR : 1 ≤ R) (hnd : axes.Nodup) (hax : ∀ a ∈ axes, 1 ≤ a ∧ a < R)
    (x : Tensor K) (hx : x.shape = b :: List.replicate (R - 1) 2)
    {idx : List ℕ} (hidx : ValidIdx x.shape idx) :
    (applyBase R axes (fun r c => if r = c then 1 else 0) x).entry idx = x.entry idx := by
  rw [applyBase_entry hR hnd hax _ x hx hidx]
  have haxbound : ∀ a ∈ axes, a < x.shape.length := fun a ha => by
    rw [hx]
    simp
    have := (hax a ha).2
    omega
  have hvW : ValidIdx (List.replicate axes.length 2) (gatherIdx axes idx) := by
    have h := validIdx_gather hidx haxbound
    rwa [show gatherIdx axes x.shape = List.replicate axes.length 2 from by
      rw [hx]; exact gather_axes_shape hax] at h
  have hB1lt : flattenIdx (List.replicate axes.length 2) (gatherIdx axes idx)
      < 2 ^ axes.length := by
    have h := flattenIdx_lt hvW
    rwa [prod_replicate_two] at h
  rw [Finset.sum_congr rfl (fun i _ => by
    rw [ite_mul, one_mul, zero_mul]),
    Finset.sum_ite_eq (Finset.range (2 ^ axes.length))
      (flattenIdx (List.replicate axes.length 2) (gatherIdx axes idx)),
    if_pos (Finset.mem_range.mpr hB1lt), unflattenIdx_flattenIdx hvW,
    setIdx_self (fun a ha => by rw [validIdx_length hidx]; exact haxbound a ha)]

/-! ## Entry characterizations of the gate-application routines -/

/-- `op_state_base` with the identity matrix leaves the state tensor unchanged. -/
theorem op_state_base_identity {K : Type} [CommRing K] {n b : ℕ} {wires : List ℕ}
    (hnd : wires.Nodup) (hbound : ∀ w ∈ wires, w < n)
    (x : Tensor K) (hx : x.shape = b :: List.replicate n 2) :
    Tensor.EqOn (op_state_base n wires (fun r c => if r = c then 1 else 0) x) x := by
  have hnd' : (wires.map (· + 1)).Nodup := hnd.map (fun a b h => by omega)
  have hax : ∀ a ∈ wires.map (· + 1), 1 ≤ a ∧ a < n + 1 := by
    intro a ha
    obtain ⟨w, hw, rfl⟩ := List.mem_map.mp ha
    exact ⟨by omega, by have := hbound w hw; omega⟩
  have hx' : x.shape = b :: List.replicate (n + 1 - 1) 2 := by simpa using hx
  have hshape : (op_state_base n wires (fun r c => if r = c then (1:K) else 0) x).shape
      = x.shape :=
    applyBase_shape (by omega) hnd' hax _ x hx'
  refine ⟨hshape, ?_⟩
  intro k hk
  have hnum_eq : (op_state_base n wires (fun r c => if r = c then (1:K) else 0) x).numel
      = x.numel := by
    unfold Tensor.numel
    rw [hshape]
  have hk' : k < x.numel := by rwa [hnum_eq] at hk
  rw [Tensor.data_eq_entry hk, Tensor.data_eq_entry hk', hshape]
  exact applyBase_identity_entry (by omega) hnd' hax x hx' (unflattenIdx_valid hk')

/-- Entry characterization of `op_state_control`. -/
theorem op_state_control_entry {K : Type} [CommRing K] {n b : ℕ}
    {wires controls : List ℕ} (hnd : (wires ++ controls).Nodup)
    (hbound : ∀ w ∈ wires ++ controls, w < n) (M : ℕ → ℕ → K)
    (x : Tensor K) (hx : x.shape = b :: List.replicate n 2)
    {idx : List ℕ} (hidx : ValidIdx x.shape idx) :
    (op_state_control n wires controls M x).entry idx =
      if ∀ c ∈ controls, idx.getD (c + 1) 0 = 1 then
        ∑ i ∈ Finset.range (2 ^ wires.length),
          M (flattenIdx (List.replicate wires.length 2) (gatherIdx (wires.map (· + 1)) idx)) i
            * x.entry (setIdx idx (wires.map (· + 1))
                (unflattenIdx (List.replicate wires.length 2) i))
      else x.entry idx := by
  have hmapnd : ((wires.map (· + 1)) ++ (controls.map (· + 1))).Nodup := by
    rw [← List.map_append]
    exact hnd.map (fun a b h => by omega)
  have hax : ∀ a ∈ (wires.map (· + 1)) ++ (controls.map (· + 1)), 1 ≤ a ∧ a < n + 1 := by
    intro a ha
    rw [← List.map_append, List.mem_map] at ha
    obtain ⟨w, hw, rfl⟩ := ha
    exact ⟨by omega, by have := hbound w hw; omega⟩
  have hx' : x.shape = b :: List.replicate (n + 1 - 1) 2 := by simpa using hx
  have h := applyControlled_entry (by omega) hmapnd hax M x hx' hidx
  rw [show (op_state_control n wires controls M x).entry idx
      = (applyControlled (n + 1) (wires.map (· + 1)) (controls.map (· + 1)) M x).entry idx
    from rfl, h]
  have hcond : (∀ c ∈ controls.map (· + 1), idx.getD c 0 = 1)
      ↔ (∀ c ∈ controls, idx.getD (c + 1) 0 = 1) := by
    constructor
    · intro hcc c hc
      exact hcc _ (List.mem_map_of_mem _ hc)
    · intro hcc a ha
      obtain ⟨c, hc, rfl⟩ := List.mem_map.mp ha
      exact hcc c hc
  simp only [List.length_map]
  exact if_congr hcond rfl rfl

/-- Entry characterization of `op_den_mat_base`: the double-sided multiply. -/
theorem op_den_mat_base_entry {K : Type} [CommRing K] [StarRing K] {n b : ℕ}
    {wires : List ℕ} (hnd : wires.Nodup) (hbound : ∀ w ∈ wires, w < n)
    (M : ℕ → ℕ → K) (x : Tensor K) (hx : x.shape = b :: List.replicate (2 * n) 2)
    {idx : List ℕ} (hidx : ValidIdx x.shape idx) :
    (op_den_mat_base n wires M x).entry idx =
      ∑ s ∈ Finset.range (2 ^ wires.length),
        star (M (flattenIdx (List.replicate wires.length 2)
            (gatherIdx (wires.map (· + 1 + n)) idx)) s)
          * ∑ t ∈ Finset.range (2 ^ wires.length),
              M (flattenIdx (List.replicate wires.length 2)
                (gatherIdx (wires.map (· + 1)) idx)) t
                * x.entry (setIdx (setIdx idx (wires.map (· + 1 + n))
                    (unflattenIdx (List.replicate wires.length 2) s)) (wires.map (· + 1))
                    (unflattenIdx (List.replicate wires.length 2) t)) := by
  have hndK : (wires.map (· + 1)).Nodup := hnd.map (fun a b h => by omega)
  have hndB : (wires.map (· + 1 + n)).Nodup := hnd.map (fun a b h => by omega)
  have haxK : ∀ a ∈ wires.map (· + 1), 1 ≤ a ∧ a < 2 * n + 1 := by
    intro a ha
    obtain ⟨w, hw, rfl⟩ := List.mem_map.mp ha
    exact ⟨by omega, by have := hbound w hw; omega⟩
  have haxB : ∀ a ∈ wires.map (· + 1 + n), 1 ≤ a ∧ a < 2 * n + 1 := by
    intro a ha
    obtain ⟨w, hw, rfl⟩ := List.mem_map.mp ha
    exact ⟨by omega, by have := hbound w hw; omega⟩
  have hx' : x.shape = b :: List.replicate (2 * n + 1 - 1) 2 := by simpa using hx
  have hx1shape : (applyBase (2 * n + 1) (wires.map (· + 1)) M x).shape = x.shape :=
    applyBase_shape (by omega) hndK haxK M x hx'
  have hx1' : (applyBase (2 * n + 1) (wires.map (· + 1)) M x).shape
      = b :: List.replicate (2 * n + 1 - 1) 2 := by rw [hx1shape]; exact hx'
  have hidx1 : ValidIdx (applyBase (2 * n + 1) (wires.map (· + 1)) M x).shape idx := by
    rw [hx1shape]
    exact hidx
  rw [show (op_den_mat_base n wires M x).entry idx
      = (applyBase (2 * n + 1) (wires.map (· + 1 + n)) (fun r c => star (M r c))
          (applyBase (2 * n + 1) (wires.map (· + 1)) M x)).entry idx from rfl]
  rw [applyBase_entry (by omega) hndB haxB _ _ hx1' hidx1]
  simp only [List.length_map]
  apply Finset.sum_congr rfl
  intro s _
  congr 1
  have hsprod : s < (List.replicate wires.length 2).prod := by
    rw [prod_replicate_two]
    rename_i hs
    exact Finset.mem_range.mp hs
  have hvdig : ValidIdx (List.replicate (wires.map (· + 1 + n)).length 2)
      (unflattenIdx (List.replicate wires.length 2) s) := by
    rw [List.length_map]
    exact unflattenIdx_valid hsprod
  have hidx' : ValidIdx x.shape
      (setIdx idx (wires.map (· + 1 + n)) (unflattenIdx (List.replicate wires.length 2) s)) := by
    rw [hx']
    exact validIdx_setIdx_two (hx' ▸ hidx) hndB haxB hvdig
  rw [applyBase_entry (by omega) hndK haxK M x hx' hidx']
  simp only [List.length_map]
  have hrow : gatherIdx (wires.map (· + 1)) (setIdx idx (wires.map (· + 1 + n))
      (unflattenIdx (List.replicate wires.length 2) s)) = gatherIdx (wires.map (· + 1)) idx := by
    apply gatherIdx_setIdx_not_mem
    intro a ha hmem
    obtain ⟨w, hw, rfl⟩ := List.mem_map.mp ha
    obtain ⟨w', hw', he⟩ := List.mem_map.mp hmem
    have := hbound w hw
    omega
  rw [hrow]

/-- `op_den_mat_control` leaves an entry unchanged when neither the ket-side nor the
bra-side control bits are all ones. -/
theorem op_den_mat_control_entry_unchanged {K : Type} [CommRing K] [StarRing K]
    {n b : ℕ} {wires controls : List ℕ} (hnd : (wires ++ controls).Nodup)
    (hbound : ∀ w ∈ wires ++ controls, w < n) (M : ℕ → ℕ → K)
    (x : Tensor K) (hx : x.shape = b :: List.replicate (2 * n) 2)
    {idx : List ℕ} (hidx : ValidIdx x.shape idx)
    (hket : ¬ ∀ c ∈ controls, idx.getD (c + 1) 0 = 1)
    (hbra : ¬ ∀ c ∈ controls, idx.getD (c + 1 + n) 0 = 1) :
    (op_den_mat_control n wires controls M x).entry idx = x.entry idx := by
  have hndK : ((wires.map (· + 1)) ++ (controls.map (· + 1))).Nodup := by
    rw [← List.map_append]
    exact hnd.map (fun a b h => by omega)
  have hndB : ((wires.map (· + 1 + n)) ++ (controls.map (· + 1 + n))).Nodup := by
    rw [← List.map_append]
    exact hnd.map (fun a b h => by omega)
  have haxK : ∀ a ∈ (wires.map (· + 1)) ++ (controls.map (· + 1)),
      1 ≤ a ∧ a < 2 * n + 1 := by
    intro a ha
    rw [← List.map_append, List.mem_map] at ha
    obtain ⟨w, hw, rfl⟩ := ha
    exact ⟨by omega, by have := hbound w hw; omega⟩
  have haxB : ∀ a ∈ (wires.map (· + 1 + n)) ++ (controls.map (· + 1 + n)),
      1 ≤ a ∧ a < 2 * n + 1 := by
    intro a ha
    rw [← List.map_append, List.mem_map] at ha
    obtain ⟨w, hw, rfl⟩ := ha
    exact ⟨by omega, by have := hbound w hw; omega⟩
  have hx' : x.shape = b :: List.replicate (2 * n + 1 - 1) 2 := by simpa using hx
  have hx1shape : (applyControlled (2 * n + 1) (wires.map (· + 1))
      (controls.map (· + 1)) M x).shape = x.shape :=
    applyControlled_shape (by omega) hndK haxK M x hx'
  have hx1' : (applyControlled (2 * n + 1) (wires.map (· + 1))
      (controls.map (· + 1)) M x).shape = b :: List.replicate (2 * n + 1 - 1) 2 := by
    rw [hx1shape]
    exact hx'
  have hidx1 : ValidIdx (applyControlled (2 * n + 1) (wires.map (· + 1))
      (controls.map (· + 1)) M x).shape idx := by
    rw [hx1shape]
    exact hidx
  have hbra' : ¬ ∀ c ∈ controls.map (· + 1 + n), idx.getD c 0 = 1 := fun h =>
    hbra (fun c hc => h _ (List.mem_map_of_mem _ hc))
  have hket' : ¬ ∀ c ∈ controls.map (· + 1), idx.getD c 0 = 1 := fun h =>
    hket (fun c hc => h _ (List.mem_map_of_mem _ hc))
  rw [show (op_den_mat_control n wires controls M x).entry idx
      = (applyControlled (2 * n + 1) (wires.map (· + 1 + n)) (controls.map (· + 1 + n))
          (fun r c => star (M r c))
          (applyControlled (2 * n + 1) (wires.map (· + 1)) (controls.map (· + 1)) M x)).entry
        idx from rfl]
  rw [applyControlled_entry (by omega) hndB haxB _ _ hx1' hidx1, if_neg hbra',
    applyControlled_entry (by omega) hndK haxK M x hx' hidx, if_neg hket']

/-- `op_den_mat_control` on the all-ones control slice (both sides) applies the matrix
on the ket axes and its conjugate on the bra axes. -/
theorem op_den_mat_control_entry_active {K : Type} [CommRing K] [StarRing K]
    {n b : ℕ} {wires controls : List ℕ} (hnd : (wires ++ controls).Nodup)
    (hbound : ∀ w ∈ wires ++ controls, w < n) (M : ℕ → ℕ → K)
    (x : Tensor K) (hx : x.shape = b :: List.replicate (2 * n) 2)
    {idx : List ℕ} (hidx : ValidIdx x.shape idx)
    (hket : ∀ c ∈ controls, idx.getD (c + 1) 0 = 1)
    (hbra : ∀ c ∈ controls, idx.getD (c + 1 + n) 0 = 1) :
    (op_den_mat_control n wires controls M x).entry idx =
      ∑ s ∈ Finset.range (2 ^ wires.length),
        star (M (flattenIdx (List.replicate wires.length 2)
            (gatherIdx (wires.map (· + 1 + n)) idx)) s)
          * ∑ t ∈ Finset.range (2 ^ wires.length),
              M (flattenIdx (List.replicate wires.length 2)
                (gatherIdx (wires.map (· + 1)) idx)) t
                * x.entry (setIdx (setIdx idx (wires.map (· + 1 + n))
                    (unflattenIdx (List.replicate wires.length 2) s)) (wires.map (· + 1))
                    (unflattenIdx (List.replicate wires.length 2) t)) := by
  have hndK : ((wires.map (· + 1)) ++ (controls.map (· + 1))).Nodup := by
    rw [← List.map_append]
    exact hnd.map (fun a b h => by omega)
  have hndB : ((wires.map (· + 1 + n)) ++ (controls.map (· + 1 + n))).Nodup := by
    rw [← List.map_append]
    exact hnd.map (fun a b h => by omega)
  have haxK : ∀ a ∈ (wires.map (· + 1)) ++ (controls.map (· + 1)),
      1 ≤ a ∧ a < 2 * n + 1 := by
    intro a ha
    rw [← List.map_append, List.mem_map] at ha
    obtain ⟨w, hw, rfl⟩ := ha
    exact ⟨by omega, by have := hbound w hw; omega⟩
  have haxB : ∀ a ∈ (wires.map (· + 1 + n)) ++ (controls.map (· + 1 + n)),
      1 ≤ a ∧ a < 2 * n + 1 := by
    intro a ha
    rw [← List.map_append, List.mem_map] at ha
    obtain ⟨w, hw, rfl⟩ := ha
    exact ⟨by omega, by have := hbound w hw; omega⟩
  have hndB' : (wires.map (· + 1 + n)).Nodup := hndB.of_append_left
  have haxB' : ∀ a ∈ wires.map (· + 1 + n), 1 ≤ a ∧ a < 2 * n + 1 := fun a ha =>
    haxB a (List.mem_append_left _ ha)
  have hx' : x.shape = b :: List.replicate (2 * n + 1 - 1) 2 := by simpa using hx
  have hx1shape : (applyControlled (2 * n + 1) (wires.map (· + 1))
      (controls.map (· + 1)) M x).shape = x.shape :=
    applyControlled_shape (by omega) hndK haxK M x hx'
  have hx1' : (applyControlled (2 * n + 1) (wires.map (· + 1))
      (controls.map (· + 1)) M x).shape = b :: List.replicate (2 * n + 1 - 1) 2 := by
    rw [hx1shape]
    exact hx'
  have hidx1 : ValidIdx (applyControlled (2 * n + 1) (wires.map (· + 1))
      (controls.map (· + 1)) M x).shape idx := by
    rw [hx1shape]
    exact hidx
  have hbra' : ∀ c ∈ controls.map (· + 1 + n), idx.getD c 0 = 1 := by
    intro a ha
    obtain ⟨c, hc, rfl⟩ := List.mem_map.mp ha
    exact hbra c hc
  rw [show (op_den_mat_control n wires controls M x).entry idx
      = (applyControlled (2 * n + 1) (wires.map (· + 1 + n)) (controls.map (· + 1 + n))
          (fun r c => star (M r c))
          (applyControlled (2 * n + 1) (wires.map (· + 1)) (controls.map (· + 1)) M x)).entry
        idx from rfl]
  rw [applyControlled_entry (by omega) hndB haxB _ _ hx1' hidx1, if_pos hbra']
  simp only [List.length_map]
  apply Finset.sum_congr rfl
  intro s hs
  congr 1
  have hsprod : s < (List.replicate wires.length 2).prod := by
    rw [prod_replicate_two]
    exact Finset.mem_range.mp hs
  have hvdig : ValidIdx (List.replicate (wires.map (· + 1 + n)).length 2)
      (unflattenIdx (List.replicate wires.length 2) s) := by
    rw [List.length_map]
    exact unflattenIdx_valid hsprod
  have hidx' : ValidIdx x.shape
      (setIdx idx (wires.map (· + 1 + n))
        (unflattenIdx (List.replicate wires.length 2) s)) := by
    rw [hx']
    exact validIdx_setIdx_two (hx' ▸ hidx) hndB' haxB' hvdig
  have hdisj : ∀ a ∈ controls.map (· + 1), a ∉ wires.map (· + 1 + n) := by
    intro a ha hmem
    obtain ⟨c, hc, rfl⟩ := List.mem_map.mp ha
    obtain ⟨w, hw, he⟩ := List.mem_map.mp hmem
    have := hbound c (List.mem_append_right _ hc)
    omega
  have hket' : ∀ c ∈ controls.map (· + 1),
      (setIdx idx (wires.map (· + 1 + n))
        (unflattenIdx (List.replicate wires.length 2) s)).getD c 0 = 1 := by
    intro a ha
    rw [getD_setIdx_not_mem_pt (hdisj a ha)]
    obtain ⟨c, hc, rfl⟩ := List.mem_map.mp ha
    exact hket c hc
  rw [applyControlled_entry (by omega) hndK haxK M x hx' hidx', if_pos hket']
  simp only [List.length_map]
  have hrowdisj : ∀ a ∈ wires.map (· + 1), a ∉ wires.map (· + 1 + n) := by
    intro a ha hmem
    obtain ⟨w, hw, rfl⟩ := List.mem_map.mp ha
    obtain ⟨w', hw', he⟩ := List.mem_map.mp hmem
    have := hbound w (List.mem_append_left _ hw)
    omega
  rw [gatherIdx_setIdx_not_mem hrowdisj]

/-! ## Claims -/

/-- **C1.** For every controlled gate application (pure state via `op_state_control`
or density matrix via `op_den_mat_control`), with valid disjoint wires and controls,
every slice of the state tensor whose control-axis index combination is not all ones
is exactly equal to the corresponding slice of the input; only the slice at the last
index along the flattened control dimension (all controls = 1) is transformed by the
gate matrix (and, for the density matrix, by its conjugate on the bra side). -/
theorem claim_C1 {K : Type} [CommRing K] [StarRing K] (n b : ℕ)
    (wires controls : List ℕ) (M : ℕ → ℕ → K) (x xd : Tensor K)
    (hnd : (wires ++ controls).Nodup) (hbound : ∀ w ∈ wires ++ controls, w < n)
    (hx : x.shape = b :: List.replicate n 2)
    (hxd : xd.shape = b :: List.replicate (2 * n) 2)
    (idx idxd : List ℕ) (hidx : ValidIdx x.shape idx) (hidxd : ValidIdx xd.shape idxd) :
    ((¬ ∀ c ∈ controls, idx.getD (c + 1) 0 = 1) →
      (op_state_control n wires controls M x).entry idx = x.entry idx)
    ∧ ((∀ c ∈ controls, idx.getD (c + 1) 0 = 1) →
      (op_state_control n wires controls M x).entry idx =
        ∑ i ∈ Finset.range (2 ^ wires.length),
          M (flattenIdx (List.replicate wires.length 2)
              (gatherIdx (wires.map (· + 1)) idx)) i
            * x.entry (setIdx idx (wires.map (· + 1))
                (unflattenIdx (List.replicate wires.length 2) i)))
    ∧ ((¬ ∀ c ∈ controls, idxd.getD (c + 1) 0 = 1) →
       (¬ ∀ c ∈ controls, idxd.getD (c + 1 + n) 0 = 1) →
      (op_den_mat_control n wires controls M xd).entry idxd = xd.entry idxd)
    ∧ ((∀ c ∈ controls, idxd.getD (c + 1) 0 = 1) →
       (∀ c ∈ controls, idxd.getD (c + 1 + n) 0 = 1) →
      (op_den_mat_control n wires controls M xd).entry idxd =
        ∑ s ∈ Finset.range (2 ^ wires.length),
          star (M (flattenIdx (List.replicate wires.length 2)
              (gatherIdx (wires.map (· + 1 + n)) idxd)) s)
            * ∑ t ∈ Finset.range (2 ^ wires.length),
                M (flattenIdx (List.replicate wires.length 2)
                  (gatherIdx (wires.map (· + 1)) idxd)) t
                  * xd.entry (setIdx (setIdx idxd (wires.map (· + 1 + n))
                      (unflattenIdx (List.replicate wires.length 2) s))
                      (wires.map (· + 1))
                      (unflattenIdx (List.replicate wires.length 2) t))) := by
  refine ⟨?_, ?_, ?_, ?_⟩
  · intro hne
    rw [op_state_control_entry hnd hbound M x hx hidx, if_neg hne]
  · intro hall
    rw [op_state_control_entry hnd hbound M x hx hidx, if_pos hall]
  · intro hket hbra
    exact op_den_mat_control_entry_unchanged hnd hbound M xd hxd hidxd hket hbra
  · intro hket hbra
    exact op_den_mat_control_entry_active hnd hbound M xd hxd hidxd hket hbra

/-- Witness for C1: a CNOT (controls = `[0]`, wires = `[1]`) on a concrete 2-qubit
state tensor; the slice with control bit 0 is untouched. -/
theorem claim_C1_witness :
    (¬ ∀ c ∈ [0], ([0, 0, 1] : List ℕ).getD (c + 1) 0 = 1)
    ∧ (op_state_control 2 [1] [0]
        (fun r c => if (r = 0 ∧ c = 1) ∨ (r = 1 ∧ c = 0) then (1:ℤ) else 0)
        ⟨[1, 2, 2], fun k => (k : ℤ) + 1⟩).entry [0, 0, 1]
      = Tensor.entry ⟨[1, 2, 2], fun k => (k : ℤ) + 1⟩ [0, 0, 1] :=
  ⟨by decide,
    (claim_C1 2 1 [1] [0]
      (fun r c => if (r = 0 ∧ c = 1) ∨ (r = 1 ∧ c = 0) then (1:ℤ) else 0)
      ⟨[1, 2, 2], fun k => (k : ℤ) + 1⟩ ⟨[1, 2, 2, 2, 2], fun k => (k : ℤ)⟩
      (by decide) (by decide) rfl rfl [0, 0, 1] [0, 0, 0, 0, 0]
      (by decide) (by decide)).1 (by decide)⟩

/-- **C4.** For every list of target wires the permutation `pm_shape` built by
`op_state_base` composed with `inverse_permutation pm_shape` is the identity
ordering; and running the permute–reshape–multiply–reshape–inverse-permute pipeline
of `op_state_base` with the `2^k` identity matrix returns the input tensor
unchanged. -/
theorem claim_C4 {K : Type} [CommRing K] (n b : ℕ) (wires : List ℕ) (x : Tensor K)
    (hnd : wires.Nodup) (hbound : ∀ w ∈ wires, w < n)
    (hx : x.shape = b :: List.replicate n 2) :
    (inverse_permutation ((wires.map (· + 1))
        ++ eraseEach (List.range (n + 1)) (wires.map (· + 1)))).map
      (fun j => ((wires.map (· + 1))
        ++ eraseEach (List.range (n + 1)) (wires.map (· + 1))).getD j 0)
      = List.range (n + 1)
    ∧ Tensor.EqOn (op_state_base n wires (fun r c => if r = c then 1 else 0) x) x := by
  constructor
  · apply inverse_permutation_comp
    apply basePm_isPermOf (hnd.map (fun a b h => by omega))
    intro a ha
    obtain ⟨w, hw, rfl⟩ := List.mem_map.mp ha
    exact ⟨by omega, by have := hbound w hw; omega⟩
  · exact op_state_base_identity hnd hbound x hx

/-- Witness for C4: the identity pipeline on a concrete 3-qubit tensor with the
non-contiguous, out-of-order wire list `[2, 0]`. -/
theorem claim_C4_witness :
    Tensor.EqOn (op_state_base 3 [2, 0] (fun r c => if r = c then (1:ℤ) else 0)
      ⟨[1, 2, 2, 2], fun k => (k : ℤ) + 5⟩) ⟨[1, 2, 2, 2], fun k => (k : ℤ) + 5⟩ :=
  (claim_C4 3 1 [2, 0] ⟨[1, 2, 2, 2], fun k => (k : ℤ) + 5⟩
    (by decide) (by decide) rfl).2

/-- **C5.** Applying a controlled-NOT gate (controls = `[0]`, wires = `[1]`, matrix
`[[0,1],[1,0]]`) on a 2-qubit system via `op_state_control` maps the state vector
`[1,0,0,0]` (|00⟩) to itself unchanged, and maps `[0,0,1,0]` (|10⟩) to `[0,0,0,1]`
(|11⟩). -/
theorem claim_C5 :
    tensorToList (op_state_control 2 [1] [0]
        (fun r c => if (r = 0 ∧ c = 1) ∨ (r = 1 ∧ c = 0) then (1:ℤ) else 0)
        ⟨[1, 2, 2], fun k => if k = 0 then 1 else 0⟩) = [1, 0, 0, 0]
    ∧ tensorToList (op_state_control 2 [1] [0]
        (fun r c => if (r = 0 ∧ c = 1) ∨ (r = 1 ∧ c = 0) then (1:ℤ) else 0)
        ⟨[1, 2, 2], fun k => if k = 2 then 1 else 0⟩) = [0, 0, 0, 1] := by
  constructor
  · decide
  · decide

/-! ## The full matrix `U ⊗ I` of the spec and density-matrix flattening (for C2) -/

/-- Refinement definition, following the claim's words: `U_full` is the gate matrix
`M` "extended by identities on the non-target qubits" — entry `(r, c)` is the `M`
entry at the wire bits of `r` and `c` when all non-wire bits of `r` and `c` agree,
and `0` otherwise. -/
def uFullSpec {K : Type} [CommRing K] (n : ℕ) (wires : List ℕ) (M : ℕ → ℕ → K) :
    ℕ → ℕ → K := fun r c =>
  if ∀ w ∈ List.range n, w ∈ wires
      ∨ (unflattenIdx (List.replicate n 2) r).getD w 0
        = (unflattenIdx (List.replicate n 2) c).getD w 0 then
    M (flattenIdx (List.replicate wires.length 2)
        (gatherIdx wires (unflattenIdx (List.replicate n 2) r)))
      (flattenIdx (List.replicate wires.length 2)
        (gatherIdx wires (unflattenIdx (List.replicate n 2) c)))
  else 0

/-- The `2^n × 2^n` matrix read off a batch-1 density-matrix tensor
(row-major flattening back). -/
def denMatOf {K : Type} (n : ℕ) (x : Tensor K) : ℕ → ℕ → K := fun r c =>
  x.data (r * 2 ^ n + c)

theorem gather_rep_shape {p : List ℕ} {n : ℕ} (h : ∀ a ∈ p, a < n) :
    gatherIdx p (List.replicate n 2) = List.replicate p.length 2 :=
  map_eq_replicate_of_forall (fun a ha => getD_replicate (h a ha))

theorem validIdx_setIdx_rep {n : ℕ} {idx axes vals : List ℕ}
    (hidx : ValidIdx (List.replicate n 2) idx) (hnd : axes.Nodup)
    (hbound : ∀ a ∈ axes, a < n)
    (hvals : ValidIdx (List.replicate axes.length 2) vals) :
    ValidIdx (List.replicate n 2) (setIdx idx axes vals) := by
  have hlenidx : idx.length = n := by
    have := validIdx_length hidx
    simpa using this
  apply validIdx_of_getD
  · rw [setIdx_length, hlenidx]
    simp
  · intro pos hpos
    have hpos' : pos < n := by simpa using hpos
    by_cases hmem : pos ∈ axes
    · have hvlen : vals.length = axes.length := by
        have := validIdx_length hvals
        simpa using this
      rw [getD_setIdx_mem hnd hvlen
        (fun a ha => by rw [hlenidx]; exact hbound a ha) hmem]
      have hu : axes.indexOf pos < axes.length := List.indexOf_lt_length.mpr hmem
      have h2 := validIdx_getD hvals (by simpa using hu)
      rw [getD_replicate hu] at h2
      rwa [getD_replicate hpos']
    · rw [getD_setIdx_not_mem hmem]
      exact validIdx_getD hidx hpos

theorem gather_setIdx_self {wires rb vals : List ℕ} (hnd : wires.Nodup)
    (hb : ∀ a ∈ wires, a < rb.length) (hlen : vals.length = wires.length) :
    gatherIdx wires (setIdx rb wires vals) = vals := by
  apply List.ext_getElem (by simp [gatherIdx, hlen])
  intro u h1 h2
  have hu : u < wires.length := by simpa [gatherIdx] using h1
  have hmem : wires.getD u 0 ∈ wires := by
    rw [getD_eq_getElem' hu]
    exact List.getElem_mem hu
  show (gatherIdx wires (setIdx rb wires vals))[u] = vals[u]
  rw [← getD_eq_getElem' h1 0, ← getD_eq_getElem' h2 0]
  unfold gatherIdx
  rw [getD_map_lt hu]
  rw [getD_setIdx_mem hnd hlen (fun a ha => hb a ha) hmem,
    indexOf_getD_nodup hnd hu]

theorem setIdx_map_add_one {axes : List ℕ} :
    ∀ {vals l1 : List ℕ} {z : ℕ} {l2 : List ℕ}, (∀ a ∈ axes, a < l1.length) →
    setIdx (z :: (l1 ++ l2)) (axes.map (· + 1)) vals
      = z :: (setIdx l1 axes vals ++ l2) := by
  induction axes with
  | nil => intro vals l1 z l2 _; rfl
  | cons a as ih =>
    intro vals l1 z l2 hb
    cases vals with
    | nil => rw [setIdx_nil_vals, setIdx_nil_vals]
    | cons v vs =>
      show setIdx ((z :: (l1 ++ l2)).set (a + 1) v) (as.map (· + 1)) vs = _
      have h1 : (z :: (l1 ++ l2)).set (a + 1) v = z :: (l1.set a v ++ l2) := by
        show z :: (l1 ++ l2).set a v = _
        rw [List.set_append_left _ _ (hb a (by simp))]
      rw [h1, ih (fun q hq => by rw [List.length_set]; exact hb q (by simp [hq]))]
      rfl

theorem setIdx_map_add_offset {axes : List ℕ} {n : ℕ} :
    ∀ {vals l1 : List ℕ} {z : ℕ} {l2 : List ℕ}, l1.length = n →
    (∀ a ∈ axes, a < n) →
    setIdx (z :: (l1 ++ l2)) (axes.map (fun i => i + 1 + n)) vals
      = z :: (l1 ++ setIdx l2 axes vals) := by
  induction axes with
  | nil => intro vals l1 z l2 _ _; rfl
  | cons a as ih =>
    intro vals l1 z l2 hlen hb
    cases vals with
    | nil => rw [setIdx_nil_vals, setIdx_nil_vals]
    | cons v vs =>
      show setIdx ((z :: (l1 ++ l2)).set (a + 1 + n) v) (as.map (fun i => i + 1 + n)) vs = _
      have h1 : (z :: (l1 ++ l2)).set (a + 1 + n) v = z :: (l1 ++ l2.set a v) := by
        rw [show a + 1 + n = (a + n) + 1 by omega]
        show z :: (l1 ++ l2).set (a + n) v = _
        rw [show a + n = l1.length + a by omega,
          List.set_append_right _ _ (Nat.le_add_right _ _), Nat.add_sub_cancel_left]
      rw [h1, ih hlen (fun q hq => hb q (by simp [hq]))]
      rfl

theorem gather_map_add_one {axes l1 : List ℕ} {z : ℕ} {l2 : List ℕ}
    (hb : ∀ a ∈ axes, a < l1.length) :
    gatherIdx (axes.map (· + 1)) (z :: (l1 ++ l2)) = gatherIdx axes l1 := by
  unfold gatherIdx
  rw [List.map_map]
  apply List.map_congr_left
  intro a ha
  show (l1 ++ l2).getD a 0 = l1.getD a 0
  exact List.getD_append _ _ _ _ (hb a ha)

theorem gather_map_add_offset {axes l1 : List ℕ} {n z : ℕ} {l2 : List ℕ}
    (hlen : l1.length = n) :
    gatherIdx (axes.map (fun i => i + 1 + n)) (z :: (l1 ++ l2)) = gatherIdx axes l2 := by
  unfold gatherIdx
  rw [List.map_map]
  apply List.map_congr_left
  intro a ha
  show (z :: (l1 ++ l2)).getD (a + 1 + n) 0 = l2.getD a 0
  rw [show a + 1 + n = (a + n) + 1 by omega]
  show (l1 ++ l2).getD (a + n) 0 = l2.getD a 0
  rw [List.getD_append_right _ _ _ _ (by omega), hlen]
  congr 1
  omega

theorem flatten_den_idx {n : ℕ} {rb cb : List ℕ} (hrb : rb.length = n) :
    flattenIdx (1 :: List.replicate (2 * n) 2) (0 :: (rb ++ cb))
      = flattenIdx (List.replicate n 2) rb * 2 ^ n
        + flattenIdx (List.replicate n 2) cb := by
  show 0 * (List.replicate (2 * n) 2).prod + flattenIdx (List.replicate (2 * n) 2) (rb ++ cb)
    = _
  rw [Nat.zero_mul, Nat.zero_add,
    show 2 * n = n + n by omega, List.replicate_add,
    flattenIdx_append (by rw [hrb]; simp), prod_replicate_two]

theorem uFullSpec_apply {K : Type} [CommRing K] {n : ℕ} {wires : List ℕ}
    (hnd : wires.Nodup) (hbound : ∀ w ∈ wires, w < n) (M : ℕ → ℕ → K)
    {r t : ℕ} (hr : r < 2 ^ n) (ht : t < 2 ^ wires.length) :
    uFullSpec n wires M r (flattenIdx (List.replicate n 2)
        (setIdx (unflattenIdx (List.replicate n 2) r) wires
          (unflattenIdx (List.replicate wires.length 2) t)))
      = M (flattenIdx (List.replicate wires.length 2)
          (gatherIdx wires (unflattenIdx (List.replicate n 2) r))) t := by
  have hrb_valid : ValidIdx (List.replicate n 2) (unflattenIdx (List.replicate n 2) r) :=
    unflattenIdx_valid (by rw [prod_replicate_two]; exact hr)
  have hrb_len : (unflattenIdx (List.replicate n 2) r).length = n := by
    rw [unflattenIdx_length]
    simp
  have hd_valid : ValidIdx (List.replicate wires.length 2)
      (unflattenIdx (List.replicate wires.length 2) t) :=
    unflattenIdx_valid (by rw [prod_replicate_two]; exact ht)
  have hd_len : (unflattenIdx (List.replicate wires.length 2) t).length = wires.length := by
    rw [unflattenIdx_length]
    simp
  have hset_valid : ValidIdx (List.replicate n 2)
      (setIdx (unflattenIdx (List.replicate n 2) r) wires
        (unflattenIdx (List.replicate wires.length 2) t)) :=
    validIdx_setIdx_rep hrb_valid hnd hbound hd_valid
  unfold uFullSpec
  rw [unflattenIdx_flattenIdx hset_valid, if_pos (by
    intro w _
    by_cases hmem : w ∈ wires
    · exact Or.inl hmem
    · exact Or.inr (getD_setIdx_not_mem_pt hmem).symm)]
  congr 1
  rw [gather_setIdx_self hnd (fun a ha => by rw [hrb_len]; exact hbound a ha) hd_len,
    flattenIdx_unflattenIdx (by rw [prod_replicate_two]; exact ht)]

theorem uFullSpec_star {K : Type} [CommRing K] [StarRing K] (n : ℕ) (wires : List ℕ)
    (M : ℕ → ℕ → K) (r c : ℕ) :
    star (uFullSpec n wires M r c) = uFullSpec n wires (fun a b => star (M a b)) r c := by
  unfold uFullSpec
  split
  · rfl
  · exact star_zero K

/-- Reindexing a sum against `uFullSpec`: only the `2^k` columns that agree with `r`
off the wires survive, and they are enumerated by the wire bits `t`. -/
theorem sum_uFullSpec {K : Type} [CommRing K] {n : ℕ} {wires : List ℕ}
    (hnd : wires.Nodup) (hbound : ∀ w ∈ wires, w < n) (M : ℕ → ℕ → K)
    {r : ℕ} (hr : r < 2 ^ n) (g : ℕ → K) :
    ∑ rp ∈ Finset.range (2 ^ n), uFullSpec n wires M r rp * g rp
      = ∑ t ∈ Finset.range (2 ^ wires.length),
          M (flattenIdx (List.replicate wires.length 2)
              (gatherIdx wires (unflattenIdx (List.replicate n 2) r))) t
            * g (flattenIdx (List.replicate n 2)
                (setIdx (unflattenIdx (List.replicate n 2) r) wires
                  (unflattenIdx (List.replicate wires.length 2) t))) := by
  have hrb_valid : ValidIdx (List.replicate n 2) (unflattenIdx (List.replicate n 2) r) :=
    unflattenIdx_valid (by rw [prod_replicate_two]; exact hr)
  have hrb_len : (unflattenIdx (List.replicate n 2) r).length = n := by
    rw [unflattenIdx_length]
    simp
  have hφvalid : ∀ t, t < 2 ^ wires.length → ValidIdx (List.replicate n 2)
      (setIdx (unflattenIdx (List.replicate n 2) r) wires
        (unflattenIdx (List.replicate wires.length 2) t)) := fun t ht =>
    validIdx_setIdx_rep hrb_valid hnd hbound
      (unflattenIdx_valid (by rw [prod_replicate_two]; exact ht))
  have hφmem : ∀ t ∈ Finset.range (2 ^ wires.length),
      flattenIdx (List.replicate n 2)
        (setIdx (unflattenIdx (List.replicate n 2) r) wires
          (unflattenIdx (List.replicate wires.length 2) t)) ∈ Finset.range (2 ^ n) := by
    intro t ht
    rw [Finset.mem_range, ← prod_replicate_two n]
    exact flattenIdx_lt (hφvalid t (Finset.mem_range.mp ht))
  have hinj : ∀ t₁ ∈ Finset.range (2 ^ wires.length),
      ∀ t₂ ∈ Finset.range (2 ^ wires.length),
      flattenIdx (List.replicate n 2)
        (setIdx (unflattenIdx (List.replicate n 2) r) wires
          (unflattenIdx (List.replicate wires.length 2) t₁))
      = flattenIdx (List.replicate n 2)
        (setIdx (unflattenIdx (List.replicate n 2) r) wires
          (unflattenIdx (List.replicate wires.length 2) t₂)) → t₁ = t₂ := by
    intro t₁ ht₁ t₂ ht₂ he
    have ht₁' := Finset.mem_range.mp ht₁
    have ht₂' := Finset.mem_range.mp ht₂
    have he2 : setIdx (unflattenIdx (List.replicate n 2) r) wires
        (unflattenIdx (List.replicate wires.length 2) t₁)
        = setIdx (unflattenIdx (List.replicate n 2) r) wires
          (unflattenIdx (List.replicate wires.length 2) t₂) := by
      have h1 := congrArg (unflattenIdx (List.replicate n 2)) he
      rwa [unflattenIdx_flattenIdx (hφvalid t₁ ht₁'),
        unflattenIdx_flattenIdx (hφvalid t₂ ht₂')] at h1
    have h3 := congrArg (gatherIdx wires) he2
    rw [gather_setIdx_self hnd (fun a ha => by rw [hrb_len]; exact hbound a ha)
        (by rw [unflattenIdx_length]; simp),
      gather_setIdx_self hnd (fun a ha => by rw [hrb_len]; exact hbound a ha)
        (by rw [unflattenIdx_length]; simp)] at h3
    have h4 := congrArg (flattenIdx (List.replicate wires.length 2)) h3
    rwa [flattenIdx_unflattenIdx (by rw [prod_replicate_two]; exact ht₁'),
      flattenIdx_unflattenIdx (by rw [prod_replicate_two]; exact ht₂')] at h4
  have hzero : ∀ rp ∈ Finset.range (2 ^ n),
      rp ∉ (Finset.range (2 ^ wires.length)).image (fun t =>
        flattenIdx (List.replicate n 2)
          (setIdx (unflattenIdx (List.replicate n 2) r) wires
            (unflattenIdx (List.replicate wires.length 2) t))) →
      uFullSpec n wires M r rp * g rp = 0 := by
    intro rp hrp hnotin
    have hrp' := Finset.mem_range.mp hrp
    have hcb_valid : ValidIdx (List.replicate n 2) (unflattenIdx (List.replicate n 2) rp) :=
      unflattenIdx_valid (by rw [prod_replicate_two]; exact hrp')
    have hcb_len : (unflattenIdx (List.replicate n 2) rp).length = n := by
      rw [unflattenIdx_length]
      simp
    suffices h : uFullSpec n wires M r rp = 0 by rw [h, zero_mul]
    unfold uFullSpec
    rw [if_neg]
    intro hcond
    apply hnotin
    rw [Finset.mem_image]
    have hg_valid : ValidIdx (List.replicate wires.length 2)
        (gatherIdx wires (unflattenIdx (List.replicate n 2) rp)) := by
      have h := validIdx_gather hcb_valid (fun a ha => by
        rw [List.length_replicate]
        exact hbound a ha)
      rwa [show gatherIdx wires (List.replicate n 2) = List.replicate wires.length 2 from
        gather_rep_shape hbound] at h
    refine ⟨flattenIdx (List.replicate wires.length 2)
      (gatherIdx wires (unflattenIdx (List.replicate n 2) rp)), ?_, ?_⟩
    · rw [Finset.mem_range, ← prod_replicate_two wires.length]
      exact flattenIdx_lt hg_valid
    · rw [unflattenIdx_flattenIdx hg_valid]
      have hsetc : setIdx (unflattenIdx (List.replicate n 2) r) wires
          (gatherIdx wires (unflattenIdx (List.replicate n 2) rp))
          = unflattenIdx (List.replicate n 2) rp := by
        apply List.ext_getElem (by rw [setIdx_length, hrb_len, hcb_len])
        intro pos h1 h2
        have hposn : pos < n := by
          rw [setIdx_length, hrb_len] at h1
          exact h1
        rw [← getD_eq_getElem' h1 0, ← getD_eq_getElem' h2 0]
        by_cases hmem : pos ∈ wires
        · rw [getD_setIdx_mem hnd (by simp [gatherIdx])
            (fun a ha => by rw [hrb_len]; exact hbound a ha) hmem]
          unfold gatherIdx
          rw [getD_map_lt (List.indexOf_lt_length.mpr hmem),
            getD_indexOf_self hmem]
        · rw [getD_setIdx_not_mem_pt hmem]
          rcases hcond pos (List.mem_range.mpr hposn) with h | h
          · exact absurd h hmem
          · exact h
      rw [hsetc, flattenIdx_unflattenIdx (by rw [prod_replicate_two]; exact hrp')]
  calc ∑ rp ∈ Finset.range (2 ^ n), uFullSpec n wires M r rp * g rp
      = ∑ rp ∈ (Finset.range (2 ^ wires.length)).image (fun t =>
          flattenIdx (List.replicate n 2)
            (setIdx (unflattenIdx (List.replicate n 2) r) wires
              (unflattenIdx (List.replicate wires.length 2) t))),
          uFullSpec n wires M r rp * g rp := by
        symm
        apply Finset.sum_subset
        · intro a ha
          rw [Finset.mem_image] at ha
          obtain ⟨t, ht, rfl⟩ := ha
          exact hφmem t ht
        · exact hzero
    _ = ∑ t ∈ Finset.range (2 ^ wires.length),
          uFullSpec n wires M r (flattenIdx (List.replicate n 2)
            (setIdx (unflattenIdx (List.replicate n 2) r) wires
              (unflattenIdx (List.replicate wires.length 2) t)))
          * g (flattenIdx (List.replicate n 2)
            (setIdx (unflattenIdx (List.replicate n 2) r) wires
              (unflattenIdx (List.replicate wires.length 2) t))) :=
        Finset.sum_image hinj
    _ = _ := by
        apply Finset.sum_congr rfl
        intro t ht
        rw [uFullSpec_apply hnd hbound M hr (Finset.mem_range.mp ht)]

theorem op_den_mat_base_shape {K : Type} [CommRing K] [StarRing K] {n b : ℕ}
    {wires : List ℕ} (hnd : wires.Nodup) (hbound : ∀ w ∈ wires, w < n) (M : ℕ → ℕ → K)
    (x : Tensor K) (hx : x.shape = b :: List.replicate (2 * n) 2) :
    (op_den_mat_base n wires M x).shape = x.shape := by
  have hndK : (wires.map (· + 1)).Nodup := hnd.map (fun a b h => by omega)
  have hndB : (wires.map (· + 1 + n)).Nodup := hnd.map (fun a b h => by omega)
  have haxK : ∀ a ∈ wires.map (· + 1), 1 ≤ a ∧ a < 2 * n + 1 := by
    intro a ha
    obtain ⟨w, hw, rfl⟩ := List.mem_map.mp ha
    exact ⟨by omega, by have := hbound w hw; omega⟩
  have haxB : ∀ a ∈ wires.map (· + 1 + n), 1 ≤ a ∧ a < 2 * n + 1 := by
    intro a ha
    obtain ⟨w, hw, rfl⟩ := List.mem_map.mp ha
    exact ⟨by omega, by have := hbound w hw; omega⟩
  have hx' : x.shape = b :: List.replicate (2 * n + 1 - 1) 2 := by simpa using hx
  have h1 : (applyBase (2 * n + 1) (wires.map (· + 1)) M x).shape = x.shape :=
    applyBase_shape (by omega) hndK haxK M x hx'
  show (applyBase (2 * n + 1) (wires.map (· + 1 + n)) (fun r c => star (M r c))
      (applyBase (2 * n + 1) (wires.map (· + 1)) M x)).shape = x.shape
  rw [applyBase_shape (by omega) hndB haxB _ _ (by rw [h1]; exact hx'), h1]

/-- **C2.** For every gate matrix `M` with no controls applied to a batch-1
density-matrix tensor via `op_den_mat_base`, the result, flattened back to a
`2^n × 2^n` matrix, equals `U_full ρ U_full†` where `U_full` is `M` extended by
identities on the non-target qubits; the left multiply acts on the ket axes and the
conjugate matrix on the mirrored bra axes. -/
theorem claim_C2 {K : Type} [CommRing K] [StarRing K] (n : ℕ) (wires : List ℕ)
    (M : ℕ → ℕ → K) (x : Tensor K) (hnd : wires.Nodup) (hbound : ∀ w ∈ wires, w < n)
    (hx : x.shape = 1 :: List.replicate (2 * n) 2)
    (r c : ℕ) (hr : r < 2 ^ n) (hc : c < 2 ^ n) :
    denMatOf n (op_den_mat_base n wires M x) r c
      = ∑ rp ∈ Finset.range (2 ^ n), ∑ cp ∈ Finset.range (2 ^ n),
          uFullSpec n wires M r rp * denMatOf n x rp cp
            * star (uFullSpec n wires M c cp) := by
  have hrb_valid : ValidIdx (List.replicate n 2) (unflattenIdx (List.replicate n 2) r) :=
    unflattenIdx_valid (by rw [prod_replicate_two]; exact hr)
  have hcb_valid : ValidIdx (List.replicate n 2) (unflattenIdx (List.replicate n 2) c) :=
    unflattenIdx_valid (by rw [prod_replicate_two]; exact hc)
  have hrb_len : (unflattenIdx (List.replicate n 2) r).length = n := by
    rw [unflattenIdx_length]
    simp
  have hcb_len : (unflattenIdx (List.replicate n 2) c).length = n := by
    rw [unflattenIdx_length]
    simp
  have hidx0 : ValidIdx x.shape (0 :: (unflattenIdx (List.replicate n 2) r
      ++ unflattenIdx (List.replicate n 2) c)) := by
    rw [hx]
    refine validIdx_cons.mpr ⟨by omega, ?_⟩
    rw [show 2 * n = n + n by omega, List.replicate_add]
    exact validIdx_append hrb_valid hcb_valid
  have hflat0 : flattenIdx x.shape (0 :: (unflattenIdx (List.replicate n 2) r
      ++ unflattenIdx (List.replicate n 2) c)) = r * 2 ^ n + c := by
    rw [hx, flatten_den_idx hrb_len,
      flattenIdx_unflattenIdx (by rw [prod_replicate_two]; exact hr),
      flattenIdx_unflattenIdx (by rw [prod_replicate_two]; exact hc)]
  have hLHS : denMatOf n (op_den_mat_base n wires M x) r c
      = (op_den_mat_base n wires M x).entry (0 :: (unflattenIdx (List.replicate n 2) r
        ++ unflattenIdx (List.replicate n 2) c)) := by
    unfold denMatOf Tensor.entry
    congr 1
    rw [op_den_mat_base_shape hnd hbound M x hx, hflat0]
  rw [hLHS, op_den_mat_base_entry hnd hbound M x hx hidx0]
  -- identify the row indices with those of the spec matrix
  have hbK : ∀ a ∈ wires, a < (unflattenIdx (List.replicate n 2) r).length := by
    intro a ha
    rw [hrb_len]
    exact hbound a ha
  have hBket : gatherIdx (wires.map (· + 1)) (0 :: (unflattenIdx (List.replicate n 2) r
      ++ unflattenIdx (List.replicate n 2) c))
      = gatherIdx wires (unflattenIdx (List.replicate n 2) r) :=
    gather_map_add_one hbK
  have hBbra : gatherIdx (wires.map (· + 1 + n))
      (0 :: (unflattenIdx (List.replicate n 2) r
        ++ unflattenIdx (List.replicate n 2) c))
      = gatherIdx wires (unflattenIdx (List.replicate n 2) c) :=
    gather_map_add_offset hrb_len
  rw [hBket, hBbra]
  -- rewrite the right-hand side through the two reindexings
  have hstep1 : ∀ rp : ℕ, ∑ cp ∈ Finset.range (2 ^ n),
      uFullSpec n wires M r rp * denMatOf n x rp cp * star (uFullSpec n wires M c cp)
      = uFullSpec n wires M r rp * ∑ s ∈ Finset.range (2 ^ wires.length),
          star (M (flattenIdx (List.replicate wires.length 2)
            (gatherIdx wires (unflattenIdx (List.replicate n 2) c))) s)
          * denMatOf n x rp (flattenIdx (List.replicate n 2)
              (setIdx (unflattenIdx (List.replicate n 2) c) wires
                (unflattenIdx (List.replicate wires.length 2) s))) := by
    intro rp
    rw [Finset.mul_sum]
    have h1 : ∀ cp ∈ Finset.range (2 ^ n),
        uFullSpec n wires M r rp * denMatOf n x rp cp * star (uFullSpec n wires M c cp)
        = uFullSpec n wires (fun a bb => star (M a bb)) c cp
            * (uFullSpec n wires M r rp * denMatOf n x rp cp) := by
      intro cp _
      rw [uFullSpec_star]
      ring
    rw [Finset.sum_congr rfl h1,
      sum_uFullSpec hnd hbound (fun a bb => star (M a bb)) hc
        (fun cp => uFullSpec n wires M r rp * denMatOf n x rp cp)]
    apply Finset.sum_congr rfl
    intro s _
    ring
  rw [Finset.sum_congr rfl (fun rp _ => hstep1 rp),
    sum_uFullSpec hnd hbound M hr
      (fun rp => ∑ s ∈ Finset.range (2 ^ wires.length),
        star (M (flattenIdx (List.replicate wires.length 2)
          (gatherIdx wires (unflattenIdx (List.replicate n 2) c))) s)
        * denMatOf n x rp (flattenIdx (List.replicate n 2)
            (setIdx (unflattenIdx (List.replicate n 2) c) wires
              (unflattenIdx (List.replicate wires.length 2) s))))]
  -- identify the surviving entries of `x` with density-matrix entries
  have hE : ∀ s t : ℕ,
      x.entry (setIdx (setIdx (0 :: (unflattenIdx (List.replicate n 2) r
            ++ unflattenIdx (List.replicate n 2) c)) (wires.map (· + 1 + n))
          (unflattenIdx (List.replicate wires.length 2) s)) (wires.map (· + 1))
          (unflattenIdx (List.replicate wires.length 2) t))
        = denMatOf n x
            (flattenIdx (List.replicate n 2) (setIdx (unflattenIdx (List.replicate n 2) r)
              wires (unflattenIdx (List.replicate wires.length 2) t)))
            (flattenIdx (List.replicate n 2) (setIdx (unflattenIdx (List.replicate n 2) c)
              wires (unflattenIdx (List.replicate wires.length 2) s))) := by
    intro s t
    rw [setIdx_map_add_offset hrb_len hbound, setIdx_map_add_one hbK]
    unfold Tensor.entry denMatOf
    rw [hx, flatten_den_idx (by rw [setIdx_length, hrb_len])]
  simp only [hE]
  -- both sides are now finite double sums over wire bits; swap and match termwise
  simp only [Finset.mul_sum]
  rw [Finset.sum_comm]
  exact Finset.sum_congr rfl fun t _ => Finset.sum_congr rfl fun s _ => by ring

/-- Witness for C2: the Pauli-X gate on the single qubit of a batch-1 density
matrix `|0⟩⟨0|`, evaluated at the `(0,0)` entry. -/
theorem claim_C2_witness :
    denMatOf 1 (op_den_mat_base 1 [0] (fun r c => if r + c = 1 then (1 : ℤ) else 0)
        ⟨[1, 2, 2], fun k => if k = 0 then (1 : ℤ) else 0⟩) 0 0
      = ∑ rp ∈ Finset.range (2 ^ 1), ∑ cp ∈ Finset.range (2 ^ 1),
          uFullSpec 1 [0] (fun r c => if r + c = 1 then (1 : ℤ) else 0) 0 rp
            * denMatOf 1 ⟨[1, 2, 2], fun k => if k = 0 then (1 : ℤ) else 0⟩ rp cp
            * star (uFullSpec 1 [0] (fun r c => if r + c = 1 then (1 : ℤ) else 0) 0 cp) :=
  claim_C2 1 [0] (fun r c => if r + c = 1 then (1 : ℤ) else 0)
    ⟨[1, 2, 2], fun k => if k = 0 then (1 : ℤ) else 0⟩
    (by decide) (by decide) rfl 0 0 (by decide) (by decide)

/-! ## Norm preservation of the gate pipelines under a unitary matrix -/

/-- `U† U = I` on the `m × m` block. -/
@[reducible] def IsUnitaryMat {K : Type} [CommRing K] [StarRing K] (m : ℕ)
    (M : ℕ → ℕ → K) : Prop :=
  ∀ i < m, ∀ j < m, ∑ r ∈ Finset.range m, star (M r i) * M r j = if i = j then 1 else 0

theorem gather_select {p : List ℕ} {R : ℕ} (hp : IsPermOf p R) {j : List ℕ}
    (hlen : j.length = R) : gatherIdx p (Tensor.selectIdx R p j) = j := by
  unfold gatherIdx Tensor.selectIdx
  have h1 : ∀ a ∈ p, ((List.range R).map (fun pos => j.getD (p.indexOf pos) 0)).getD a 0
      = j.getD (p.indexOf a) 0 := by
    intro a ha
    have haR : a < R := hp.mem_iff.mp ha
    rw [getD_eq_getElem' (by simpa using haR)]
    simp
  rw [List.map_congr_left h1]
  apply List.ext_getElem
  · simp [hp.length, hlen]
  · intro m hm₁ hm₂
    simp only [List.getElem_map]
    have hmp : m < p.length := by simpa using hm₁
    have h2 : p.indexOf p[m] = m := by
      rw [← getD_eq_getElem' hmp 0]
      exact indexOf_getD_nodup hp.nodup hmp
    rw [h2, getD_eq_getElem' hm₂]

theorem isPermOf_inverse {p : List ℕ} {R : ℕ} (hp : IsPermOf p R) :
    IsPermOf (inverse_permutation p) R := by
  have hlen : (inverse_permutation p).length = R := by
    rw [inverse_permutation_length, hp.length]
  have hsub : inverse_permutation p ⊆ List.range R := by
    intro a ha
    unfold inverse_permutation at ha
    obtain ⟨m, hm, rfl⟩ := List.mem_map.mp ha
    rw [List.mem_range]
    have hmR : m < R := by rw [← hp.length]; simpa using hm
    have h1 : p.indexOf m < p.length := List.indexOf_lt_length.mpr (hp.mem_iff.mpr hmR)
    have h2 : p.length = R := hp.length
    omega
  have h1 : List.Subperm (inverse_permutation p) (List.range R) :=
    List.subperm_of_subset (inverse_permutation_nodup hp) hsub
  exact h1.perm_of_length_le (by rw [hlen, List.length_range])

/-- `permute` just reindexes the entries, so the squared norm is unchanged. -/
theorem sumSq_permute {K : Type} [CommRing K] [StarRing K] {p : List ℕ} {R : ℕ}
    (hp : IsPermOf p R) (t : Tensor K) (hlen : t.shape.length = R) :
    sumSq (t.permute p) = sumSq t := by
  have hb : ∀ a ∈ p, a < t.shape.length := fun a ha => by
    rw [hlen]
    exact hp.mem_iff.mp ha
  have hpshape : Tensor.permuteShape p t = gatherIdx p t.shape := permuteShape_eq_gather p t
  have hprod : (Tensor.permuteShape p t).prod = t.numel := by
    rw [hpshape]
    exact gatherIdx_prod hp hlen
  have hnumel : (t.permute p).numel = t.numel := hprod
  unfold sumSq
  rw [hnumel]
  apply Finset.sum_nbij'
    (fun k => flattenIdx t.shape
      (Tensor.selectIdx t.shape.length p (unflattenIdx (Tensor.permuteShape p t) k)))
    (fun k => flattenIdx (Tensor.permuteShape p t) (gatherIdx p (unflattenIdx t.shape k)))
  · intro k hk
    rw [Finset.mem_range] at hk ⊢
    have hvu : ValidIdx (Tensor.permuteShape p t)
        (unflattenIdx (Tensor.permuteShape p t) k) :=
      unflattenIdx_valid (by rw [hprod]; exact hk)
    have hvs : ValidIdx t.shape (Tensor.selectIdx t.shape.length p
        (unflattenIdx (Tensor.permuteShape p t) k)) := by
      rw [hlen]
      exact validIdx_select hp hlen (by rwa [hpshape] at hvu)
    exact flattenIdx_lt hvs
  · intro k hk
    rw [Finset.mem_range] at hk ⊢
    have hvu : ValidIdx t.shape (unflattenIdx t.shape k) := unflattenIdx_valid hk
    have hvg : ValidIdx (Tensor.permuteShape p t)
        (gatherIdx p (unflattenIdx t.shape k)) := by
      rw [hpshape]
      exact validIdx_gather hvu hb
    have h1 := flattenIdx_lt hvg
    rwa [hprod] at h1
  · intro k hk
    rw [Finset.mem_range] at hk
    have hku : k < (Tensor.permuteShape p t).prod := by rw [hprod]; exact hk
    have hvu : ValidIdx (Tensor.permuteShape p t)
        (unflattenIdx (Tensor.permuteShape p t) k) :=
      unflattenIdx_valid hku
    have hvs : ValidIdx t.shape (Tensor.selectIdx t.shape.length p
        (unflattenIdx (Tensor.permuteShape p t) k)) := by
      rw [hlen]
      exact validIdx_select hp hlen (by rwa [hpshape] at hvu)
    rw [unflattenIdx_flattenIdx hvs, hlen,
      gather_select hp (by rw [unflattenIdx_length, permuteShape_length, hp.length]),
      flattenIdx_unflattenIdx hku]
  · intro k hk
    rw [Finset.mem_range] at hk
    have hvu : ValidIdx t.shape (unflattenIdx t.shape k) := unflattenIdx_valid hk
    have hvg : ValidIdx (Tensor.permuteShape p t)
        (gatherIdx p (unflattenIdx t.shape k)) := by
      rw [hpshape]
      exact validIdx_gather hvu hb
    rw [unflattenIdx_flattenIdx hvg, hlen,
      selectIdx_gather hp (by rw [unflattenIdx_length, hlen]),
      flattenIdx_unflattenIdx hk]
  · intro k _
    rfl

/-- `reshape` keeps the flat data, so the squared norm is unchanged. -/
theorem sumSq_reshape {K : Type} [CommRing K] [StarRing K] {s : List ℕ} (t : Tensor K)
    (h : s.prod = t.numel) : sumSq (t.reshape s) = sumSq t := by
  unfold sumSq
  have h1 : (t.reshape s).numel = t.numel := h
  have h2 : (t.reshape s).data = t.data := rfl
  rw [h1, h2]

/-- Multiplying by a unitary matrix preserves the squared norm column by column. -/
theorem sumSq_matMul {K : Type} [CommRing K] [StarRing K] {m cols : ℕ} {M : ℕ → ℕ → K}
    (hU : IsUnitaryMat m M) (t : Tensor K) (hnum : t.numel = m * cols) :
    sumSq (matMulTensor m cols M t) = sumSq t := by
  unfold sumSq
  have h1 : (matMulTensor m cols M t).numel = m * cols := by
    show ([m, cols] : List ℕ).prod = m * cols
    simp
  rw [h1, hnum, sum_range_mul, sum_range_mul, Finset.sum_comm,
    show (∑ i ∈ Finset.range m, ∑ q ∈ Finset.range cols,
        star (t.data (i * cols + q)) * t.data (i * cols + q))
      = ∑ q ∈ Finset.range cols, ∑ i ∈ Finset.range m,
          star (t.data (i * cols + q)) * t.data (i * cols + q) from Finset.sum_comm]
  refine Finset.sum_congr rfl fun q hq => ?_
  have hqc : q < cols := Finset.mem_range.mp hq
  have hy : ∀ r : ℕ, (matMulTensor m cols M t).data (r * cols + q)
      = ∑ i ∈ Finset.range m, M r i * t.data (i * cols + q) := by
    intro r
    show (∑ i ∈ Finset.range m, M ((r * cols + q) / cols) i
      * t.data (i * cols + (r * cols + q) % cols)) = _
    rw [mul_add_div_eq hqc, mul_add_mod_eq hqc]
  simp only [hy]
  calc ∑ r ∈ Finset.range m, star (∑ i ∈ Finset.range m, M r i * t.data (i * cols + q))
        * ∑ i ∈ Finset.range m, M r i * t.data (i * cols + q)
      = ∑ r ∈ Finset.range m, ∑ i ∈ Finset.range m, ∑ j ∈ Finset.range m,
          star (M r i) * star (t.data (i * cols + q))
            * (M r j * t.data (j * cols + q)) := by
        refine Finset.sum_congr rfl fun r _ => ?_
        rw [star_sum, Finset.sum_mul]
        refine Finset.sum_congr rfl fun i _ => ?_
        rw [star_mul', Finset.mul_sum]
    _ = ∑ i ∈ Finset.range m, ∑ j ∈ Finset.range m, ∑ r ∈ Finset.range m,
          star (M r i) * star (t.data (i * cols + q))
            * (M r j * t.data (j * cols + q)) := by
        rw [Finset.sum_comm]
        exact Finset.sum_congr rfl fun i _ => Finset.sum_comm
    _ = ∑ i ∈ Finset.range m, ∑ j ∈ Finset.range m,
          star (t.data (i * cols + q)) * t.data (j * cols + q)
            * ∑ r ∈ Finset.range m, star (M r i) * M r j := by
        refine Finset.sum_congr rfl fun i _ => Finset.sum_congr rfl fun j _ => ?_
        rw [Finset.mul_sum]
        exact Finset.sum_congr rfl fun r _ => by ring
    _ = ∑ i ∈ Finset.range m, ∑ j ∈ Finset.range m,
          star (t.data (i * cols + q)) * t.data (j * cols + q)
            * if i = j then 1 else 0 := by
        refine Finset.sum_congr rfl fun i hi => Finset.sum_congr rfl fun j hj => ?_
        rw [hU i (Finset.mem_range.mp hi) j (Finset.mem_range.mp hj)]
    _ = ∑ i ∈ Finset.range m, star (t.data (i * cols + q)) * t.data (i * cols + q) := by
        refine Finset.sum_congr rfl fun i hi => ?_
        simp only [mul_ite, mul_one, mul_zero]
        rw [Finset.sum_ite_eq (Finset.range m) i
          (fun j => star (t.data (i * cols + q)) * t.data (j * cols + q)), if_pos hi]

theorem sum_range_add_split {M : Type*} [AddCommMonoid M] (a b : ℕ) (f : ℕ → M) :
    ∑ k ∈ Finset.range (a + b), f k
      = ∑ k ∈ Finset.range a, f k + ∑ k ∈ Finset.range b, f (a + k) := by
  induction b with
  | zero => simp
  | succ n ih =>
    rw [← Nat.add_assoc, Finset.sum_range_succ, ih, Finset.sum_range_succ, add_assoc]

theorem mem_eraseEach {a : ℕ} (rs : List ℕ) :
    ∀ {l : List ℕ}, a ∈ l → a ∉ rs → a ∈ eraseEach l rs := by
  induction rs with
  | nil => intro l h _; exact h
  | cons r rs ih =>
    intro l hl hn
    rw [eraseEach_cons]
    have hne : a ≠ r := fun hh => hn (hh ▸ List.mem_cons_self r rs)
    exact ih ((List.mem_erase_of_ne hne).mpr hl) (fun hh => hn (List.mem_cons_of_mem r hh))

/-- The target axes all lie in `[1, R-1]`, so there are at most `R - 1` of them. -/
theorem axes_length_le {axes : List ℕ} {R : ℕ} (hR : 1 ≤ R) (hnd : axes.Nodup)
    (hax : ∀ a ∈ axes, 1 ≤ a ∧ a < R) : axes.length ≤ R - 1 := by
  have hperm := basePm_isPermOf hnd hax
  have hlen := hperm.length
  rw [List.length_append] at hlen
  have h0 : 0 ∈ eraseEach (List.range R) axes :=
    mem_eraseEach axes (List.mem_range.mpr (by omega))
      (fun h => by have := (hax 0 h).1; omega)
  have hpos : 0 < (eraseEach (List.range R) axes).length :=
    List.length_pos.mpr (List.ne_nil_of_mem h0)
  omega

theorem sumSq_unsqueezeLast {K : Type} [CommRing K] [StarRing K] (t : Tensor K) :
    sumSq (unsqueezeLast t) = sumSq t := by
  unfold sumSq
  have h1 : (unsqueezeLast t).numel = t.numel := by
    show (t.shape ++ [1]).prod = t.shape.prod
    rw [List.prod_append]
    simp
  rw [h1]
  rfl

theorem sum3_eq {M : Type*} [AddCommMonoid M] (a m c : ℕ) (f : ℕ → M) :
    ∑ k ∈ Finset.range (a * (m * c)), f k
      = ∑ i ∈ Finset.range a, ∑ j ∈ Finset.range m, ∑ l ∈ Finset.range c,
          f (i * (m * c) + j * c + l) := by
  rw [sum_range_mul]
  refine Finset.sum_congr rfl fun i _ => ?_
  rw [sum_range_mul]
  refine Finset.sum_congr rfl fun j _ => Finset.sum_congr rfl fun l _ => ?_
  rw [Nat.add_assoc]

/-- A rank-3 tensor's squared norm splits into the `[:,:,:-1]` part plus the
`[:,:,-1]` slice. -/
theorem sumSq_slice3 {K : Type} [CommRing K] [StarRing K] (t : Tensor K) {a m c : ℕ}
    (h : t.shape = [a, m, c]) (hc : 1 ≤ c) :
    sumSq t = sumSq (slice3Init t) + sumSq (slice3Last t) := by
  have hnum : t.numel = a * (m * c) := by
    unfold Tensor.numel
    rw [h]
    simp
  have hnumI : (slice3Init t).numel = a * (m * (c - 1)) := by
    unfold Tensor.numel
    rw [slice3Init_shape t h]
    simp
  have hnumL : (slice3Last t).numel = a * m := by
    unfold Tensor.numel
    rw [slice3Last_shape t h]
    simp
  unfold sumSq
  rw [hnum, hnumI, hnumL, sum3_eq, sum3_eq, sum_range_mul, ← Finset.sum_add_distrib]
  refine Finset.sum_congr rfl fun i _ => ?_
  rw [← Finset.sum_add_distrib]
  refine Finset.sum_congr rfl fun j hj => ?_
  have hjm : j < m := Finset.mem_range.mp hj
  rw [show Finset.range c = Finset.range ((c - 1) + 1) from by rw [Nat.sub_add_cancel hc],
    Finset.sum_range_succ]
  congr 1
  · refine Finset.sum_congr rfl fun l hl => ?_
    rw [slice3Init_data t h hjm (Finset.mem_range.mp hl)]
  · rw [slice3Last_data t h hjm]

/-- `torch.cat` along the last axis adds the squared norms. -/
theorem sumSq_cat3 {K : Type} [CommRing K] [StarRing K] (t₁ t₂ : Tensor K)
    {a m c₁ c₂ : ℕ} (h₁ : t₁.shape = [a, m, c₁]) (h₂ : t₂.shape = [a, m, c₂]) :
    sumSq (cat3 t₁ t₂) = sumSq t₁ + sumSq t₂ := by
  have hnum : (cat3 t₁ t₂).numel = a * (m * (c₁ + c₂)) := by
    unfold Tensor.numel
    rw [cat3_shape t₁ t₂ h₁ h₂]
    simp
  have hnum₁ : t₁.numel = a * (m * c₁) := by
    unfold Tensor.numel
    rw [h₁]
    simp
  have hnum₂ : t₂.numel = a * (m * c₂) := by
    unfold Tensor.numel
    rw [h₂]
    simp
  unfold sumSq
  rw [hnum, hnum₁, hnum₂, sum3_eq, sum3_eq, sum3_eq, ← Finset.sum_add_distrib]
  refine Finset.sum_congr rfl fun i _ => ?_
  rw [← Finset.sum_add_distrib]
  refine Finset.sum_congr rfl fun j hj => ?_
  have hjm : j < m := Finset.mem_range.mp hj
  rw [sum_range_add_split c₁ c₂]
  congr 1
  · refine Finset.sum_congr rfl fun l hl => ?_
    have hl' : l < c₁ := Finset.mem_range.mp hl
    rw [cat3_data t₁ t₂ h₁ h₂ hjm (by omega), if_pos hl']
  · refine Finset.sum_congr rfl fun l hl => ?_
    have hl' : l < c₂ := Finset.mem_range.mp hl
    rw [cat3_data t₁ t₂ h₁ h₂ hjm (by omega : c₁ + l < c₁ + c₂), if_neg (by omega),
      Nat.add_sub_cancel_left]

/-- `applyBase` with a unitary matrix preserves the squared norm. -/
theorem sumSq_applyBase {K : Type} [CommRing K] [StarRing K] {R b : ℕ} {axes : List ℕ}
    (hR : 1 ≤ R) (hnd : axes.Nodup) (hax : ∀ a ∈ axes, 1 ≤ a ∧ a < R)
    {M : ℕ → ℕ → K} (hU : IsUnitaryMat (2 ^ axes.length) M)
    (x : Tensor K) (hx : x.shape = b :: List.replicate (R - 1) 2) :
    sumSq (applyBase R axes M x) = sumSq x := by
  have hperm : IsPermOf (axes ++ eraseEach (List.range R) axes) R := basePm_isPermOf hnd hax
  have hshlen : x.shape.length = R := by rw [hx]; simp; omega
  have hshape' := basePm_shape hR hnd hax x hx
  have hnumel : x.numel = b * 2 ^ (R - 1) := by
    show x.shape.prod = _
    rw [hx, List.prod_cons, prod_replicate_two]
  have hbatch : x.numel / 2 ^ (R - 1) = b := by
    rw [hnumel]
    exact Nat.mul_div_cancel _ (pow_pos (by omega) _)
  have hnt : axes.length ≤ R - 1 := axes_length_le hR hnd hax
  have hsplit : (2:ℕ) ^ (R - 1) = 2 ^ axes.length * 2 ^ (R - 1 - axes.length) := by
    rw [← pow_add]
    congr 1
    omega
  have hdiv : x.numel / 2 ^ axes.length = b * 2 ^ (R - 1 - axes.length) := by
    rw [hnumel, hsplit, show b * (2 ^ axes.length * 2 ^ (R - 1 - axes.length))
      = b * 2 ^ (R - 1 - axes.length) * 2 ^ axes.length by ring]
    exact Nat.mul_div_cancel _ (pow_pos (by omega) _)
  have hs3 : List.replicate axes.length 2 ++ [x.numel / 2 ^ (R - 1)]
      ++ List.replicate (R - 1 - axes.length) 2
      = Tensor.permuteShape (axes ++ eraseEach (List.range R) axes) x := by
    rw [hbatch, hshape', List.append_assoc]
    rfl
  have hpnum : (x.permute (axes ++ eraseEach (List.range R) axes)).numel = x.numel := by
    show (Tensor.permuteShape _ x).prod = x.shape.prod
    rw [permuteShape_eq_gather]
    exact gatherIdx_prod hperm hshlen
  have hlen3 : ((matMulTensor (2 ^ axes.length) (x.numel / 2 ^ axes.length) M
      ((x.permute (axes ++ eraseEach (List.range R) axes)).reshape
        [2 ^ axes.length, x.numel / 2 ^ axes.length])).reshape
      (List.replicate axes.length 2 ++ [x.numel / 2 ^ (R - 1)]
        ++ List.replicate (R - 1 - axes.length) 2)).shape.length = R := by
    show (List.replicate axes.length 2 ++ [x.numel / 2 ^ (R - 1)]
      ++ List.replicate (R - 1 - axes.length) 2).length = R
    rw [hs3, permuteShape_length, hperm.length]
  have hprod3 : (List.replicate axes.length 2 ++ [x.numel / 2 ^ (R - 1)]
      ++ List.replicate (R - 1 - axes.length) 2).prod
      = (matMulTensor (2 ^ axes.length) (x.numel / 2 ^ axes.length) M
        ((x.permute (axes ++ eraseEach (List.range R) axes)).reshape
          [2 ^ axes.length, x.numel / 2 ^ axes.length])).numel := by
    show _ = ([2 ^ axes.length, x.numel / 2 ^ axes.length] : List ℕ).prod
    rw [hs3, permuteShape_eq_gather, gatherIdx_prod hperm hshlen]
    show x.numel = _
    simp only [List.prod_cons, List.prod_nil]
    rw [hdiv, hnumel, hsplit]
    ring
  have hnum1 : ((x.permute (axes ++ eraseEach (List.range R) axes)).reshape
      [2 ^ axes.length, x.numel / 2 ^ axes.length]).numel
      = 2 ^ axes.length * (x.numel / 2 ^ axes.length) := by
    show ([2 ^ axes.length, x.numel / 2 ^ axes.length] : List ℕ).prod = _
    simp
  have hprod1 : ([2 ^ axes.length, x.numel / 2 ^ axes.length] : List ℕ).prod
      = (x.permute (axes ++ eraseEach (List.range R) axes)).numel := by
    rw [hpnum]
    simp only [List.prod_cons, List.prod_nil]
    rw [hdiv, hnumel, hsplit]
    ring
  calc sumSq (applyBase R axes M x)
      = sumSq ((matMulTensor (2 ^ axes.length) (x.numel / 2 ^ axes.length) M
          ((x.permute (axes ++ eraseEach (List.range R) axes)).reshape
            [2 ^ axes.length, x.numel / 2 ^ axes.length])).reshape
          (List.replicate axes.length 2 ++ [x.numel / 2 ^ (R - 1)]
            ++ List.replicate (R - 1 - axes.length) 2)) :=
        sumSq_permute (isPermOf_inverse hperm) _ hlen3
    _ = sumSq (matMulTensor (2 ^ axes.length) (x.numel / 2 ^ axes.length) M
          ((x.permute (axes ++ eraseEach (List.range R) axes)).reshape
            [2 ^ axes.length, x.numel / 2 ^ axes.length])) :=
        sumSq_reshape _ hprod3
    _ = sumSq ((x.permute (axes ++ eraseEach (List.range R) axes)).reshape
          [2 ^ axes.length, x.numel / 2 ^ axes.length]) :=
        sumSq_matMul hU _ hnum1
    _ = sumSq (x.permute (axes ++ eraseEach (List.range R) axes)) := sumSq_reshape _ hprod1
    _ = sumSq x := sumSq_permute hperm x hshlen

/-- `applyControlled` with a unitary matrix preserves the squared norm: the last
control slice is multiplied by the unitary and the other slices pass through. -/
theorem sumSq_applyControlled {K : Type} [CommRing K] [StarRing K] {R b : ℕ}
    {waxes caxes : List ℕ} (hR : 1 ≤ R) (hnd : (waxes ++ caxes).Nodup)
    (hax : ∀ a ∈ waxes ++ caxes, 1 ≤ a ∧ a < R)
    {M : ℕ → ℕ → K} (hU : IsUnitaryMat (2 ^ waxes.length) M)
    (x : Tensor K) (hx : x.shape = b :: List.replicate (R - 1) 2) :
    sumSq (applyControlled R waxes caxes M x) = sumSq x := by
  have hperm : IsPermOf (waxes ++ eraseEach (List.range R) (waxes ++ caxes) ++ caxes) R :=
    ctrlPm_isPermOf hnd hax
  have hshlen : x.shape.length = R := by rw [hx]; simp; omega
  have hshape' := ctrlPm_shape hR hnd hax x hx
  have hnumel : x.numel = b * 2 ^ (R - 1) := by
    show x.shape.prod = _
    rw [hx, List.prod_cons, prod_replicate_two]
  have hbatch : x.numel / 2 ^ (R - 1) = b := by
    rw [hnumel]
    exact Nat.mul_div_cancel _ (pow_pos (by omega) _)
  have hWC : waxes.length + caxes.length ≤ R - 1 := by
    have h1 := axes_length_le hR hnd hax
    rwa [List.length_append] at h1
  have hsplit : (2:ℕ) ^ (R - 1)
      = 2 ^ waxes.length * 2 ^ caxes.length
        * 2 ^ (R - 1 - waxes.length - caxes.length) := by
    rw [← pow_add, ← pow_add]
    congr 1
    omega
  have hm0 : x.numel / (2 ^ waxes.length * 2 ^ caxes.length)
      = b * 2 ^ (R - 1 - waxes.length - caxes.length) := by
    rw [hnumel, hsplit, show b * (2 ^ waxes.length * 2 ^ caxes.length
      * 2 ^ (R - 1 - waxes.length - caxes.length))
      = b * 2 ^ (R - 1 - waxes.length - caxes.length)
        * (2 ^ waxes.length * 2 ^ caxes.length) by ring]
    exact Nat.mul_div_cancel _ (Nat.mul_pos (pow_pos (by omega) _) (pow_pos (by omega) _))
  have hs4 : List.replicate waxes.length 2 ++ [x.numel / 2 ^ (R - 1)]
      ++ List.replicate (R - 1 - waxes.length - caxes.length) 2
      ++ List.replicate caxes.length 2
      = Tensor.permuteShape (waxes ++ eraseEach (List.range R) (waxes ++ caxes)
        ++ caxes) x := by
    rw [hbatch, hshape', List.append_assoc (List.replicate waxes.length 2) [b]
      (List.replicate (R - 1 - waxes.length - caxes.length) 2)]
    rfl
  have hpnum : (x.permute (waxes ++ eraseEach (List.range R) (waxes ++ caxes)
      ++ caxes)).numel = x.numel := by
    show (Tensor.permuteShape _ x).prod = x.shape.prod
    rw [permuteShape_eq_gather]
    exact gatherIdx_prod hperm hshlen
  have hshInit : (slice3Init ((x.permute (waxes
      ++ eraseEach (List.range R) (waxes ++ caxes) ++ caxes)).reshape
      [2 ^ waxes.length, x.numel / (2 ^ waxes.length * 2 ^ caxes.length),
        2 ^ caxes.length])).shape
      = [2 ^ waxes.length, x.numel / (2 ^ waxes.length * 2 ^ caxes.length),
          2 ^ caxes.length - 1] :=
    slice3Init_shape _ rfl
  have hshUnsq : (unsqueezeLast (matMulTensor (2 ^ waxes.length)
      (x.numel / (2 ^ waxes.length * 2 ^ caxes.length)) M
      (slice3Last ((x.permute (waxes
        ++ eraseEach (List.range R) (waxes ++ caxes) ++ caxes)).reshape
        [2 ^ waxes.length, x.numel / (2 ^ waxes.length * 2 ^ caxes.length),
          2 ^ caxes.length])))).shape
      = [2 ^ waxes.length, x.numel / (2 ^ waxes.length * 2 ^ caxes.length), 1] := rfl
  have hlen4 : ((cat3 (slice3Init ((x.permute (waxes
      ++ eraseEach (List.range R) (waxes ++ caxes) ++ caxes)).reshape
        [2 ^ waxes.length, x.numel / (2 ^ waxes.length * 2 ^ caxes.length),
          2 ^ caxes.length]))
      (unsqueezeLast (matMulTensor (2 ^ waxes.length)
        (x.numel / (2 ^ waxes.length * 2 ^ caxes.length)) M
        (slice3Last ((x.permute (waxes
          ++ eraseEach (List.range R) (waxes ++ caxes) ++ caxes)).reshape
          [2 ^ waxes.length, x.numel / (2 ^ waxes.length * 2 ^ caxes.length),
            2 ^ caxes.length]))))).reshape
      (List.replicate waxes.length 2 ++ [x.numel / 2 ^ (R - 1)]
        ++ List.replicate (R - 1 - waxes.length - caxes.length) 2
        ++ List.replicate caxes.length 2)).shape.length = R := by
    show (List.replicate waxes.length 2 ++ [x.numel / 2 ^ (R - 1)]
      ++ List.replicate (R - 1 - waxes.length - caxes.length) 2
      ++ List.replicate caxes.length 2).length = R
    rw [hs4, permuteShape_length, hperm.length]
  have hprod4 : (List.replicate waxes.length 2 ++ [x.numel / 2 ^ (R - 1)]
      ++ List.replicate (R - 1 - waxes.length - caxes.length) 2
      ++ List.replicate caxes.length 2).prod
      = (cat3 (slice3Init ((x.permute (waxes
          ++ eraseEach (List.range R) (waxes ++ caxes) ++ caxes)).reshape
          [2 ^ waxes.length, x.numel / (2 ^ waxes.length * 2 ^ caxes.length),
            2 ^ caxes.length]))
        (unsqueezeLast (matMulTensor (2 ^ waxes.length)
          (x.numel / (2 ^ waxes.length * 2 ^ caxes.length)) M
          (slice3Last ((x.permute (waxes
            ++ eraseEach (List.range R) (waxes ++ caxes) ++ caxes)).reshape
            [2 ^ waxes.length, x.numel / (2 ^ waxes.length * 2 ^ caxes.length),
              2 ^ caxes.length]))))).numel := by
    show _ = (cat3 _ _).shape.prod
    rw [cat3_shape _ _ hshInit hshUnsq, hs4, permuteShape_eq_gather,
      gatherIdx_prod hperm hshlen,
      show (2:ℕ) ^ caxes.length - 1 + 1 = 2 ^ caxes.length from
        Nat.sub_add_cancel Nat.one_le_two_pow]
    show x.numel = _
    simp only [List.prod_cons, List.prod_nil]
    rw [hm0, hnumel, hsplit]
    ring
  have hnumLast : (slice3Last ((x.permute (waxes
      ++ eraseEach (List.range R) (waxes ++ caxes) ++ caxes)).reshape
      [2 ^ waxes.length, x.numel / (2 ^ waxes.length * 2 ^ caxes.length),
        2 ^ caxes.length])).numel
      = 2 ^ waxes.length * (x.numel / (2 ^ waxes.length * 2 ^ caxes.length)) := by
    show (slice3Last _).shape.prod = _
    rw [slice3Last_shape _ rfl]
    simp
  have hprod1 : ([2 ^ waxes.length, x.numel / (2 ^ waxes.length * 2 ^ caxes.length),
      2 ^ caxes.length] : List ℕ).prod
      = (x.permute (waxes ++ eraseEach (List.range R) (waxes ++ caxes)
        ++ caxes)).numel := by
    rw [hpnum]
    simp only [List.prod_cons, List.prod_nil]
    rw [hm0, hnumel, hsplit]
    ring
  calc sumSq (applyControlled R waxes caxes M x)
      = sumSq ((cat3 (slice3Init ((x.permute (waxes
            ++ eraseEach (List.range R) (waxes ++ caxes) ++ caxes)).reshape
            [2 ^ waxes.length, x.numel / (2 ^ waxes.length * 2 ^ caxes.length),
              2 ^ caxes.length]))
          (unsqueezeLast (matMulTensor (2 ^ waxes.length)
            (x.numel / (2 ^ waxes.length * 2 ^ caxes.length)) M
            (slice3Last ((x.permute (waxes
              ++ eraseEach (List.range R) (waxes ++ caxes) ++ caxes)).reshape
              [2 ^ waxes.length, x.numel / (2 ^ waxes.length * 2 ^ caxes.length),
                2 ^ caxes.length]))))).reshape
          (List.replicate waxes.length 2 ++ [x.numel / 2 ^ (R - 1)]
            ++ List.replicate (R - 1 - waxes.length - caxes.length) 2
            ++ List.replicate caxes.length 2)) :=
        sumSq_permute (isPermOf_inverse hperm) _ hlen4
    _ = sumSq (cat3 (slice3Init ((x.permute (waxes
            ++ eraseEach (List.range R) (waxes ++ caxes) ++ caxes)).reshape
            [2 ^ waxes.length, x.numel / (2 ^ waxes.length * 2 ^ caxes.length),
              2 ^ caxes.length]))
          (unsqueezeLast (matMulTensor (2 ^ waxes.length)
            (x.numel / (2 ^ waxes.length * 2 ^ caxes.length)) M
            (slice3Last ((x.permute (waxes
              ++ eraseEach (List.range R) (waxes ++ caxes) ++ caxes)).reshape
              [2 ^ waxes.length, x.numel / (2 ^ waxes.length * 2 ^ caxes.length),
                2 ^ caxes.length]))))) :=
        sumSq_reshape _ hprod4
    _ = sumSq (slice3Init ((x.permute (waxes
            ++ eraseEach (List.range R) (waxes ++ caxes) ++ caxes)).reshape
            [2 ^ waxes.length, x.numel / (2 ^ waxes.length * 2 ^ caxes.length),
              2 ^ caxes.length]))
        + sumSq (unsqueezeLast (matMulTensor (2 ^ waxes.length)
            (x.numel / (2 ^ waxes.length * 2 ^ caxes.length)) M
            (slice3Last ((x.permute (waxes
              ++ eraseEach (List.range R) (waxes ++ caxes) ++ caxes)).reshape
              [2 ^ waxes.length, x.numel / (2 ^ waxes.length * 2 ^ caxes.length),
                2 ^ caxes.length])))) :=
        sumSq_cat3 _ _ hshInit hshUnsq
    _ = sumSq (slice3Init ((x.permute (waxes
            ++ eraseEach (List.range R) (waxes ++ caxes) ++ caxes)).reshape
            [2 ^ waxes.length, x.numel / (2 ^ waxes.length * 2 ^ caxes.length),
              2 ^ caxes.length]))
        + sumSq (slice3Last ((x.permute (waxes
            ++ eraseEach (List.range R) (waxes ++ caxes) ++ caxes)).reshape
            [2 ^ waxes.length, x.numel / (2 ^ waxes.length * 2 ^ caxes.length),
              2 ^ caxes.length])) := by
        rw [sumSq_unsqueezeLast, sumSq_matMul hU _ hnumLast]
    _ = sumSq ((x.permute (waxes
          ++ eraseEach (List.range R) (waxes ++ caxes) ++ caxes)).reshape
          [2 ^ waxes.length, x.numel / (2 ^ waxes.length * 2 ^ caxes.length),
            2 ^ caxes.length]) :=
        (sumSq_slice3 _ rfl Nat.one_le_two_pow).symm
    _ = sumSq (x.permute (waxes ++ eraseEach (List.range R) (waxes ++ caxes)
          ++ caxes)) := sumSq_reshape _ hprod1
    _ = sumSq x := sumSq_permute hperm x hshlen

/-- `vector_rep` is a reshape, so the squared norm is unchanged. -/
theorem sumSq_vector_rep {K : Type} [CommRing K] [StarRing K] (nq : ℕ) (y : Tensor K)
    (h : 2 ^ nq ∣ y.numel) : sumSq (vector_rep nq y) = sumSq y := by
  apply sumSq_reshape
  show (y.numel / 2 ^ nq) * (2 ^ nq * (1 * 1)) = y.numel
  obtain ⟨q, hq⟩ := h
  rw [hq, Nat.mul_comm (2 ^ nq) q, Nat.mul_div_cancel _ (pow_pos (by omega) _)]
  ring

/-- Dropping a leading batch axis of size 1 keeps the squared norm. -/
theorem sumSq_squeeze0 {K : Type} [CommRing K] [StarRing K] (x : Tensor K) :
    sumSq (squeeze0 x) = sumSq x := by
  unfold squeeze0
  split
  · rename_i h
    unfold sumSq
    have h1 : (⟨x.shape.tail, x.data⟩ : Tensor K).numel = x.numel := by
      show x.shape.tail.prod = x.shape.prod
      cases hs : x.shape with
      | nil => rfl
      | cons a l =>
        rw [hs] at h
        simp only [List.headD_cons] at h
        simp [h]
    rw [h1]
  · rfl

/-- `applyBase` with a scalar matrix `c·I` multiplies every entry by `c`. -/
theorem applyBase_scalar_entry {K : Type} [CommRing K] {R b : ℕ} {axes : List ℕ}
    (hR : 1 ≤ R) (hnd : axes.Nodup) (hax : ∀ a ∈ axes, 1 ≤ a ∧ a < R) (c : K)
    (x : Tensor K) (hx : x.shape = b :: List.replicate (R - 1) 2)
    {idx : List ℕ} (hidx : ValidIdx x.shape idx) :
    (applyBase R axes (fun r s => if r = s then c else 0) x).entry idx
      = c * x.entry idx := by
  rw [applyBase_entry hR hnd hax _ x hx hidx]
  have haxbound : ∀ a ∈ axes, a < x.shape.length := fun a ha => by
    rw [hx]
    simp
    have := (hax a ha).2
    omega
  have hvW : ValidIdx (List.replicate axes.length 2) (gatherIdx axes idx) := by
    have h := validIdx_gather hidx haxbound
    rwa [show gatherIdx axes x.shape = List.replicate axes.length 2 from by
      rw [hx]; exact gather_axes_shape hax] at h
  have hB1lt : flattenIdx (List.replicate axes.length 2) (gatherIdx axes idx)
      < 2 ^ axes.length := by
    have h := flattenIdx_lt hvW
    rwa [prod_replicate_two] at h
  rw [Finset.sum_congr rfl (fun i _ => by
    rw [ite_mul, zero_mul]),
    Finset.sum_ite_eq (Finset.range (2 ^ axes.length))
      (flattenIdx (List.replicate axes.length 2) (gatherIdx axes idx)),
    if_pos (Finset.mem_range.mpr hB1lt), unflattenIdx_flattenIdx hvW,
    setIdx_self (fun a ha => by rw [validIdx_length hidx]; exact haxbound a ha)]

/-- `applyBase` with a (generally non-unitary) scalar matrix scales the squared
norm by `|c|²`: the routine performs no normalization. -/
theorem sumSq_applyBase_scalar {K : Type} [CommRing K] [StarRing K] {R b : ℕ}
    {axes : List ℕ} (hR : 1 ≤ R) (hnd : axes.Nodup)
    (hax : ∀ a ∈ axes, 1 ≤ a ∧ a < R) (c : K)
    (x : Tensor K) (hx : x.shape = b :: List.replicate (R - 1) 2) :
    sumSq (applyBase R axes (fun r s => if r = s then c else 0) x)
      = star c * c * sumSq x := by
  have hshape : (applyBase R axes (fun r s => if r = s then c else 0) x).shape
      = x.shape := applyBase_shape hR hnd hax _ x hx
  have hnum : (applyBase R axes (fun r s => if r = s then c else 0) x).numel
      = x.numel := by
    unfold Tensor.numel
    rw [hshape]
  unfold sumSq
  rw [hnum, Finset.mul_sum]
  refine Finset.sum_congr rfl fun k hk => ?_
  have hk' : k < x.numel := Finset.mem_range.mp hk
  rw [Tensor.data_eq_entry (show k < (applyBase R axes
      (fun r s => if r = s then c else 0) x).numel from by rwa [hnum]),
    hshape,
    applyBase_scalar_entry hR hnd hax c x hx (unflattenIdx_valid hk'),
    Tensor.data_eq_entry hk', star_mul']
  ring

/-- **C1… C3.** For every unitary matrix `U` (`U†U = I`) on the target wires,
`op_state` — controlled or not, in tensor or vector mode — returns a state of the
same squared norm, so unit-norm inputs stay unit norm; and the routine performs no
normalization: a scalar (non-unitary) matrix `c·I` scales the squared norm by
`star c * c` rather than being rescaled to 1. -/
theorem claim_C3 {K : Type} [CommRing K] [StarRing K] (nqubit : ℕ)
    (wires controls : List ℕ) (M : ℕ → ℕ → K) (tsr_mode : Bool) (x : Tensor K) {b : ℕ}
    (hndw : wires.Nodup) (hndc : controls.Nodup)
    (hdisj : ∀ w ∈ wires, w ∉ controls)
    (hbw : ∀ w ∈ wires, w < nqubit) (hbc : ∀ w ∈ controls, w < nqubit)
    (hx : x.shape = b :: List.replicate nqubit 2)
    (hU : IsUnitaryMat (2 ^ wires.length) M) :
    sumSq (op_state nqubit wires controls M tsr_mode x) = sumSq x
      ∧ ∀ c : K, sumSq (op_state nqubit wires []
          (fun i j => if i = j then c else 0) true x) = star c * c * sumSq x := by
  have hnd' : (wires.map (· + 1)).Nodup := hndw.map (fun a b h => by omega)
  have hax' : ∀ a ∈ wires.map (· + 1), 1 ≤ a ∧ a < nqubit + 1 := by
    intro a ha
    obtain ⟨w, hw, rfl⟩ := List.mem_map.mp ha
    exact ⟨by omega, by have := hbw w hw; omega⟩
  have hx' : x.shape = b :: List.replicate (nqubit + 1 - 1) 2 := by simpa using hx
  constructor
  · have hU' : IsUnitaryMat (2 ^ (wires.map (· + 1)).length) M := by
      rwa [List.length_map]
    have hndwc : ((wires.map (· + 1)) ++ (controls.map (· + 1))).Nodup := by
      rw [← List.map_append]
      exact (List.Nodup.append hndw hndc (by intro a ha hb; exact hdisj a ha hb)).map
        (fun a b h => by omega)
    have haxwc : ∀ a ∈ (wires.map (· + 1)) ++ (controls.map (· + 1)),
        1 ≤ a ∧ a < nqubit + 1 := by
      intro a ha
      rw [← List.map_append] at ha
      obtain ⟨w, hw, rfl⟩ := List.mem_map.mp ha
      have hwn : w < nqubit := by
        rcases List.mem_append.mp hw with h | h
        exacts [hbw w h, hbc w h]
      exact ⟨by omega, by omega⟩
    have hy : sumSq (if controls = [] then op_state_base nqubit wires M x
        else op_state_control nqubit wires controls M x) = sumSq x := by
      split
      · exact sumSq_applyBase (by omega) hnd' hax' hU' x hx'
      · exact sumSq_applyControlled (by omega) hndwc haxwc hU' x hx'
    have hyshape : (if controls = [] then op_state_base nqubit wires M x
        else op_state_control nqubit wires controls M x).shape = x.shape := by
      split
      · exact applyBase_shape (by omega) hnd' hax' M x hx'
      · exact applyControlled_shape (by omega) hndwc haxwc M x hx'
    cases tsr_mode with
    | true => exact hy
    | false =>
      have hdvd : 2 ^ nqubit ∣ (if controls = [] then op_state_base nqubit wires M x
          else op_state_control nqubit wires controls M x).numel := by
        have h1 : (if controls = [] then op_state_base nqubit wires M x
            else op_state_control nqubit wires controls M x).numel = x.numel := by
          unfold Tensor.numel
          rw [hyshape]
        rw [h1, show x.numel = x.shape.prod from rfl, hx, List.prod_cons,
          prod_replicate_two]
        exact dvd_mul_left _ _
      show sumSq (squeeze0 (vector_rep nqubit (if controls = []
        then op_state_base nqubit wires M x
        else op_state_control nqubit wires controls M x))) = sumSq x
      rw [sumSq_squeeze0]
      exact (sumSq_vector_rep nqubit _ hdvd).trans hy
  · intro c
    show sumSq (op_state_base nqubit wires (fun i j => if i = j then c else 0) x)
      = star c * c * sumSq x
    exact sumSq_applyBase_scalar (by omega) hnd' hax' c x hx'

/-- Witness for C3: a controlled Pauli-X (`CNOT` with control qubit 1 and target
qubit 0) on a two-qubit batch-1 state, in vector mode, over ℤ. -/
theorem claim_C3_witness :
    (sumSq (op_state 2 [0] [1] (fun i j => if i + j = 1 then (1 : ℤ) else 0) false
        ⟨[1, 2, 2], fun k => (k : ℤ)⟩)
      = sumSq (⟨[1, 2, 2], fun k => (k : ℤ)⟩ : Tensor ℤ))
    ∧ ∀ c : ℤ, sumSq (op_state 2 [0] [] (fun i j => if i = j then c else 0) true
        ⟨[1, 2, 2], fun k => (k : ℤ)⟩)
      = star c * c * sumSq (⟨[1, 2, 2], fun k => (k : ℤ)⟩ : Tensor ℤ) :=
  claim_C3 2 [0] [1] (fun i j => if i + j = 1 then (1 : ℤ) else 0) false
    ⟨[1, 2, 2], fun k => (k : ℤ)⟩ (by decide) (by decide) (by decide) (by decide)
    (by decide) rfl (by decide)

/-! ## `Gate.__init__` validation (operation.py lines 56-74) -/

/-- The duplicate and overlap asserts of `Gate.__init__` (operation.py lines 69-71):
`len(set(wires)) == len(wires)`, same for controls, then `wire not in controls`. -/
def gateDupCheck (wires controls : List ℤ) : Except String Unit :=
  if wires.Nodup ∧ controls.Nodup then
    if ∀ w ∈ wires, w ∉ controls then Except.ok ()
    else Except.error "Use repeated wires"
  else Except.error "Invalid input"

/-- `Gate.__init__` validation (operation.py lines 56-74) on already-normalized
lists: `min(wires)`/`max(wires)` raise `ValueError` on an empty list before the
range assert; the controls range assert is guarded by `len(controls) > 0`. -/
def gateInit (nqubit : ℤ) (wires controls : List ℤ) : Except String Unit :=
  match wires with
  | [] => Except.error "ValueError: min() arg is an empty sequence"
  | w :: ws =>
    if ws.foldl min w > -1 ∧ ws.foldl max w < nqubit then
      match controls with
      | [] => gateDupCheck (w :: ws) []
      | c :: cs =>
        if cs.foldl min c > -1 ∧ cs.foldl max c < nqubit then
          gateDupCheck (w :: ws) (c :: cs)
        else Except.error "Invalid input"
    else Except.error "Invalid input"

theorem foldl_min_le {α : Type} [LinearOrder α] {l : List α} :
    ∀ {a x : α}, x ∈ a :: l → l.foldl min a ≤ x := by
  induction l with
  | nil =>
    intro a x hx
    rw [List.mem_singleton] at hx
    subst hx
    exact le_refl _
  | cons b r ih =>
    intro a x hx
    show r.foldl min (min a b) ≤ x
    rcases List.mem_cons.mp hx with rfl | hx'
    · exact le_trans (ih (List.mem_cons_self _ _)) (min_le_left _ _)
    · rcases List.mem_cons.mp hx' with rfl | hx''
      · exact le_trans (ih (List.mem_cons_self _ _)) (min_le_right _ _)
      · exact ih (List.mem_cons_of_mem _ hx'')

theorem foldl_max_ge {α : Type} [LinearOrder α] {l : List α} :
    ∀ {a x : α}, x ∈ a :: l → x ≤ l.foldl max a := by
  induction l with
  | nil =>
    intro a x hx
    rw [List.mem_singleton] at hx
    subst hx
    exact le_refl _
  | cons b r ih =>
    intro a x hx
    show x ≤ r.foldl max (max a b)
    rcases List.mem_cons.mp hx with rfl | hx'
    · exact le_trans (le_max_left _ _) (ih (List.mem_cons_self _ _))
    · rcases List.mem_cons.mp hx' with rfl | hx''
      · exact le_trans (le_max_right _ _) (ih (List.mem_cons_self _ _))
      · exact ih (List.mem_cons_of_mem _ hx'')

theorem foldl_min_mem {α : Type} [LinearOrder α] {l : List α} :
    ∀ {a : α}, l.foldl min a ∈ a :: l := by
  induction l with
  | nil => intro a; simp
  | cons b r ih =>
    intro a
    show r.foldl min (min a b) ∈ a :: b :: r
    rcases List.mem_cons.mp (@ih (min a b)) with h | h
    · rcases min_choice a b with hm | hm
      · rw [h, hm]
        exact List.mem_cons_self _ _
      · rw [h, hm]
        exact List.mem_cons_of_mem _ (List.mem_cons_self _ _)
    · exact List.mem_cons_of_mem _ (List.mem_cons_of_mem _ h)

theorem foldl_max_mem {α : Type} [LinearOrder α] {l : List α} :
    ∀ {a : α}, l.foldl max a ∈ a :: l := by
  induction l with
  | nil => intro a; simp
  | cons b r ih =>
    intro a
    show r.foldl max (max a b) ∈ a :: b :: r
    rcases List.mem_cons.mp (@ih (max a b)) with h | h
    · rcases max_choice a b with hm | hm
      · rw [h, hm]
        exact List.mem_cons_self _ _
      · rw [h, hm]
        exact List.mem_cons_of_mem _ (List.mem_cons_self _ _)
    · exact List.mem_cons_of_mem _ (List.mem_cons_of_mem _ h)

/-- Python's `min(l) > -1 and max(l) < n` on a nonempty list is exactly the
elementwise range condition. -/
theorem minmax_range_iff {a : ℤ} {l : List ℤ} {n : ℤ} :
    (l.foldl min a > -1 ∧ l.foldl max a < n) ↔ ∀ x ∈ a :: l, 0 ≤ x ∧ x < n := by
  constructor
  · rintro ⟨h1, h2⟩ x hx
    have hmn := foldl_min_le hx
    have hmx := foldl_max_ge hx
    exact ⟨by omega, by omega⟩
  · intro h
    have hmn := h _ foldl_min_mem
    have hmx := h _ foldl_max_mem
    exact ⟨by omega, hmx.2⟩

theorem gateDupCheck_ok_iff (wires controls : List ℤ) :
    gateDupCheck wires controls = Except.ok ()
      ↔ wires.Nodup ∧ controls.Nodup ∧ ∀ w ∈ wires, w ∉ controls := by
  unfold gateDupCheck
  split_ifs with h1 h2
  · constructor
    · intro _
      exact ⟨h1.1, h1.2, h2⟩
    · intro _
      rfl
  · constructor
    · intro h
      exact h.elim
    · rintro ⟨_, _, h3⟩
      exact absurd h3 h2
  · constructor
    · intro h
      exact h.elim
    · rintro ⟨hn1, hn2, _⟩
      exact absurd ⟨hn1, hn2⟩ h1

/-- **C7 (amended).** `Gate.__init__` succeeds exactly when `wires` is nonempty,
every index of `wires` and `controls` lies in `[0, nqubit)`, both lists are
duplicate-free, and no wire is also a control. In every other case it raises at
construction time (assert, or `ValueError` from `min([])` when `wires` is empty),
never deferred to evolution time. -/
theorem claim_C7 (nqubit : ℤ) (wires controls : List ℤ) :
    gateInit nqubit wires controls = Except.ok ()
      ↔ wires ≠ []
        ∧ (∀ w ∈ wires, 0 ≤ w ∧ w < nqubit)
        ∧ (∀ c ∈ controls, 0 ≤ c ∧ c < nqubit)
        ∧ wires.Nodup ∧ controls.Nodup
        ∧ ∀ w ∈ wires, w ∉ controls := by
  cases wires with
  | nil =>
    constructor
    · intro h
      exact Except.noConfusion h
    · rintro ⟨hne, _⟩
      exact absurd rfl hne
  | cons w ws =>
    have hne : (w :: ws : List ℤ) ≠ [] := by simp
    cases controls with
    | nil =>
      show (if ws.foldl min w > -1 ∧ ws.foldl max w < nqubit
        then gateDupCheck (w :: ws) []
        else Except.error "Invalid input") = Except.ok () ↔ _
      split_ifs with h1
      · rw [gateDupCheck_ok_iff]
        have hr := minmax_range_iff.mp h1
        constructor
        · rintro ⟨hn1, hn2, h3⟩
          exact ⟨hne, hr, by simp, hn1, hn2, h3⟩
        · rintro ⟨_, _, _, hn1, hn2, h3⟩
          exact ⟨hn1, hn2, h3⟩
      · constructor
        · intro h
          exact h.elim
        · rintro ⟨_, hr, _⟩
          exact absurd (minmax_range_iff.mpr hr) h1
    | cons c cs =>
      show (if ws.foldl min w > -1 ∧ ws.foldl max w < nqubit then
          if cs.foldl min c > -1 ∧ cs.foldl max c < nqubit then
            gateDupCheck (w :: ws) (c :: cs)
          else Except.error "Invalid input"
        else Except.error "Invalid input") = Except.ok () ↔ _
      split_ifs with h1 h2
      · rw [gateDupCheck_ok_iff]
        have hrw := minmax_range_iff.mp h1
        have hrc := minmax_range_iff.mp h2
        constructor
        · rintro ⟨hn1, hn2, h3⟩
          exact ⟨hne, hrw, hrc, hn1, hn2, h3⟩
        · rintro ⟨_, _, _, hn1, hn2, h3⟩
          exact ⟨hn1, hn2, h3⟩
      · constructor
        · intro h
          exact h.elim
        · rintro ⟨_, _, hrc, _⟩
          exact absurd (minmax_range_iff.mpr hrc) h2
      · constructor
        · intro h
          exact h.elim
        · rintro ⟨_, hrw, _⟩
          exact absurd (minmax_range_iff.mpr hrw) h1

/-- Counterexample to C7 as stated: `wires = []`, `controls = []` are disjoint,
duplicate-free and vacuously in range, yet construction fails — Python's
`min(wires)` raises `ValueError` on the empty list before the asserts run. -/
theorem claim_C7_counterexample :
    (∀ w ∈ ([] : List ℤ), 0 ≤ w ∧ w < 1) ∧ ([] : List ℤ).Nodup
      ∧ (∀ w ∈ ([] : List ℤ), w ∉ ([] : List ℤ))
      ∧ gateInit 1 [] [] = Except.error "ValueError: min() arg is an empty sequence" :=
  ⟨by decide, by decide, by decide, rfl⟩

/-! ## QASM export: `Gate.qasm_customized` and the macro-name registry -/

/-- The synthesized macro name of `Gate.qasm_customized` (operation.py lines
204-208): `name.lower()` prefixed by `c{n}` when there are more than two controls,
else by one `c` per control, with a trailing underscore. -/
def qasmMacroName (controls : List ℕ) (name : String) : String :=
  if controls.length > 2 then "c" ++ toString controls.length ++ name ++ "_"
  else String.mk (List.replicate controls.length 'c') ++ name ++ "_"

/-- The `gate …` macro definition line `qasm_str1` of `Gate.qasm_customized`
(operation.py lines 210-218): formal arguments `q0,q1,…`, trailing comma dropped,
then an empty body. -/
def qasmGateDefn (controls wires : List ℕ) (mname : String) : String :=
  (("gate " ++ mname ++ " ")
      ++ String.join ((List.range controls.length).map
        (fun i => "q" ++ toString i ++ ","))
      ++ String.join ((List.range wires.length).map
        (fun i => "q" ++ toString (controls.length + i) ++ ","))).dropRight 1
    ++ " \x7b \x7d\n"

/-- The invocation line `qasm_str2` of `Gate.qasm_customized` (operation.py lines
211-219): actual qubit arguments `q[w],`, trailing comma dropped. -/
def qasmGateRef (controls wires : List ℕ) (mname : String) : String :=
  ((mname ++ " ")
      ++ String.join (controls.map (fun w => "q[" ++ toString w ++ "],"))
      ++ String.join (wires.map (fun w => "q[" ++ toString w ++ "],"))).dropRight 1
    ++ ";\n"

/-- `Gate.qasm_customized` (operation.py lines 203-224) with the class-level
registry `Gate.qasm_new_gate` threaded explicitly: on first use the macro
definition is emitted before the invocation and the name is appended to the
registry; later uses emit the invocation only. -/
def qasm_customized (controls wires : List ℕ) (name : String)
    (registry : List String) : String × List String :=
  let mname := qasmMacroName controls name.toLower
  if mname ∉ registry then
    (qasmGateDefn controls wires mname ++ qasmGateRef controls wires mname,
      registry ++ [mname])
  else (qasmGateRef controls wires mname, registry)

/-- One gate of an export run: `(controls, wires, name)` folded over the output
list and the registry. -/
def exportStep (acc : List String × List String) (g : List ℕ × List ℕ × String) :
    List String × List String :=
  let r := qasm_customized g.1 g.2.1 g.2.2 acc.2
  (acc.1 ++ [r.1], r.2)

/-- Modelled from the spec: an independent QASM export run resets the registry —
`Gate.qasm_new_gate` starts as `[]` — and then exports the gates in order,
threading the registry through `qasm_customized`. -/
def exportRun (gates : List (List ℕ × List ℕ × String)) : List String :=
  (gates.foldl exportStep ([], [])).1

theorem qasm_customized_not_mem (controls wires : List ℕ) (name : String)
    (registry : List String) (h : qasmMacroName controls name.toLower ∉ registry) :
    qasm_customized controls wires name registry
      = (qasmGateDefn controls wires (qasmMacroName controls name.toLower)
          ++ qasmGateRef controls wires (qasmMacroName controls name.toLower),
        registry ++ [qasmMacroName controls name.toLower]) := by
  show (if qasmMacroName controls name.toLower ∉ registry then _ else _) = _
  rw [if_pos h]

theorem qasm_customized_mem (controls wires : List ℕ) (name : String)
    (registry : List String) (h : qasmMacroName controls name.toLower ∈ registry) :
    qasm_customized controls wires name registry
      = (qasmGateRef controls wires (qasmMacroName controls name.toLower), registry) := by
  show (if qasmMacroName controls name.toLower ∉ registry then _ else _) = _
  rw [if_neg (not_not_intro h)]

theorem foldl_exportStep_head :
    ∀ (gs : List (List ℕ × List ℕ × String)) (outs reg : List String), outs ≠ [] →
    ((gs.foldl exportStep (outs, reg)).1).headD "" = outs.headD "" := by
  intro gs
  induction gs with
  | nil => intro outs reg _; rfl
  | cons g gs ih =>
    intro outs reg h
    show ((gs.foldl exportStep
      (outs ++ [(qasm_customized g.1 g.2.1 g.2.2 reg).1],
        (qasm_customized g.1 g.2.1 g.2.2 reg).2)).1).headD "" = outs.headD ""
    rw [ih _ _ (by simp)]
    cases outs with
    | nil => exact absurd rfl h
    | cons a l => rfl

theorem exportRun_head (g : List ℕ × List ℕ × String)
    (gates : List (List ℕ × List ℕ × String)) :
    (exportRun (g :: gates)).headD "" = (qasm_customized g.1 g.2.1 g.2.2 []).1 := by
  show ((gates.foldl exportStep
    ([] ++ [(qasm_customized g.1 g.2.1 g.2.2 []).1],
      (qasm_customized g.1 g.2.1 g.2.2 []).2)).1).headD "" = _
  rw [foldl_exportStep_head _ _ _ (by simp)]
  rfl

/-- **C8.** The macro registry deduplicates within one export run and is reset
between runs: a first use emits the `gate` definition followed by the invocation
and registers the name, a registered name gets only the invocation, a second use
of the same gate within the same run is only referenced, and an independent export
run starts from the empty registry, so its leading gate's definition is emitted
again rather than suppressed by a previous run's registry state. -/
theorem claim_C8 (controls wires : List ℕ) (name : String) (registry : List String)
    (gates : List (List ℕ × List ℕ × String)) :
    ((qasmMacroName controls name.toLower ∉ registry →
      qasm_customized controls wires name registry
        = (qasmGateDefn controls wires (qasmMacroName controls name.toLower)
            ++ qasmGateRef controls wires (qasmMacroName controls name.toLower),
          registry ++ [qasmMacroName controls name.toLower]))
      ∧ (qasmMacroName controls name.toLower ∈ registry →
        qasm_customized controls wires name registry
          = (qasmGateRef controls wires (qasmMacroName controls name.toLower),
            registry)))
    ∧ (qasm_customized controls wires name
          (qasm_customized controls wires name registry).2).1
        = qasmGateRef controls wires (qasmMacroName controls name.toLower)
    ∧ (exportRun ((controls, wires, name) :: gates)).headD ""
        = qasmGateDefn controls wires (qasmMacroName controls name.toLower)
          ++ qasmGateRef controls wires (qasmMacroName controls name.toLower) := by
  refine ⟨⟨qasm_customized_not_mem controls wires name registry,
    qasm_customized_mem controls wires name registry⟩, ?_, ?_⟩
  · by_cases h : qasmMacroName controls name.toLower ∈ registry
    · rw [qasm_customized_mem controls wires name registry h,
        qasm_customized_mem controls wires name registry h]
    · rw [qasm_customized_not_mem controls wires name registry h,
        qasm_customized_mem controls wires name _ (by simp)]
  · rw [exportRun_head,
      qasm_customized_not_mem controls wires name [] (by simp)]

/-- Witness for C8: a triple-controlled gate `U` exported against the empty
registry emits its synthesized macro definition and registers the name. -/
theorem claim_C8_witness :
    qasm_customized [0, 1, 2] [3] "U" []
      = (qasmGateDefn [0, 1, 2] [3] (qasmMacroName [0, 1, 2] "U".toLower)
          ++ qasmGateRef [0, 1, 2] [3] (qasmMacroName [0, 1, 2] "U".toLower),
        [] ++ [qasmMacroName [0, 1, 2] "U".toLower]) :=
  (claim_C8 [0, 1, 2] [3] "U" [] []).1.1 (by simp)

/-! ## `QumodeCircuit.get_amplitude` (photonic/circuit.py lines 241-266) -/

theorem foldl_max_lt_iff {f c : ℕ} {fs : List ℕ} :
    fs.foldl max f < c ↔ ∀ m ∈ f :: fs, m < c := by
  constructor
  · intro h m hm
    exact lt_of_le_of_lt (foldl_max_ge hm) h
  · intro h
    exact h _ foldl_max_mem

/-- Modelled from the spec: the matrix permanent used for Fock amplitudes — the
permutation-sum formula (`deepquantum/photonic/qmath.py` is not among the
repository's files). -/
def permanent {K : Type} [CommRing K] (n : ℕ) (A : ℕ → ℕ → K) : K :=
  ∑ σ : Equiv.Perm (Fin n), ∏ i : Fin n, A i (σ i)

/-- The flat list that repeats each mode index as many times as its occupation:
`[i repeated state[i] times]` in mode order. -/
def modeRepeats (state : List ℕ) : List ℕ :=
  ((List.range state.length).map (fun i => List.replicate (state.getD i 0) i)).flatten

/-- Modelled from the spec: `sub_matrix(u, init_state, final_state)` — the rows of
`u` repeated per final occupation and the columns repeated per initial occupation
(`deepquantum/photonic/qmath.py` is not among the repository's files). -/
def sub_matrix {K : Type} (u : ℕ → ℕ → K) (init final : List ℕ) : ℕ → ℕ → K :=
  fun r c => u ((modeRepeats final).getD r 0) ((modeRepeats init).getD c 0)

/-- Modelled from the spec: `product_factorial(state)` — the product of the
factorials of the occupations. -/
def product_factorial (state : List ℕ) : ℕ := (state.map Nat.factorial).prod

/-- `QumodeCircuit.get_amplitude` (photonic/circuit.py lines 241-266) on a Fock
basis pair: assert `max(final_state) < cutoff` (Python's `max` raises on an empty
list), assert photon-number conservation, then amplitude `1` for zero photons and
otherwise `permanent(sub_matrix)/sqrt(product_factorial(init)*product_factorial(final))`,
returned as the pair (numerator, squared denominator) since the square root is
irrational. -/
def get_amplitude {K : Type} [CommRing K] (cutoff : ℕ) (u : ℕ → ℕ → K)
    (init final : List ℕ) : Except String (K × ℕ) :=
  match final with
  | [] => Except.error "ValueError: max() arg is an empty sequence"
  | f :: fs =>
    if fs.foldl max f < cutoff then
      if (f :: fs).sum = init.sum then
        if init.sum = 0 then Except.ok (1, 1)
        else Except.ok (permanent init.sum (sub_matrix u init (f :: fs)),
          product_factorial init * product_factorial (f :: fs))
      else Except.error "The number of photons should be conserved"
    else Except.error "The number of photons in the final state must be less than cutoff"

/-- **C9.** `get_amplitude` raises when a mode occupation reaches the cutoff or
the photon number is not conserved; under the checks it returns amplitude exactly
`1` for zero photons, and otherwise the permanent of the sub-matrix over the
square root of the factorial normalization (returned as a numerator/squared-
denominator pair). -/
theorem claim_C9 {K : Type} [CommRing K] (cutoff : ℕ) (u : ℕ → ℕ → K)
    (init : List ℕ) (f : ℕ) (fs : List ℕ) :
    ((∃ m ∈ f :: fs, cutoff ≤ m) →
      get_amplitude cutoff u init (f :: fs)
        = Except.error
          "The number of photons in the final state must be less than cutoff")
    ∧ ((∀ m ∈ f :: fs, m < cutoff) → (f :: fs).sum ≠ init.sum →
      get_amplitude cutoff u init (f :: fs)
        = Except.error "The number of photons should be conserved")
    ∧ ((∀ m ∈ f :: fs, m < cutoff) → (f :: fs).sum = init.sum → init.sum = 0 →
      get_amplitude cutoff u init (f :: fs) = Except.ok (1, 1))
    ∧ ((∀ m ∈ f :: fs, m < cutoff) → (f :: fs).sum = init.sum → init.sum ≠ 0 →
      get_amplitude cutoff u init (f :: fs)
        = Except.ok (permanent init.sum (sub_matrix u init (f :: fs)),
          product_factorial init * product_factorial (f :: fs))) := by
  refine ⟨?_, ?_, ?_, ?_⟩
  · rintro ⟨m, hm, hcm⟩
    show (if fs.foldl max f < cutoff then _ else _) = _
    rw [if_neg (fun h => absurd (foldl_max_lt_iff.mp h m hm) (by omega))]
  · intro h1 h2
    show (if fs.foldl max f < cutoff then _ else _) = _
    rw [if_pos (foldl_max_lt_iff.mpr h1), if_neg h2]
  · intro h1 h2 h3
    show (if fs.foldl max f < cutoff then _ else _) = _
    rw [if_pos (foldl_max_lt_iff.mpr h1), if_pos h2, if_pos h3]
  · intro h1 h2 h3
    show (if fs.foldl max f < cutoff then _ else _) = _
    rw [if_pos (foldl_max_lt_iff.mpr h1), if_pos h2, if_neg h3]

/-- Witness for C9: a one-mode circuit with the identity unitary, one photon in
and one photon out, cutoff 2. -/
theorem claim_C9_witness :
    get_amplitude 2 (fun i j => if i = j then (1 : ℤ) else 0) [1] [1]
      = Except.ok
        (permanent 1 (sub_matrix (fun i j => if i = j then (1 : ℤ) else 0) [1] [1]),
          product_factorial [1] * product_factorial [1]) :=
  (claim_C9 2 (fun i j => if i = j then (1 : ℤ) else 0) [1] 1 []).2.2.2
    (by decide) (by decide) (by decide)

/-! ## MBQC `Measurement.forward` (src/deepquantum/mbqc/operation.py lines 159-183) -/

/-- The unnormalized result of `Measurement.forward` (mbqc/operation.py lines
166-181): bring the measured qubit `i` to the front (`perm = [i] + others`), apply
the 2×2 measurement matrix `J` along it, and keep the sampled outcome's slice of
length `2^(n-1)`. -/
def measurementSlice {K : Type} [CommRing K] (n i : ℕ) (J : ℕ → ℕ → K) (s : ℕ)
    (x : Tensor K) : Tensor K :=
  let x2 := matMulTensor 2 (2 ^ (n - 1)) J
    ((x.permute (i :: (List.range n).filter (fun m => m ≠ i))).reshape
      [2, 2 ^ (n - 1)])
  ⟨[2 ^ (n - 1)], fun k => x2.data (s * 2 ^ (n - 1) + k)⟩

/-- `Measurement.forward` (mbqc/operation.py lines 159-183): the sampled slice,
renormalized by `nn.functional.normalize`; the inverse norm is the scalar `μ`
(characterized by `star μ * μ * ‖slice‖² = 1`, since the square root itself is
irrational). -/
def measurementForward {K : Type} [CommRing K] (n i : ℕ) (J : ℕ → ℕ → K) (s : ℕ)
    (μ : K) (x : Tensor K) : Tensor K :=
  ⟨(measurementSlice n i J s x).shape, fun k => μ * (measurementSlice n i J s x).data k⟩

/-- **C10.** `Measurement.forward` on an `n`-qubit state returns exactly
`2^(n-1)` amplitudes — the measured qubit's axis is removed, keeping only the
sampled outcome's slice of the `J`-transformed state — and the result is
renormalized to unit norm before being returned. -/
theorem claim_C10 {K : Type} [CommRing K] [StarRing K] (n i : ℕ) (J : ℕ → ℕ → K)
    (s : ℕ) (μ : K) (x : Tensor K) (hx : x.shape = List.replicate n 2) (hi : i < n)
    (hs : s < 2) (hμ : star μ * μ * sumSq (measurementSlice n i J s x) = 1) :
    (measurementForward n i J s μ x).shape = [2 ^ (n - 1)]
    ∧ sumSq (measurementForward n i J s μ x) = 1
    ∧ ∀ k, (measurementForward n i J s μ x).data k
        = μ * (matMulTensor 2 (2 ^ (n - 1)) J ((x.permute
            (i :: (List.range n).filter (fun m => m ≠ i))).reshape
            [2, 2 ^ (n - 1)])).data (s * 2 ^ (n - 1) + k) := by
  refine ⟨rfl, ?_, fun k => rfl⟩
  rw [← hμ]
  unfold sumSq
  have hnum : (measurementForward n i J s μ x).numel
      = (measurementSlice n i J s x).numel := rfl
  rw [hnum, Finset.mul_sum]
  refine Finset.sum_congr rfl fun k _ => ?_
  show star (μ * (measurementSlice n i J s x).data k)
    * (μ * (measurementSlice n i J s x).data k) = _
  rw [star_mul']
  ring

/-- Witness for C10: measuring the single qubit of `|0⟩` with the identity
measurement matrix, outcome 0, over ℤ. -/
theorem claim_C10_witness :
    (measurementForward 1 0 (fun i j => if i = j then (1 : ℤ) else 0) 0 1
        ⟨[2], fun k => if k = 0 then 1 else 0⟩).shape = [2 ^ 0]
    ∧ sumSq (measurementForward 1 0 (fun i j => if i = j then (1 : ℤ) else 0) 0 1
        ⟨[2], fun k => if k = 0 then 1 else 0⟩) = 1
    ∧ ∀ k, (measurementForward 1 0 (fun i j => if i = j then (1 : ℤ) else 0) 0 1
        ⟨[2], fun k => if k = 0 then 1 else 0⟩).data k
        = 1 * (matMulTensor 2 (2 ^ 0) (fun i j => if i = j then (1 : ℤ) else 0)
            ((Tensor.permute (0 :: (List.range 1).filter (fun m => m ≠ 0))
              ⟨[2], fun k => if k = 0 then 1 else 0⟩).reshape
            [2, 2 ^ 0])).data (0 * 2 ^ 0 + k) :=
  claim_C10 1 0 (fun i j => if i = j then (1 : ℤ) else 0) 0 1
    ⟨[2], fun k => if k = 0 then 1 else 0⟩ rfl (by decide) (by decide) (by decide)

/-! ## `Gate.get_mpo` (operation.py lines 226-270) -/

/-- `torch.eye(m)`: the `m × m` identity matrix as a tensor. -/
def eyeT {K : Type} [CommRing K] (m : ℕ) : Tensor K :=
  ⟨[m, m], fun k => if k / m = k % m then 1 else 0⟩

/-- The identity MPO tensor inserted at an untouched site (operation.py lines
264-266): `torch.eye(chi * 2).reshape(chi, 2, chi, 2).permute(0, 1, 3, 2)`. -/
def insertIdentity {K : Type} [CommRing K] (chi : ℕ) : Tensor K :=
  ((eyeT (chi * 2)).reshape [chi, 2, chi, 2]).permute [0, 1, 3, 2]

/-- `tensors[-1].shape[-1]`: the right bond dimension of the last tensor so far. -/
def lastBond {K : Type} (ts : List (Tensor K)) : ℕ :=
  ((ts.getLast?).map (fun t => t.shape.getD 3 0)).getD 0

/-- The inner `for _ in range(previous_i + 1, i)` loop of `get_mpo` (operation.py
lines 262-266): append one identity per missing site, each sized by the current
last bond. -/
def appendGaps {K : Type} [CommRing K] : ℕ → List (Tensor K) → List (Tensor K)
  | 0, ts => ts
  | g + 1, ts => appendGaps g (ts ++ [insertIdentity (lastBond ts)])

/-- `main_tensor.reshape(nleft, 2, 2, nright)` for a rank-3 site tensor
(operation.py lines 267-268). -/
def reshape4 {K : Type} (t : Tensor K) : Tensor K :=
  t.reshape [t.shape.getD 0 0, 2, 2, t.shape.getD 2 0]

/-- The `for i, main_tensor in zip(index_sort, main_tensors)` loop of `get_mpo`
(operation.py lines 258-269), with `previous_i` carried explicitly. -/
def mpoBuild {K : Type} [CommRing K] :
    Option ℕ → List (Tensor K) → List (ℕ × Tensor K) → List (Tensor K)
  | _, ts, [] => ts
  | none, ts, p :: rest => mpoBuild (some p.1) (ts ++ [reshape4 p.2]) rest
  | some prev, ts, p :: rest =>
      mpoBuild (some p.1) (appendGaps (p.1 - prev - 1) ts ++ [reshape4 p.2]) rest

/-- Python's `min(l)` with `0` for the empty list (where Python raises). -/
def listMinD : List ℕ → ℕ
  | [] => 0
  | a :: r => r.foldl min a

/-- Python's `max(l)` with `0` for the empty list (where Python raises). -/
def listMaxD : List ℕ → ℕ
  | [] => 0
  | a :: r => r.foldl max a

/-- `Gate.get_mpo` (operation.py lines 226-270). The site tensors produced by
`state_to_tensors` of the reshuffled unitary enter as the parameter `mainTensors`
(`deepquantum/qmath.py` is not among the repository's files); the result pairs the
tensor chain — gap identities inserted for the untouched intermediate sites — with
`index_left = min(wires + controls)`. -/
def get_mpo {K : Type} [CommRing K] (wires controls : List ℕ)
    (mainTensors : List (Tensor K)) : List (Tensor K) × ℕ :=
  (mpoBuild none []
      ((List.insertionSort (· ≤ ·) (wires ++ controls)).zip mainTensors),
    listMinD (wires ++ controls))

theorem appendGaps_length {K : Type} [CommRing K] :
    ∀ (g : ℕ) (ts : List (Tensor K)), (appendGaps g ts).length = ts.length + g := by
  intro g
  induction g with
  | zero => intro ts; rfl
  | succ n ih =>
    intro ts
    show (appendGaps n (ts ++ [insertIdentity (lastBond ts)])).length = _
    rw [ih, List.length_append]
    simp only [List.length_singleton]
    omega

theorem insertIdentity_shape {K : Type} [CommRing K] (chi : ℕ) :
    (insertIdentity chi : Tensor K).shape = [chi, 2, 2, chi] := rfl

theorem lastBond_append_insert {K : Type} [CommRing K] (ts : List (Tensor K))
    (chi : ℕ) : lastBond (ts ++ [insertIdentity chi]) = chi := by
  unfold lastBond
  rw [List.getLast?_concat]
  rfl

theorem appendGaps_eq_replicate {K : Type} [CommRing K] :
    ∀ (g : ℕ) (ts : List (Tensor K)),
    appendGaps g ts = ts ++ List.replicate g (insertIdentity (lastBond ts)) := by
  intro g
  induction g with
  | zero => intro ts; simp [appendGaps]
  | succ n ih =>
    intro ts
    show appendGaps n (ts ++ [insertIdentity (lastBond ts)]) = _
    rw [ih, lastBond_append_insert, List.append_assoc]
    congr 1

theorem mpoBuild_length {K : Type} [CommRing K] :
    ∀ (pairs : List (ℕ × Tensor K)) (prev : ℕ) (ts : List (Tensor K)),
    List.Chain (· < ·) prev (pairs.map Prod.fst) →
    (mpoBuild (some prev) ts pairs).length
      = ts.length + ((pairs.map Prod.fst).foldl max prev - prev) := by
  intro pairs
  induction pairs with
  | nil =>
    intro prev ts _
    show ts.length = ts.length + (prev - prev)
    omega
  | cons p rest ih =>
    intro prev ts hch
    rw [List.map_cons] at hch
    have hlt : prev < p.1 := (List.chain_cons.mp hch).1
    have hch' := (List.chain_cons.mp hch).2
    show (mpoBuild (some p.1)
      (appendGaps (p.1 - prev - 1) ts ++ [reshape4 p.2]) rest).length = _
    rw [ih p.1 _ hch', List.length_append, appendGaps_length]
    have hM : p.1 ≤ (rest.map Prod.fst).foldl max p.1 :=
      foldl_max_ge (List.mem_cons_self _ _)
    rw [List.map_cons]
    show _ = ts.length + ((rest.map Prod.fst).foldl max (max prev p.1) - prev)
    rw [Nat.max_eq_right (le_of_lt hlt)]
    simp only [List.length_singleton]
    omega

theorem foldl_min_of_le {α : Type} [LinearOrder α] {a : α} {l : List α}
    (h : ∀ x ∈ l, a ≤ x) : l.foldl min a = a := by
  apply le_antisymm (foldl_min_le (List.mem_cons_self a l))
  rcases List.mem_cons.mp (@foldl_min_mem α _ l a) with h1 | h1
  · rw [h1]
  · exact h _ h1

theorem listMinD_le {l : List ℕ} {x : ℕ} (h : x ∈ l) : listMinD l ≤ x := by
  cases l with
  | nil => exact absurd h (List.not_mem_nil x)
  | cons a r => exact foldl_min_le h

theorem listMinD_mem {l : List ℕ} (h : l ≠ []) : listMinD l ∈ l := by
  cases l with
  | nil => exact absurd rfl h
  | cons a r => exact foldl_min_mem

theorem listMaxD_ge {l : List ℕ} {x : ℕ} (h : x ∈ l) : x ≤ listMaxD l := by
  cases l with
  | nil => exact absurd h (List.not_mem_nil x)
  | cons a r => exact foldl_max_ge h

theorem listMaxD_mem {l : List ℕ} (h : l ≠ []) : listMaxD l ∈ l := by
  cases l with
  | nil => exact absurd rfl h
  | cons a r => exact foldl_max_mem

theorem listMinD_perm {l₁ l₂ : List ℕ} (h : List.Perm l₁ l₂) (hne : l₁ ≠ []) :
    listMinD l₁ = listMinD l₂ := by
  have hne₂ : l₂ ≠ [] := by
    intro hh
    subst hh
    exact hne h.eq_nil
  exact le_antisymm (listMinD_le (h.mem_iff.mpr (listMinD_mem hne₂)))
    (listMinD_le (h.mem_iff.mp (listMinD_mem hne)))

theorem listMaxD_perm {l₁ l₂ : List ℕ} (h : List.Perm l₁ l₂) (hne : l₁ ≠ []) :
    listMaxD l₁ = listMaxD l₂ := by
  have hne₂ : l₂ ≠ [] := by
    intro hh
    subst hh
    exact hne h.eq_nil
  exact le_antisymm (listMaxD_ge (h.mem_iff.mp (listMaxD_mem hne)))
    (listMaxD_ge (h.mem_iff.mpr (listMaxD_mem hne₂)))

/-- The inserted identity is the Kronecker delta `δ_{i,j} δ_{a,b}` on its valid
index range. -/
theorem insertIdentity_entry {K : Type} [CommRing K] (chi i a b j : ℕ)
    (hi : i < chi) (hj : j < chi) (ha : a < 2) (hb : b < 2) :
    (insertIdentity chi : Tensor K).entry [i, a, b, j]
      = if i = j ∧ a = b then 1 else 0 := by
  have hv : ValidIdx (Tensor.permuteShape [0, 1, 3, 2]
      ((eyeT (chi * 2) : Tensor K).reshape [chi, 2, chi, 2])) [i, a, b, j] := by
    show ValidIdx [chi, 2, 2, chi] [i, a, b, j]
    exact List.Forall₂.cons hi (List.Forall₂.cons ha
      (List.Forall₂.cons hb (List.Forall₂.cons hj List.Forall₂.nil)))
  show (((eyeT (chi * 2) : Tensor K).reshape [chi, 2, chi, 2]).permute
    [0, 1, 3, 2]).entry [i, a, b, j] = _
  rw [Tensor.permute_entry _ _ hv]
  show (eyeT (chi * 2) : Tensor K).data (flattenIdx [chi, 2, chi, 2] [i, a, j, b]) = _
  have hk : flattenIdx [chi, 2, chi, 2] [i, a, j, b]
      = (i * 2 + a) * (chi * 2) + (j * 2 + b) := by
    simp [flattenIdx]
    ring
  rw [hk]
  show (if ((i * 2 + a) * (chi * 2) + (j * 2 + b)) / (chi * 2)
      = ((i * 2 + a) * (chi * 2) + (j * 2 + b)) % (chi * 2) then (1:K) else 0) = _
  rw [mul_add_div_eq (by omega), mul_add_mod_eq (by omega)]
  by_cases h : i = j ∧ a = b
  · rw [if_pos (by omega), if_pos h]
  · rw [if_neg (fun hE => h (by omega)), if_neg h]

/-- **C6.** `get_mpo` returns `(tensors, index_left)` with `index_left` the
minimum of `wires + controls` and `len(tensors) = max - min + 1`; each untouched
intermediate site receives the identity tensor `eye(chi*2).reshape(chi,2,chi,2)
.permute(0,1,3,2)` sized by the previous tensor's right bond `chi`, of shape
`(chi, 2, 2, chi)` and with Kronecker-delta entries `δ_{i,j} δ_{a,b}`. -/
theorem claim_C6 {K : Type} [CommRing K] (wires controls : List ℕ)
    (mainTensors : List (Tensor K)) (hne : wires ++ controls ≠ [])
    (hnd : (wires ++ controls).Nodup)
    (hlen : mainTensors.length = (wires ++ controls).length) :
    ((get_mpo wires controls mainTensors).2 ∈ wires ++ controls
      ∧ ∀ m ∈ wires ++ controls, (get_mpo wires controls mainTensors).2 ≤ m)
    ∧ (get_mpo wires controls mainTensors).1.length
        = listMaxD (wires ++ controls) - listMinD (wires ++ controls) + 1
    ∧ (∀ (g : ℕ) (ts : List (Tensor K)),
        appendGaps g ts = ts ++ List.replicate g (insertIdentity (lastBond ts)))
    ∧ (∀ chi : ℕ, (insertIdentity chi : Tensor K).shape = [chi, 2, 2, chi])
    ∧ ∀ chi i a b j : ℕ, i < chi → j < chi → a < 2 → b < 2 →
        (insertIdentity chi : Tensor K).entry [i, a, b, j]
          = if i = j ∧ a = b then 1 else 0 := by
  refine ⟨⟨listMinD_mem hne, fun m hm => listMinD_le hm⟩, ?_,
    appendGaps_eq_replicate, insertIdentity_shape,
    fun chi i a b j hi hj ha hb => insertIdentity_entry chi i a b j hi hj ha hb⟩
  have hperm : List.Perm (List.insertionSort (· ≤ ·) (wires ++ controls))
      (wires ++ controls) := List.perm_insertionSort _ _
  have hsorted : List.Sorted (· ≤ ·) (List.insertionSort (· ≤ ·) (wires ++ controls)) :=
    List.sorted_insertionSort _ _
  have hnds : (List.insertionSort (· ≤ ·) (wires ++ controls)).Nodup :=
    (List.Perm.nodup_iff hperm).mpr hnd
  rw [listMinD_perm hperm.symm hne, listMaxD_perm hperm.symm hne]
  rcases hs : List.insertionSort (· ≤ ·) (wires ++ controls) with _ | ⟨a, s'⟩
  · rw [hs] at hperm
    exact absurd hperm.symm.eq_nil hne
  · rw [hs] at hperm hsorted hnds
    have hlen' : mainTensors.length = s'.length + 1 := by
      rw [hlen, ← hperm.length_eq, List.length_cons]
    rcases hmt : mainTensors with _ | ⟨t, mts'⟩
    · rw [hmt] at hlen'
      simp at hlen'
    · rw [hmt] at hlen'
      have hlen'' : s'.length = mts'.length := by
        rw [List.length_cons] at hlen'
        omega
      have hmapfst : (s'.zip mts').map Prod.fst = s' :=
        List.map_fst_zip s' mts' (le_of_eq hlen'')
      have hchain : List.Chain (· < ·) a s' := by
        apply List.chain_iff_pairwise.mpr
        exact (List.Pairwise.and hsorted hnds).imp
          (fun h => lt_of_le_of_ne h.1 h.2)
      have hchain' : List.Chain (· < ·) a ((s'.zip mts').map Prod.fst) := by
        rwa [hmapfst]
      have hmin : listMinD (a :: s') = a := by
        show s'.foldl min a = a
        exact foldl_min_of_le (List.rel_of_sorted_cons hsorted)
      show (mpoBuild none ([] : List (Tensor K))
        ((List.insertionSort (· ≤ ·) (wires ++ controls)).zip (t :: mts'))).length
        = listMaxD (a :: s') - listMinD (a :: s') + 1
      rw [hs]
      show (mpoBuild (some a) ([] ++ [reshape4 t]) (s'.zip mts')).length
        = listMaxD (a :: s') - listMinD (a :: s') + 1
      rw [mpoBuild_length (s'.zip mts') a _ hchain', hmapfst, hmin]
      show 1 + (s'.foldl max a - a) = s'.foldl max a - a + 1
      omega

/-- Witness for C6: a two-site gate on wires `[0]` with control `[2]` spans three
sites, so the chain has `2 - 0 + 1 = 3` tensors. -/
theorem claim_C6_witness :
    (get_mpo [0] [2]
        [⟨[1, 4, 2], fun k => (k : ℤ)⟩, ⟨[2, 4, 1], fun k => (k : ℤ)⟩]).1.length
      = listMaxD ([0] ++ [2]) - listMinD ([0] ++ [2]) + 1 :=
  (claim_C6 [0] [2] [⟨[1, 4, 2], fun k => (k : ℤ)⟩, ⟨[2, 4, 1], fun k => (k : ℤ)⟩]
    (by decide) (by decide) rfl).2.1

end DeepQuantum
